import Mathlib

/-!
# ABCU advising program: course catalog load and query

A shallow embedding of the course-catalog code of the capstone repository
(`Enhancement_One/Enhanced_ProjectTwo.cpp`,
`Enhancement_Two/Enhanced_ABCU_Advising_Program.cpp` and
`Enhancement_Two/Original_ProjectTwo.cpp`) together with the properties of
its load, listing and detail operations.

Conventions of the embedding:

* a `std::string` is a `List Char`; each element stands for one `char`;
* a `std::vector<T>` is a `List T`, `push_back` appends at the end;
* a `std::unordered_map<std::string, Course>` is an association list with
  pairwise distinct keys. The list stands for the set of entries only: the
  iteration order of the container depends on the hash function and on the
  bucket array, which `clear()` keeps, and is not modelled. A statement that
  depends on the order of iteration is made for every order, that is, for
  every permutation of the list;
* `std::sort` is `stdSort`, the algorithm of GNU libstdc++ (`std::__sort` of
  `bits/stl_algo.h`, with the heap functions of `bits/stl_heap.h`): the
  introsort loop followed by the final insertion sort. An array is a list and
  an iterator is a position in it. The C++ standard leaves the order of
  equivalent elements open; this implementation keeps it for at most 16
  elements and not beyond;
* a file is `Option Str`: `none` when the stream cannot be opened,
  `some content` otherwise;
* console output is not modelled as text; each printing function returns
  the data it prints.
-/

namespace ABCU

/-- A `std::string`. -/
abbrev Str := List Char

/-- The class `Course`. -/
structure Course where
  courseNumber : Str
  courseTitle : Str
  prerequisites : List Str
deriving DecidableEq, Repr

/-- A `std::unordered_map<std::string, Course>`: its entries, with pairwise
distinct keys. The order of the list is one of the orders in which the
container may iterate; which one it is depends on the hash function and on the
bucket array and is not modelled. -/
abbrev UMap := List (Str × Course)

/-- Assignment `m[k] = v`: overwrite the entry with key `k` when there is one,
insert a new entry otherwise. The place of a new entry in the list carries no
meaning: in the container it is fixed by the hash of the key and by the bucket
array, which `clear()` leaves at the size it has grown to. -/
def UMap.assign (m : UMap) (k : Str) (v : Course) : UMap :=
  if m.any (fun e => e.1 == k) then
    m.map (fun e => if e.1 = k then (k, v) else e)
  else
    (k, v) :: m

/-- Member `find`: the value stored under the key equal to `k`, if any. -/
def UMap.find (m : UMap) (k : Str) : Option Course :=
  (List.find? (fun e => e.1 == k) m).map (fun e => e.2)

/-- The keys of the map, in iteration order. -/
def UMap.keys (m : UMap) : List Str := m.map (fun e => e.1)

/-- Repeated `std::getline(stream, token, delim)` until the extraction fails:
the stream is cut at every `delim`; a final piece after the last `delim` is
produced only when it is non-empty, and an empty stream produces nothing. -/
def getlines (delim : Char) : Str → List Str
  | [] => []
  | c :: cs =>
    if c = delim then [] :: getlines delim cs
    else
      match getlines delim cs with
      | [] => [[c]]
      | t :: ts => (c :: t) :: ts

/-- Member `find_first_not_of(set)`: index of the first character that is not
in `set`, `none` for `npos`. -/
def find_first_not_of (set : Str) : Str → Option Nat
  | [] => none
  | c :: cs => if c ∈ set then (find_first_not_of set cs).map (· + 1) else some 0

/-- Member `find_last_not_of(set)`: index of the last character that is not in
`set`, `none` for `npos`. -/
def find_last_not_of (set : Str) : Str → Option Nat
  | [] => none
  | c :: cs =>
    match find_last_not_of set cs with
    | some i => some (i + 1)
    | none => if c ∈ set then none else some 0

/-- Member `substr(pos, count)`. -/
def substr (s : Str) (pos count : Nat) : Str := (s.drop pos).take count

/-- The characters `" \t"` that `trim` strips. -/
def blanks : Str := " \t".toList

/-- The lexicographic comparison `a < b` of `std::string`, character by
character on the character codes, a proper prefix being smaller. -/
def strLt : Str → Str → Bool
  | [], [] => false
  | [], _ :: _ => true
  | _ :: _, [] => false
  | a :: as, b :: bs =>
    if a.toNat < b.toNat then true
    else if b.toNat < a.toNat then false
    else strLt as bs

/-- The comparison `comp(i, j)` of the elements at two positions of the array;
a position outside the array does not arise in a run of the code. -/
def compAt {α : Type} (comp : α → α → Bool) (l : List α) (i j : Nat) : Bool :=
  match l[i]?, l[j]? with
  | some a, some b => comp a b
  | _, _ => false

/-- The call `std::iter_swap(i, j)`. -/
def iter_swap {α : Type} (l : List α) (i j : Nat) : List α :=
  match l[i]?, l[j]? with
  | some a, some b => (l.set i b).set j a
  | _, _ => l

/-- Function `__move_median_to_first` of `bits/stl_algo.h`. -/
def move_median_to_first {α : Type} (comp : α → α → Bool) (l : List α)
    (result a b c : Nat) : List α :=
  if compAt comp l a b then
    if compAt comp l b c then iter_swap l result b
    else if compAt comp l a c then iter_swap l result c
    else iter_swap l result a
  else if compAt comp l a c then iter_swap l result a
  else if compAt comp l b c then iter_swap l result c
  else iter_swap l result b

/-- The loop `while (comp(first, pivot)) ++first;` of `__unguarded_partition`. -/
def scanUp {α : Type} (comp : α → α → Bool) (l : List α) (pivot : Nat) : Nat → Nat → Nat
  | 0, first => first
  | fuel + 1, first =>
    if compAt comp l first pivot then scanUp comp l pivot fuel (first + 1) else first

/-- The loop `while (comp(pivot, last)) --last;` of `__unguarded_partition`. -/
def scanDown {α : Type} (comp : α → α → Bool) (l : List α) (pivot : Nat) : Nat → Nat
  | 0 => 0
  | last + 1 =>
    if compAt comp l pivot (last + 1) then scanDown comp l pivot last else last + 1

/-- Function `__unguarded_partition` of `bits/stl_algo.h`: the array after the
swaps and the returned cut. The first argument bounds the number of rounds of
the `while (true)` loop; each round advances `first`. -/
def unguarded_partition {α : Type} (comp : α → α → Bool) (pivot : Nat) :
    Nat → List α → Nat → Nat → List α × Nat
  | 0, l, first, _ => (l, first)
  | fuel + 1, l, first, last =>
    let first1 := scanUp comp l pivot l.length first
    let last1 := scanDown comp l pivot (last - 1)
    if !(first1 < last1) then (l, first1)
    else unguarded_partition comp pivot fuel (iter_swap l first1 last1) (first1 + 1) last1

/-- Function `__unguarded_partition_pivot` of `bits/stl_algo.h`. -/
def unguarded_partition_pivot {α : Type} (comp : α → α → Bool) (l : List α)
    (first last : Nat) : List α × Nat :=
  let mid := first + (last - first) / 2
  let l1 := move_median_to_first comp l first (first + 1) mid (last - 1)
  unguarded_partition comp first l1.length l1 (first + 1) last

/-- The assignment `*(first + i) = value`; `none` when the position is outside
the array, which does not arise in a run of the code. -/
def store {α : Type} (l : List α) (i : Nat) (value : α) : Option (List α) :=
  if i < l.length then some (l.set i value) else none

/-- Function `__push_heap` of `bits/stl_heap.h`, on the heap that starts at
position `base`. The first argument bounds the rounds of the loop; each round
moves the hole to its parent. -/
def push_heap {α : Type} (comp : α → α → Bool) (base topIndex : Nat) (value : α) :
    Nat → List α → Nat → Option (List α)
  | 0, l, holeIndex => store l (base + holeIndex) value
  | fuel + 1, l, holeIndex =>
    let parent := (holeIndex - 1) / 2
    match l[base + parent]? with
    | none => none
    | some p =>
      if holeIndex > topIndex && comp p value then
        match store l (base + holeIndex) p with
        | none => none
        | some l1 => push_heap comp base topIndex value fuel l1 parent
      else store l (base + holeIndex) value

/-- The first loop of `__adjust_heap`: the hole moves down to the larger child
while there are two children. Returns the array, the hole and `secondChild`. -/
def adjust_down {α : Type} (comp : α → α → Bool) (base len : Nat) :
    Nat → List α → Nat → Nat → Option (List α × Nat × Nat)
  | 0, l, holeIndex, secondChild => some (l, holeIndex, secondChild)
  | fuel + 1, l, holeIndex, secondChild =>
    if secondChild < (len - 1) / 2 then
      let sc := 2 * (secondChild + 1)
      let sc1 := if compAt comp l (base + sc) (base + (sc - 1)) then sc - 1 else sc
      match l[base + sc1]? with
      | none => none
      | some x =>
        match store l (base + holeIndex) x with
        | none => none
        | some l1 => adjust_down comp base len fuel l1 sc1 sc1
    else some (l, holeIndex, secondChild)

/-- Function `__adjust_heap` of `bits/stl_heap.h`, on the heap of `len`
elements that starts at position `base`. -/
def adjust_heap {α : Type} (comp : α → α → Bool) (base : Nat) (l : List α)
    (holeIndex len : Nat) (value : α) : Option (List α) :=
  let topIndex := holeIndex
  match adjust_down comp base len len l holeIndex holeIndex with
  | none => none
  | some (l1, hole1, secondChild) =>
    if len % 2 = 0 && secondChild = (len - 2) / 2 then
      let sc := 2 * (secondChild + 1)
      match l1[base + (sc - 1)]? with
      | none => none
      | some x =>
        match store l1 (base + hole1) x with
        | none => none
        | some l2 => push_heap comp base topIndex value len l2 (sc - 1)
    else push_heap comp base topIndex value len l1 hole1

/-- Function `__pop_heap` of `bits/stl_heap.h`. -/
def pop_heap {α : Type} (comp : α → α → Bool) (l : List α) (first last result : Nat) :
    Option (List α) :=
  match l[result]?, l[first]? with
  | some value, some top =>
    match store l result top with
    | none => none
    | some l1 => adjust_heap comp first l1 0 (last - first) value
  | _, _ => none

/-- The loop of `__make_heap`, from `parent` down to 0. -/
def make_heap_loop {α : Type} (comp : α → α → Bool) (first len : Nat) :
    Nat → List α → Option (List α)
  | 0, l =>
    match l[first]? with
    | none => none
    | some value => adjust_heap comp first l 0 len value
  | parent + 1, l =>
    match l[first + (parent + 1)]? with
    | none => none
    | some value =>
      match adjust_heap comp first l (parent + 1) len value with
      | none => none
      | some l1 => make_heap_loop comp first len parent l1

/-- Function `__make_heap` of `bits/stl_heap.h`. -/
def make_heap {α : Type} (comp : α → α → Bool) (l : List α) (first last : Nat) :
    Option (List α) :=
  if last - first < 2 then some l
  else make_heap_loop comp first (last - first) ((last - first - 2) / 2) l

/-- Function `__sort_heap` of `bits/stl_heap.h`; the first argument is
`last - first`. -/
def sort_heap {α : Type} (comp : α → α → Bool) (first : Nat) : Nat → List α → Option (List α)
  | 0, l => some l
  | n + 1, l =>
    if n + 1 > 1 then
      match pop_heap comp l first (first + n) (first + n) with
      | none => none
      | some l1 => sort_heap comp first n l1
    else some l

/-- The call `std::__partial_sort(first, last, last, comp)` of
`__introsort_loop`: `__heap_select`, whose loop over `[middle, last)` is
empty, then `__sort_heap`. -/
def partial_sort {α : Type} (comp : α → α → Bool) (l : List α) (first last : Nat) :
    Option (List α) :=
  match make_heap comp l first last with
  | none => none
  | some l1 => sort_heap comp first (last - first) l1

/-- Function `__introsort_loop` of `bits/stl_algo.h`, with `_S_threshold = 16`;
the recursion is on `depth_limit`, and a round of the `while` loop is the
second recursive call. -/
def introsort_loop {α : Type} (comp : α → α → Bool) : Nat → List α → Nat → Nat → List α
  | 0, l, first, last =>
    if last - first > 16 then (partial_sort comp l first last).getD l else l
  | depth_limit + 1, l, first, last =>
    if last - first > 16 then
      let r := unguarded_partition_pivot comp l first last
      let l2 := introsort_loop comp depth_limit r.1 r.2 last
      introsort_loop comp depth_limit l2 first r.2
    else l

/-- The loop of `lg`, bounded by its first argument. -/
def lgLoop : Nat → Nat → Nat
  | 0, _ => 0
  | fuel + 1, n => if n ≥ 2 then lgLoop fuel (n / 2) + 1 else 0

/-- Function `std::__lg`: the position of the highest set bit of `n`, the
integer part of its binary logarithm. -/
def lg (n : Nat) : Nat := lgLoop n n

/-- Function `__unguarded_linear_insert` of `bits/stl_algo.h`, on the elements
before the one to insert, taken from the nearest (`next`) back to the first:
`val` moves in front of every element it compares less than and stops at the
first one it does not; the result is in the same backward order. The code has
no test for the start of the array; it is called only when an element there
stops the loop. -/
def unguarded_linear_insert {α : Type} (comp : α → α → Bool) (val : α) : List α → List α
  | [] => [val]
  | next :: rest =>
    if comp val next then next :: unguarded_linear_insert comp val rest
    else val :: next :: rest

/-- One round of the loop of `__insertion_sort`, on the elements before `val`
in backward order: `val` goes to the front of the array when it compares less
than the first element, and is inserted by `__unguarded_linear_insert`
otherwise. -/
def insertion_step {α : Type} (comp : α → α → Bool) (done : List α) (val : α) : List α :=
  match done.getLast? with
  | none => [val]
  | some first =>
    if comp val first then done ++ [val]
    else unguarded_linear_insert comp val done

/-- Function `__insertion_sort` of `bits/stl_algo.h`; the result is in backward
order. -/
def insertion_sort {α : Type} (comp : α → α → Bool) (l : List α) : List α :=
  l.foldl (insertion_step comp) []

/-- Function `__unguarded_insertion_sort` of `bits/stl_algo.h`: the elements of
`l` are inserted in turn into the part `done` before them, which is in
backward order, as is the result. -/
def unguarded_insertion_sort {α : Type} (comp : α → α → Bool) (done l : List α) : List α :=
  l.foldl (fun acc val => unguarded_linear_insert comp val acc) done

/-- Function `__final_insertion_sort` of `bits/stl_algo.h`, with
`_S_threshold = 16`. -/
def final_insertion_sort {α : Type} (comp : α → α → Bool) (l : List α) : List α :=
  if l.length > 16 then
    (unguarded_insertion_sort comp (insertion_sort comp (l.take 16)) (l.drop 16)).reverse
  else (insertion_sort comp l).reverse

/-- The call `std::sort(first, last, comp)` as GNU libstdc++ implements it
(`std::__sort`): the introsort loop with depth limit `2 * lg(n)`, then the
final insertion sort. -/
def stdSort {α : Type} (comp : α → α → Bool) (l : List α) : List α :=
  if l.isEmpty then l
  else final_insertion_sort comp
    (introsort_loop comp (lg l.length * 2) l 0 l.length)

/-- The part of a string up to and including its last non-blank character,
empty when every character is blank. -/
def keepToLast (s : Str) : Str :=
  match find_last_not_of blanks s with
  | some i => s.take (i + 1)
  | none => []

/-- An ASCII letter, by character code. -/
def IsAsciiLetter (c : Char) : Prop :=
  (65 ≤ c.toNat ∧ c.toNat ≤ 90) ∨ (97 ≤ c.toNat ∧ c.toNat ≤ 122)

/-- An ASCII digit, by character code. -/
def IsAsciiDigit (c : Char) : Prop := 48 ≤ c.toNat ∧ c.toNat ≤ 57

/-- Two characters that are equal or are the two cases of one ASCII letter. -/
def SameUpToCase (a b : Char) : Prop :=
  a = b ∨ (IsAsciiLetter a ∧ IsAsciiLetter b ∧
    (a.toNat = b.toNat + 32 ∨ b.toNat = a.toNat + 32))

/-- The index built by assigning the records in order into a map. -/
def assignAll (m : UMap) (recs : List Course) : UMap :=
  recs.foldl (fun acc c => acc.assign c.courseNumber c) m

namespace EnhancementOne

/-- Function `trim` of `Enhanced_ProjectTwo.cpp`. -/
def trim (str : Str) : Str :=
  match find_first_not_of blanks str with
  | none => []
  | some first =>
    match find_last_not_of blanks str with
    | some last => substr str first (last - first + 1)
    | none => substr str first (2 ^ 64 - first)

/-- The loop of `isValidCourseNumber`: false at the first character that
`std::isalnum` rejects. -/
def alnumLoop : Str → Bool
  | [] => true
  | c :: cs => if !c.isAlphanum then false else alnumLoop cs

/-- Function `isValidCourseNumber` of `Enhanced_ProjectTwo.cpp`. -/
def isValidCourseNumber (courseNum : Str) : Bool :=
  if courseNum.length < 5 || courseNum.length > 8 then false
  else alnumLoop courseNum

/-- Function `split` of `Enhanced_ProjectTwo.cpp`: every piece read by
`getline` is trimmed and pushed when it is not empty. -/
def split (str : Str) (delimiter : Char) : List Str :=
  (getlines delimiter str).foldl
    (fun tokens token =>
      let token := trim token
      if !token.isEmpty then tokens ++ [token] else tokens)
    []

/-- The prerequisite loop of `loadCoursesFromFile` over `tokens[2..]`. -/
def collectPrereqs (tokens : List Str) : List Str :=
  (tokens.drop 2).foldl
    (fun prerequisites tok =>
      let prereq := trim tok
      if !prereq.isEmpty && isValidCourseNumber prereq then prerequisites ++ [prereq]
      else prerequisites)
    []

/-- The catalog state: the vector `courses` and the map `courseMap`. -/
structure Catalog where
  courses : List Course
  courseMap : UMap
deriving DecidableEq, Repr

/-- One iteration of the `while (std::getline(file, line))` loop of
`loadCoursesFromFile`; each `continue` leaves the state as it is. -/
def loadStep (st : Catalog) (line : Str) : Catalog :=
  let line := trim line
  if line.isEmpty then st
  else
    let tokens := split line ','
    if tokens.length < 2 then st
    else
      let courseNumber := trim (tokens.getD 0 [])
      let courseTitle := trim (tokens.getD 1 [])
      if !isValidCourseNumber courseNumber then st
      else
        let prerequisites := collectPrereqs tokens
        let course : Course := ⟨courseNumber, courseTitle, prerequisites⟩
        ⟨st.courses ++ [course], st.courseMap.assign courseNumber course⟩

/-- The record that one iteration of the load loop stores for `line`, `none`
when the iteration ends in a `continue`. -/
def lineRecord (line : Str) : Option Course :=
  let line := trim line
  if line.isEmpty then none
  else
    let tokens := split line ','
    if tokens.length < 2 then none
    else
      let courseNumber := trim (tokens.getD 0 [])
      let courseTitle := trim (tokens.getD 1 [])
      if !isValidCourseNumber courseNumber then none
      else some ⟨courseNumber, courseTitle, collectPrereqs tokens⟩

/-- Function `loadCoursesFromFile` of `Enhanced_ProjectTwo.cpp`: the returned
flag and the state of `courses` and `courseMap` after the call. -/
def loadCoursesFromFile (file : Option Str) (st : Catalog) : Bool × Catalog :=
  match file with
  | none => (false, st)
  | some content =>
    let st1 := (getlines '\n' content).foldl loadStep ⟨[], []⟩
    if st1.courses.isEmpty then (false, st1) else (true, st1)

/-- The comparator of `printCourseList`. -/
def courseLt (a b : Course) : Bool := strLt a.courseNumber b.courseNumber

/-- Function `printCourseList`: `none` is the message "No courses loaded",
otherwise the printed lines as pairs (course number, course title). -/
def printCourseList (courses : List Course) : Option (List (Str × Str)) :=
  if courses.isEmpty then none
  else
    let sortedCourses := stdSort courseLt courses
    some (sortedCourses.map (fun course => (course.courseNumber, course.courseTitle)))

/-- The title printed for one prerequisite: the title of the entry that
`courseMap.find` returns, `"Unknown"` when it returns `end()`. -/
def prereqTitle (courseMap : UMap) (prereq : Str) : Str :=
  match courseMap.find prereq with
  | some c => c.courseTitle
  | none => "Unknown".toList

/-- The loop over `course.prerequisites` in `printCourseInfo`: at index `i`
the text `<code> (<title>)`, followed by `", "` when `i < size - 1`. -/
def prereqLoop (courseMap : UMap) (size : Nat) : Nat → List Str → Str
  | _, [] => []
  | i, p :: rest =>
    p ++ " (".toList ++ prereqTitle courseMap p ++ ")".toList
      ++ (if i < size - 1 then ", ".toList else [])
      ++ prereqLoop courseMap size (i + 1) rest

/-- The text printed after `Prerequisites: `. -/
def renderPrereqs (courseMap : UMap) (prerequisites : List Str) : Str :=
  if prerequisites.isEmpty then "None".toList
  else prereqLoop courseMap prerequisites.length 0 prerequisites

/-- What `printCourseInfo` prints. -/
inductive InfoResult where
  | noCourses
  | notFound (courseNumber : Str)
  | found (courseNumber courseTitle prerequisites : Str)
deriving DecidableEq, Repr

/-- The `std::transform(..., ::toupper)` of a whole string. -/
def toUpperStr (s : Str) : Str := s.map Char.toUpper

/-- The scan of `printCourseInfo` from `courseMap.begin()`: the first entry
whose upper-cased key equals the upper-cased query. -/
def scanMap (courseMap : UMap) (upperCourseNumber : Str) : Option (Str × Course) :=
  List.find? (fun e => toUpperStr e.1 == upperCourseNumber) courseMap

/-- Function `printCourseInfo` of `Enhanced_ProjectTwo.cpp`. -/
def printCourseInfo (courseMap : UMap) (courseNumber : Str) : InfoResult :=
  if courseMap.isEmpty then InfoResult.noCourses
  else
    let upperCourseNumber := toUpperStr (trim courseNumber)
    match scanMap courseMap upperCourseNumber with
    | none => InfoResult.notFound courseNumber
    | some e =>
      let course := e.2
      InfoResult.found course.courseNumber course.courseTitle
        (renderPrereqs courseMap course.prerequisites)

/-- The catalog after a session that starts empty and calls
`loadCoursesFromFile` once for each file of the list, as `main` does. -/
def loadSequence (files : List (Option Str)) : Catalog :=
  files.foldl (fun st file => (loadCoursesFromFile file st).2) ⟨[], []⟩

/-- A record whose course number and prerequisites all pass
`isValidCourseNumber`. -/
def RecordValid (c : Course) : Prop :=
  isValidCourseNumber c.courseNumber = true ∧
    ∀ p ∈ c.prerequisites, isValidCourseNumber p = true

/-- Every record held in `courses` and in `courseMap` is valid, and every map
entry is stored under its own course number. -/
def CatalogValid (st : Catalog) : Prop :=
  (∀ c ∈ st.courses, RecordValid c) ∧
    (∀ e ∈ st.courseMap, e.1 = e.2.courseNumber ∧ RecordValid e.2)

end EnhancementOne

namespace EnhancementTwo

/-- Function `split` of `Enhanced_ABCU_Advising_Program.cpp`: every non-empty
piece read by `getline` is pushed as it is. -/
def split (str : Str) (delimiter : Char) : List Str :=
  (getlines delimiter str).foldl
    (fun tokens token => if !token.isEmpty then tokens ++ [token] else tokens)
    []

/-- Function `isValidCourseNumber` of `Enhanced_ABCU_Advising_Program.cpp`:
a full match of the pattern `^[A-Z]{4}[0-9]{3}$`. -/
def isValidCourseNumber (courseNumber : Str) : Bool :=
  match courseNumber with
  | [a, b, c, d, x, y, z] =>
    a.isUpper && b.isUpper && c.isUpper && d.isUpper && x.isDigit && y.isDigit && z.isDigit
  | _ => false

/-- The prerequisite loop of `loadCoursesFromFile` over `tokens[2..]`. -/
def collectPrereqs (tokens : List Str) : List Str :=
  (tokens.drop 2).foldl
    (fun prerequisites tok =>
      if !tok.isEmpty && isValidCourseNumber tok then prerequisites ++ [tok]
      else prerequisites)
    []

/-- The catalog state: the map `courseMap` and the vector `sortedCourses`. -/
structure Catalog where
  courseMap : UMap
  sortedCourses : List Course
deriving DecidableEq, Repr

/-- One iteration of the reading loop of `loadCoursesFromFile`. -/
def loadStep (st : Catalog) (line : Str) : Catalog :=
  if line.isEmpty then st
  else
    let tokens := split line ','
    if tokens.length < 2 then st
    else
      let courseNumber := tokens.getD 0 []
      if !isValidCourseNumber courseNumber then st
      else
        let courseTitle := tokens.getD 1 []
        let prerequisites := collectPrereqs tokens
        let course : Course := ⟨courseNumber, courseTitle, prerequisites⟩
        ⟨st.courseMap.assign courseNumber course, st.sortedCourses ++ [course]⟩

/-- The comparator of the sort in `loadCoursesFromFile`. -/
def courseLt (a b : Course) : Bool := strLt a.courseNumber b.courseNumber

/-- Function `loadCoursesFromFile` of `Enhanced_ABCU_Advising_Program.cpp`:
the returned flag and the state of `courseMap` and `sortedCourses` after the
call. -/
def loadCoursesFromFile (file : Option Str) (st : Catalog) : Bool × Catalog :=
  match file with
  | none => (false, st)
  | some content =>
    let st1 := (getlines '\n' content).foldl loadStep ⟨[], []⟩
    (true, ⟨st1.courseMap, stdSort courseLt st1.sortedCourses⟩)

end EnhancementTwo

/-- A line that is empty or consists only of spaces and tabs. -/
def isBlankLine (l : Str) : Bool := l.all (fun c => decide (c ∈ blanks))

/-- The text of a file with the given lines, each ended by a newline. -/
def unlines : List Str → Str
  | [] => []
  | l :: ls => l ++ '\n' :: unlines ls

/-- The file obtained from `content` by deleting every blank line. -/
def dropBlankLines (content : Str) : Str :=
  unlines ((getlines '\n' content).filter (fun l => !isBlankLine l))

/-- The tokens that `split` of `Enhanced_ProjectTwo.cpp` keeps from a list of
pieces: each piece trimmed, the empty ones dropped. -/
def keptTokens (pieces : List Str) : List Str :=
  (pieces.map EnhancementOne.trim).filter (fun t => !t.isEmpty)

/-- The `std::transform(..., ::toupper)` of a whole string. -/
def toUpperAll (s : Str) : Str := s.map Char.toUpper

/-- What `printCourseInfo` of the files of `Enhancement_Two` prints. -/
inductive QueryResult where
  | noCourses
  | invalidFormat
  | notFound (courseNumber : Str)
  | found (courseNumber courseTitle prerequisites : Str)
deriving DecidableEq, Repr

/-- The loop over `course.prerequisites` in `printCourseInfo`, with the title
printed for a prerequisite given by `title`: at index `i` the text
`<code> (<title>)`, followed by `", "` when `i < size - 1`. -/
def titleLoop (title : Str → Str) (size : Nat) : Nat → List Str → Str
  | _, [] => []
  | i, p :: rest =>
    p ++ " (".toList ++ title p ++ ")".toList
      ++ (if i < size - 1 then ", ".toList else [])
      ++ titleLoop title size (i + 1) rest

/-- The text printed after `Prerequisites: `. -/
def renderTitles (title : Str → Str) (prerequisites : List Str) : Str :=
  if prerequisites.isEmpty then "None".toList
  else titleLoop title prerequisites.length 0 prerequisites

namespace EnhancementTwo

/-- The record that one iteration of the reading loop stores for `line`,
`none` when the iteration ends in a `continue`. -/
def lineRecord (line : Str) : Option Course :=
  if line.isEmpty then none
  else
    let tokens := split line ','
    if tokens.length < 2 then none
    else
      let courseNumber := tokens.getD 0 []
      if !isValidCourseNumber courseNumber then none
      else some ⟨courseNumber, tokens.getD 1 [], collectPrereqs tokens⟩

/-- The title printed for one prerequisite: the title of the entry that
`courseMap.find` returns, `"Unknown"` when it returns `end()`. -/
def prereqTitle (courseMap : UMap) (prereq : Str) : Str :=
  match courseMap.find prereq with
  | some c => c.courseTitle
  | none => "Unknown".toList

/-- Function `printCourseInfo` of `Enhanced_ABCU_Advising_Program.cpp`. -/
def printCourseInfo (courseMap : UMap) (courseNumber : Str) : QueryResult :=
  if courseMap.isEmpty then QueryResult.noCourses
  else
    let upperCourseNumber := toUpperAll courseNumber
    if !isValidCourseNumber upperCourseNumber then QueryResult.invalidFormat
    else
      match courseMap.find upperCourseNumber with
      | none => QueryResult.notFound courseNumber
      | some course =>
        QueryResult.found course.courseNumber course.courseTitle
          (renderTitles (prereqTitle courseMap) course.prerequisites)

end EnhancementTwo

namespace Original

/-- Function `split` of `Original_ProjectTwo.cpp`: every non-empty piece read
by `getline` is pushed as it is. -/
def split (str : Str) (delimiter : Char) : List Str :=
  (getlines delimiter str).foldl
    (fun tokens token => if !token.isEmpty then tokens ++ [token] else tokens)
    []

/-- The prerequisite loop of `loadCoursesFromFile` over `tokens[2..]`: every
non-empty token is pushed. -/
def collectPrereqs (tokens : List Str) : List Str :=
  (tokens.drop 2).foldl
    (fun prerequisites tok =>
      if !tok.isEmpty then prerequisites ++ [tok] else prerequisites)
    []

/-- One iteration of the reading loop of `loadCoursesFromFile`. -/
def loadStep (courses : List Course) (line : Str) : List Course :=
  if line.isEmpty then courses
  else
    let tokens := split line ','
    if tokens.length < 2 then courses
    else
      let courseNumber := tokens.getD 0 []
      let courseTitle := tokens.getD 1 []
      let prerequisites := collectPrereqs tokens
      courses ++ [⟨courseNumber, courseTitle, prerequisites⟩]

/-- The record that one iteration of the reading loop stores for `line`,
`none` when the iteration ends in a `continue`. -/
def lineRecord (line : Str) : Option Course :=
  if line.isEmpty then none
  else
    let tokens := split line ','
    if tokens.length < 2 then none
    else some ⟨tokens.getD 0 [], tokens.getD 1 [], collectPrereqs tokens⟩

/-- Function `loadCoursesFromFile` of `Original_ProjectTwo.cpp`: the returned
flag and the vector `courses` after the call. -/
def loadCoursesFromFile (file : Option Str) (courses : List Course) : Bool × List Course :=
  match file with
  | none => (false, courses)
  | some content => (true, (getlines '\n' content).foldl loadStep [])

/-- The inner loop of `printCourseInfo`: the title of the first course whose
number equals the prerequisite, `"Unknown"` when there is none. -/
def prereqTitle : List Course → Str → Str
  | [], _ => "Unknown".toList
  | c :: cs, prereq => if c.courseNumber == prereq then c.courseTitle else prereqTitle cs prereq

/-- Function `printCourseInfo` of `Original_ProjectTwo.cpp`: the first course
of the vector whose upper-cased number equals the upper-cased query. -/
def printCourseInfo (courses : List Course) (courseNumber : Str) : QueryResult :=
  if courses.isEmpty then QueryResult.noCourses
  else
    let upperCourseNumber := toUpperAll courseNumber
    match List.find? (fun course => toUpperAll course.courseNumber == upperCourseNumber) courses with
    | some course =>
      QueryResult.found course.courseNumber course.courseTitle
        (renderTitles (prereqTitle courses) course.prerequisites)
    | none => QueryResult.notFound courseNumber

end Original

end ABCU

/-! ## Lemmas on `trim`, `split` and the validity predicate -/

namespace ABCU

open EnhancementOne

theorem mem_blanks (c : Char) : c ∈ blanks ↔ c = Char.ofNat 32 ∨ c = Char.ofNat 9 := by
  simp [blanks]

theorem find_first_not_of_eq_none (set s : Str) :
    find_first_not_of set s = none ↔ ∀ c ∈ s, c ∈ set := by
  induction s with
  | nil => simp [find_first_not_of]
  | cons c cs ih =>
    by_cases h : c ∈ set <;> simp [find_first_not_of, h, ih]

theorem find_last_not_of_eq_none (set s : Str) :
    find_last_not_of set s = none ↔ ∀ c ∈ s, c ∈ set := by
  induction s with
  | nil => simp [find_last_not_of]
  | cons c cs ih =>
    cases hl : find_last_not_of set cs with
    | none =>
      have := ih.mp hl
      by_cases h : c ∈ set
      · simpa [find_last_not_of, hl, h] using this
      · simp [find_last_not_of, hl, h]
    | some i =>
      have : ¬ ∀ c ∈ cs, c ∈ set := fun h => by simp [ih.mpr h] at hl
      simp only [find_last_not_of, hl]
      simp
      intro _
      simpa using this

theorem trim_nil : trim [] = [] := by simp [trim, find_first_not_of]

theorem trim_cons_blank (c : Char) (cs : Str) (h : c ∈ blanks) : trim (c :: cs) = trim cs := by
  unfold trim
  simp only [find_first_not_of, h, if_true, find_last_not_of]
  cases hf : find_first_not_of blanks cs with
  | none => simp
  | some first =>
    cases hl : find_last_not_of blanks cs with
    | none =>
      have := (find_first_not_of_eq_none _ _).mpr ((find_last_not_of_eq_none _ _).mp hl)
      simp [this] at hf
    | some last =>
      simp [substr]

theorem trim_cons_nonblank (c : Char) (cs : Str) (h : c ∉ blanks) :
    trim (c :: cs) = c :: keepToLast cs := by
  unfold trim keepToLast
  simp only [find_first_not_of, h, if_false, find_last_not_of]
  cases hl : find_last_not_of blanks cs with
  | none => simp [substr]
  | some last => simp [substr]

theorem find_last_take (s : Str) (i : Nat) (h : find_last_not_of blanks s = some i) :
    find_last_not_of blanks (s.take (i + 1)) = some i := by
  induction s generalizing i with
  | nil => simp [find_last_not_of] at h
  | cons c cs ih =>
    simp only [find_last_not_of] at h
    cases hl : find_last_not_of blanks cs with
    | some j =>
      simp only [hl, Option.some.injEq] at h
      subst h
      simp [List.take, find_last_not_of, ih j hl]
    | none =>
      simp only [hl] at h
      by_cases hc : c ∈ blanks
      · simp [hc] at h
      · simp only [hc, if_false, Option.some.injEq] at h
        subst h
        simp [find_last_not_of, hc]

theorem keepToLast_idem (s : Str) : keepToLast (keepToLast s) = keepToLast s := by
  unfold keepToLast
  cases hl : find_last_not_of blanks s with
  | none => simp [find_last_not_of]
  | some i => simp [find_last_take s i hl]

theorem trim_idem (s : Str) : trim (trim s) = trim s := by
  induction s with
  | nil => simp [trim_nil]
  | cons c cs ih =>
    by_cases hc : c ∈ blanks
    · rw [trim_cons_blank c cs hc, ih]
    · rw [trim_cons_nonblank c cs hc, trim_cons_nonblank c _ hc, keepToLast_idem]

theorem alnumLoop_iff (s : Str) : alnumLoop s = true ↔ ∀ c ∈ s, c.isAlphanum = true := by
  induction s with
  | nil => simp [alnumLoop]
  | cons c cs ih =>
    by_cases h : c.isAlphanum = true <;> simp [alnumLoop, h, ih]

theorem isAlphanum_not_blank (c : Char) (h : c.isAlphanum = true) : c ∉ blanks := by
  rw [mem_blanks]
  rintro (rfl | rfl) <;> revert h <;> decide

theorem trim_eq_self_of_no_blank (s : Str) (h : ∀ c ∈ s, c ∉ blanks) : trim s = s := by
  cases s with
  | nil => exact trim_nil
  | cons c cs =>
    rw [trim_cons_nonblank c cs (h c (by simp))]
    congr 1
    have hcs : ∀ c ∈ cs, c ∉ blanks := fun x hx => h x (by simp [hx])
    clear h
    unfold keepToLast
    induction cs with
    | nil => simp [find_last_not_of]
    | cons d ds ih =>
      have hd := hcs d (by simp)
      have ih' := ih (fun x hx => hcs x (by simp [hx]))
      simp only [find_last_not_of]
      cases hl : find_last_not_of blanks ds with
      | none => 
        simp only [hl] at ih'
        simp [hd, ← ih']
      | some j =>
        simp only [hl] at ih'
        simp [ih']

theorem split_eq (s : Str) (d : Char) :
    split s d = ((getlines d s).map trim).filter (fun t => !t.isEmpty) := by
  unfold split
  suffices h : ∀ (l : List Str) (acc : List Str),
      l.foldl (fun tokens token =>
        let token := trim token
        if !token.isEmpty then tokens ++ [token] else tokens) acc
      = acc ++ (l.map trim).filter (fun t => !t.isEmpty) by
    simpa using h (getlines d s) []
  intro l
  induction l with
  | nil => simp
  | cons t ts ih =>
    intro acc
    simp only [List.foldl_cons, List.map_cons, ih]
    by_cases ht : (trim t).isEmpty = true <;> simp [List.filter_cons, ht]

theorem split_token (s : Str) (d : Char) (t : Str) (h : t ∈ split s d) :
    t ≠ [] ∧ trim t = t := by
  rw [split_eq] at h
  simp only [List.mem_filter, List.mem_map] at h
  obtain ⟨⟨x, _, rfl⟩, hne⟩ := h
  refine ⟨?_, trim_idem x⟩
  intro h0
  simp [h0] at hne

end ABCU

/-! ## The string order and the sort -/

namespace ABCU

open EnhancementOne

theorem char_toNat_inj (a b : Char) (h : a.toNat = b.toNat) : a = b :=
  Char.eq_of_val_eq (UInt32.ext h)

theorem isAlphanum_iff (c : Char) : c.isAlphanum = true ↔ IsAsciiLetter c ∨ IsAsciiDigit c := by
  simp only [Char.isAlphanum, Char.isAlpha, Char.isUpper, Char.isLower, Char.isDigit,
    IsAsciiLetter, IsAsciiDigit, Char.toNat, Bool.or_eq_true, Bool.and_eq_true, decide_eq_true_eq,
    ge_iff_le, UInt32.le_def, BitVec.le_def, UInt32.toNat]
  exact Iff.rfl

theorem strLt_irrefl (a : Str) : strLt a a = false := by
  induction a with
  | nil => rfl
  | cons c cs ih => simp [strLt, ih]

theorem strLt_asymm : ∀ (a b : Str), strLt a b = true → strLt b a = false
  | [], [], h => by simp [strLt] at h
  | [], _ :: _, _ => by simp [strLt]
  | _ :: _, [], h => by simp [strLt] at h
  | a :: as, b :: bs, h => by
    simp only [strLt] at h ⊢
    by_cases h1 : a.toNat < b.toNat
    · have : ¬ b.toNat < a.toNat := by omega
      simp [h1, this]
    · by_cases h2 : b.toNat < a.toNat
      · simp [h1, h2] at h
      · simp only [h1, h2, if_false] at h ⊢
        exact strLt_asymm as bs h

theorem strLt_total : ∀ (a b : Str), strLt a b = false → strLt b a = false → a = b
  | [], [], _, _ => rfl
  | [], _ :: _, h, _ => by simp [strLt] at h
  | _ :: _, [], _, h => by simp [strLt] at h
  | a :: as, b :: bs, h, h' => by
    simp only [strLt] at h h'
    by_cases h1 : a.toNat < b.toNat
    · simp [h1] at h
    · by_cases h2 : b.toNat < a.toNat
      · simp [h2] at h'
      · simp only [h1, h2, if_false] at h h'
        have hab : a = b := char_toNat_inj a b (by omega)
        rw [hab, strLt_total as bs h h']

theorem strLt_trans : ∀ (a b c : Str), strLt a b = true → strLt b c = true → strLt a c = true
  | [], _, [], _, h => by cases ‹Str› <;> simp [strLt] at h
  | [], _, _ :: _, _, _ => by simp [strLt]
  | _ :: _, [], _, h, _ => by simp [strLt] at h
  | _ :: _, _ :: _, [], _, h => by simp [strLt] at h
  | a :: as, b :: bs, c :: cs, h, h' => by
    simp only [strLt] at h h' ⊢
    by_cases h1 : a.toNat < b.toNat
    · by_cases h2 : b.toNat < c.toNat
      · have : a.toNat < c.toNat := by omega
        simp [this]
      · by_cases h3 : c.toNat < b.toNat
        · simp [h2, h3] at h'
        · have : a.toNat < c.toNat := by omega
          simp [this]
    · by_cases h2 : b.toNat < a.toNat
      · simp [h1, h2] at h
      · simp only [h1, h2, if_false] at h
        by_cases h3 : b.toNat < c.toNat
        · have : a.toNat < c.toNat := by omega
          simp [this]
        · by_cases h4 : c.toNat < b.toNat
          · simp [h3, h4] at h'
          · simp only [h3, h4, if_false] at h'
            have e1 : ¬ a.toNat < c.toNat := by omega
            have e2 : ¬ c.toNat < a.toNat := by omega
            simp only [e1, e2, if_false]
            exact strLt_trans as bs cs h h'

/-- `a <= b` for strings, as `!(b < a)`, is `a < b` or `a == b`. -/
theorem strLe_iff (a b : Str) : strLt b a = false ↔ (strLt a b = true ∨ a = b) := by
  constructor
  · intro h
    by_cases h' : strLt a b = true
    · exact Or.inl h'
    · exact Or.inr (strLt_total a b (by simpa using h') h)
  · rintro (h | rfl)
    · exact strLt_asymm a b h
    · exact strLt_irrefl a

theorem strLe_trans (a b c : Str) (h1 : strLt b a = false) (h2 : strLt c b = false) :
    strLt c a = false := by
  rcases (strLe_iff a b).mp h1 with h | rfl
  · rcases (strLe_iff b c).mp h2 with h' | rfl
    · exact strLt_asymm _ _ (strLt_trans a b c h h')
    · exact h1
  · exact h2

theorem set_self_of_getElem? {α : Type} (l : List α) (i : Nat) (a : α)
    (h : l[i]? = some a) : l.set i a = l := by
  induction l generalizing i with
  | nil => rfl
  | cons b t ih =>
    cases i with
    | zero =>
      simp only [List.getElem?_cons_zero, Option.some.injEq] at h
      simp [h]
    | succ k =>
      simp only [List.getElem?_cons_succ] at h
      simp [ih k h]

theorem cons_set_perm {α : Type} (t : List α) (k : Nat) (x v : α) (h : t[k]? = some x) :
    (x :: t.set k v).Perm (v :: t) := by
  induction t generalizing k with
  | nil => simp at h
  | cons b t ih =>
    cases k with
    | zero =>
      simp only [List.getElem?_cons_zero, Option.some.injEq] at h
      subst h
      exact List.Perm.swap _ _ _
    | succ k =>
      simp only [List.getElem?_cons_succ] at h
      simp only [List.set_cons_succ]
      exact (List.Perm.swap _ _ _).trans (((ih k h).cons b).trans (List.Perm.swap _ _ _))

theorem cons_set_swap_perm {α : Type} (t : List α) (k : Nat) (a v : α) (h : k < t.length) :
    (v :: t.set k a).Perm (a :: t.set k v) := by
  induction t generalizing k with
  | nil => simp at h
  | cons b t ih =>
    cases k with
    | zero => exact List.Perm.swap _ _ _
    | succ k =>
      simp only [List.length_cons, Nat.add_lt_add_iff_right] at h
      simp only [List.set_cons_succ]
      exact (List.Perm.swap _ _ _).trans (((ih k h).cons b).trans (List.Perm.swap _ _ _))

/-- Writing `x = l[j]` into position `i` and `v` into position `j` rearranges
the array that has `v` at position `i`. -/
theorem set_set_perm {α : Type} (l : List α) (i j : Nat) (x v : α)
    (hi : i < l.length) (hj : l[j]? = some x) :
    ((l.set i x).set j v).Perm (l.set i v) := by
  induction l generalizing i j with
  | nil => simp at hi
  | cons a t ih =>
    cases i with
    | zero =>
      cases j with
      | zero => simp
      | succ k =>
        simp only [List.getElem?_cons_succ] at hj
        simp only [List.set_cons_zero, List.set_cons_succ]
        exact cons_set_perm t k x v hj
    | succ m =>
      simp only [List.length_cons, Nat.add_lt_add_iff_right] at hi
      cases j with
      | zero =>
        simp only [List.getElem?_cons_zero, Option.some.injEq] at hj
        subst hj
        simp only [List.set_cons_zero, List.set_cons_succ]
        exact cons_set_swap_perm t m a v hi
      | succ k =>
        simp only [List.getElem?_cons_succ] at hj
        simp only [List.set_cons_succ]
        exact (ih m k hi hj).cons a

theorem iter_swap_perm {α : Type} (l : List α) (i j : Nat) : (iter_swap l i j).Perm l := by
  unfold iter_swap
  cases hi : l[i]? with
  | none => exact List.Perm.refl _
  | some a =>
    cases hj : l[j]? with
    | none => exact List.Perm.refl _
    | some b =>
      simp only
      have hlt : i < l.length := by
        rcases Nat.lt_or_ge i l.length with h | h
        · exact h
        · rw [List.getElem?_eq_none h] at hi; cases hi
      have h1 := set_set_perm l i j b a hlt hj
      rw [set_self_of_getElem? l i a hi] at h1
      exact h1

theorem iter_swap_length {α : Type} (l : List α) (i j : Nat) :
    (iter_swap l i j).length = l.length := (iter_swap_perm l i j).length_eq

theorem move_median_to_first_perm {α : Type} (comp : α → α → Bool) (l : List α)
    (result a b c : Nat) : (move_median_to_first comp l result a b c).Perm l := by
  unfold move_median_to_first
  split_ifs <;> exact iter_swap_perm _ _ _

theorem unguarded_partition_perm {α : Type} (comp : α → α → Bool) (pivot fuel : Nat)
    (l : List α) (first last : Nat) :
    (unguarded_partition comp pivot fuel l first last).1.Perm l := by
  induction fuel generalizing l first last with
  | zero => exact List.Perm.refl _
  | succ n ih =>
    simp only [unguarded_partition]
    split_ifs
    · exact List.Perm.refl _
    · exact (ih _ _ _).trans (iter_swap_perm _ _ _)

theorem unguarded_partition_pivot_perm {α : Type} (comp : α → α → Bool) (l : List α)
    (first last : Nat) : (unguarded_partition_pivot comp l first last).1.Perm l := by
  unfold unguarded_partition_pivot
  exact (unguarded_partition_perm _ _ _ _ _ _).trans (move_median_to_first_perm _ _ _ _ _ _)

theorem store_eq_some {α : Type} (l : List α) (i : Nat) (v : α) (r : List α)
    (h : store l i v = some r) : i < l.length ∧ r = l.set i v := by
  unfold store at h
  split_ifs at h with hi
  simp only [Option.some.injEq] at h
  exact ⟨hi, h.symm⟩

theorem push_heap_perm {α : Type} (comp : α → α → Bool) (base topIndex : Nat) (value : α)
    (fuel : Nat) (l : List α) (holeIndex : Nat) (r : List α)
    (h : push_heap comp base topIndex value fuel l holeIndex = some r) :
    r.Perm (l.set (base + holeIndex) value) := by
  induction fuel generalizing l holeIndex with
  | zero =>
    simp only [push_heap] at h
    rw [(store_eq_some _ _ _ _ h).2]
  | succ n ih =>
    simp only [push_heap] at h
    cases hp : l[base + (holeIndex - 1) / 2]? with
    | none => rw [hp] at h; cases h
    | some p =>
      rw [hp] at h
      simp only at h
      split_ifs at h with hc
      · cases hs : store l (base + holeIndex) p with
        | none => rw [hs] at h; cases h
        | some l1 =>
          rw [hs] at h
          simp only at h
          obtain ⟨hlt, rfl⟩ := store_eq_some _ _ _ _ hs
          exact (ih _ _ h).trans (set_set_perm l _ _ p value hlt hp)
      · rw [(store_eq_some _ _ _ _ h).2]

theorem adjust_down_perm {α : Type} (comp : α → α → Bool) (base len fuel : Nat)
    (l : List α) (holeIndex secondChild : Nat) (r : List α × Nat × Nat)
    (h : adjust_down comp base len fuel l holeIndex secondChild = some r) (v : α) :
    (r.1.set (base + r.2.1) v).Perm (l.set (base + holeIndex) v) := by
  induction fuel generalizing l holeIndex secondChild with
  | zero =>
    simp only [adjust_down, Option.some.injEq] at h
    subst h
    exact List.Perm.refl _
  | succ n ih =>
    simp only [adjust_down] at h
    split_ifs at h with hc hcmp
    · cases hx : l[base + (2 * (secondChild + 1) - 1)]? with
      | none => simp [hx] at h
      | some x =>
        simp only [hx] at h
        cases hs : store l (base + holeIndex) x with
        | none => simp [hs] at h
        | some l1 =>
          simp only [hs] at h
          obtain ⟨hlt, rfl⟩ := store_eq_some _ _ _ _ hs
          exact (ih _ _ _ h).trans (set_set_perm l _ _ x v hlt hx)
    · cases hx : l[base + 2 * (secondChild + 1)]? with
      | none => simp [hx] at h
      | some x =>
        simp only [hx] at h
        cases hs : store l (base + holeIndex) x with
        | none => simp [hs] at h
        | some l1 =>
          simp only [hs] at h
          obtain ⟨hlt, rfl⟩ := store_eq_some _ _ _ _ hs
          exact (ih _ _ _ h).trans (set_set_perm l _ _ x v hlt hx)
    · simp only [Option.some.injEq] at h
      subst h
      exact List.Perm.refl _

theorem adjust_heap_perm {α : Type} (comp : α → α → Bool) (base : Nat) (l : List α)
    (holeIndex len : Nat) (value : α) (r : List α)
    (h : adjust_heap comp base l holeIndex len value = some r) :
    r.Perm (l.set (base + holeIndex) value) := by
  unfold adjust_heap at h
  simp only at h
  cases hd : adjust_down comp base len len l holeIndex holeIndex with
  | none => simp [hd] at h
  | some d =>
    obtain ⟨l1, hole1, sc⟩ := d
    have hperm := adjust_down_perm comp base len len l holeIndex holeIndex _ hd value
    simp only [hd] at h
    split_ifs at h with hc
    · cases hx : l1[base + (2 * (sc + 1) - 1)]? with
      | none => simp [hx] at h
      | some x =>
        simp only [hx] at h
        cases hs : store l1 (base + hole1) x with
        | none => simp [hs] at h
        | some l2 =>
          simp only [hs] at h
          obtain ⟨hlt, rfl⟩ := store_eq_some _ _ _ _ hs
          exact ((push_heap_perm _ _ _ _ _ _ _ _ h).trans
            (set_set_perm l1 _ _ x value hlt hx)).trans hperm
    · exact (push_heap_perm _ _ _ _ _ _ _ _ h).trans hperm

theorem pop_heap_perm {α : Type} (comp : α → α → Bool) (l : List α)
    (first last result : Nat) (r : List α)
    (h : pop_heap comp l first last result = some r) : r.Perm l := by
  unfold pop_heap at h
  cases hr : l[result]? with
  | none => simp [hr] at h
  | some value =>
    cases hf : l[first]? with
    | none => simp [hr, hf] at h
    | some top =>
      simp only [hr, hf] at h
      cases hs : store l result top with
      | none => simp [hs] at h
      | some l1 =>
        simp only [hs] at h
        obtain ⟨hlt, rfl⟩ := store_eq_some _ _ _ _ hs
        have h1 := adjust_heap_perm _ _ _ _ _ _ _ h
        rw [Nat.add_zero] at h1
        have h2 := set_set_perm l result first top value hlt hf
        rw [set_self_of_getElem? l result value hr] at h2
        exact h1.trans h2

theorem make_heap_loop_perm {α : Type} (comp : α → α → Bool) (first len parent : Nat)
    (l r : List α) (h : make_heap_loop comp first len parent l = some r) : r.Perm l := by
  induction parent generalizing l with
  | zero =>
    simp only [make_heap_loop] at h
    cases hv : l[first]? with
    | none => simp [hv] at h
    | some value =>
      simp only [hv] at h
      have h1 := adjust_heap_perm _ _ _ _ _ _ _ h
      rw [Nat.add_zero, set_self_of_getElem? l first value hv] at h1
      exact h1
  | succ p ih =>
    simp only [make_heap_loop] at h
    cases hv : l[first + (p + 1)]? with
    | none => simp [hv] at h
    | some value =>
      simp only [hv] at h
      cases ha : adjust_heap comp first l (p + 1) len value with
      | none => simp [ha] at h
      | some l1 =>
        simp only [ha] at h
        have h1 := adjust_heap_perm _ _ _ _ _ _ _ ha
        rw [set_self_of_getElem? l _ value hv] at h1
        exact (ih _ h).trans h1

theorem make_heap_perm {α : Type} (comp : α → α → Bool) (l : List α) (first last : Nat)
    (r : List α) (h : make_heap comp l first last = some r) : r.Perm l := by
  unfold make_heap at h
  split_ifs at h
  · simp only [Option.some.injEq] at h
    rw [h]
  · exact make_heap_loop_perm _ _ _ _ _ _ h

theorem sort_heap_perm {α : Type} (comp : α → α → Bool) (first n : Nat) (l r : List α)
    (h : sort_heap comp first n l = some r) : r.Perm l := by
  induction n generalizing l with
  | zero =>
    simp only [sort_heap, Option.some.injEq] at h
    rw [h]
  | succ k ih =>
    simp only [sort_heap] at h
    split_ifs at h
    · cases hp : pop_heap comp l first (first + k) (first + k) with
      | none => simp [hp] at h
      | some l1 =>
        simp only [hp] at h
        exact (ih _ h).trans (pop_heap_perm _ _ _ _ _ _ hp)
    · simp only [Option.some.injEq] at h
      rw [h]

theorem partial_sort_perm {α : Type} (comp : α → α → Bool) (l : List α) (first last : Nat)
    (r : List α) (h : partial_sort comp l first last = some r) : r.Perm l := by
  unfold partial_sort at h
  cases hm : make_heap comp l first last with
  | none => simp [hm] at h
  | some l1 =>
    simp only [hm] at h
    exact (sort_heap_perm _ _ _ _ _ h).trans (make_heap_perm _ _ _ _ _ hm)

theorem introsort_loop_perm {α : Type} (comp : α → α → Bool) (depth : Nat) (l : List α)
    (first last : Nat) : (introsort_loop comp depth l first last).Perm l := by
  induction depth generalizing l first last with
  | zero =>
    simp only [introsort_loop]
    split_ifs
    · cases hp : partial_sort comp l first last with
      | none => exact List.Perm.refl _
      | some r => exact partial_sort_perm _ _ _ _ _ hp
    · exact List.Perm.refl _
  | succ d ih =>
    simp only [introsort_loop]
    split_ifs
    · exact (ih _ _ _).trans ((ih _ _ _).trans (unguarded_partition_pivot_perm _ _ _ _))
    · exact List.Perm.refl _

theorem introsort_loop_short {α : Type} (comp : α → α → Bool) (depth : Nat) (l : List α)
    (first last : Nat) (h : last - first ≤ 16) : introsort_loop comp depth l first last = l := by
  have hn : ¬ last - first > 16 := by omega
  cases depth <;> simp [introsort_loop, hn]

theorem compAt_outside {α : Type} (comp : α → α → Bool) (l : List α) (i j : Nat)
    (h : l.length ≤ i) : compAt comp l i j = false := by
  unfold compAt
  rw [List.getElem?_eq_none h]

theorem scanUp_fuel {α : Type} (comp : α → α → Bool) (l : List α) (pivot fuel first : Nat)
    (h : l.length ≤ fuel + first) :
    scanUp comp l pivot (fuel + 1) first = scanUp comp l pivot fuel first := by
  induction fuel generalizing first with
  | zero =>
    simp only [scanUp]
    rw [compAt_outside comp l first pivot (by omega)]
    rfl
  | succ n ih =>
    have e1 : scanUp comp l pivot (n + 1 + 1) first
        = if compAt comp l first pivot then scanUp comp l pivot (n + 1) (first + 1)
          else first := rfl
    have e2 : scanUp comp l pivot (n + 1) first
        = if compAt comp l first pivot then scanUp comp l pivot n (first + 1)
          else first := rfl
    rw [e1, e2, ih (first + 1) (by omega)]

theorem le_scanUp {α : Type} (comp : α → α → Bool) (l : List α) (pivot fuel first : Nat) :
    first ≤ scanUp comp l pivot fuel first := by
  induction fuel generalizing first with
  | zero => exact Nat.le_refl _
  | succ n ih =>
    simp only [scanUp]
    split_ifs
    · exact Nat.le_trans (Nat.le_succ _) (ih (first + 1))
    · exact Nat.le_refl _

theorem scanDown_le {α : Type} (comp : α → α → Bool) (l : List α) (pivot last : Nat) :
    scanDown comp l pivot last ≤ last := by
  induction last with
  | zero => exact Nat.le_refl _
  | succ n ih =>
    simp only [scanDown]
    split_ifs
    · exact Nat.le_trans ih (Nat.le_succ _)
    · exact Nat.le_refl _

theorem unguarded_partition_succ {α : Type} (comp : α → α → Bool) (pivot fuel : Nat)
    (l : List α) (first last : Nat) :
    unguarded_partition comp pivot (fuel + 1) l first last
      = if !(decide (scanUp comp l pivot l.length first < scanDown comp l pivot (last - 1)))
        then (l, scanUp comp l pivot l.length first)
        else unguarded_partition comp pivot fuel
          (iter_swap l (scanUp comp l pivot l.length first)
            (scanDown comp l pivot (last - 1)))
          (scanUp comp l pivot l.length first + 1) (scanDown comp l pivot (last - 1)) := rfl

/-- The bound on the rounds of `__unguarded_partition` is never reached: one
more round allowed gives the same result. -/
theorem unguarded_partition_fuel {α : Type} (comp : α → α → Bool) (pivot fuel : Nat)
    (l : List α) (first last : Nat) (h : last ≤ fuel + first) :
    unguarded_partition comp pivot (fuel + 1 + 1) l first last
      = unguarded_partition comp pivot (fuel + 1) l first last := by
  induction fuel generalizing l first last with
  | zero =>
    have h1 := le_scanUp comp l pivot l.length first
    have h2 := scanDown_le comp l pivot (last - 1)
    have hnot : ¬ scanUp comp l pivot l.length first < scanDown comp l pivot (last - 1) := by
      omega
    rw [unguarded_partition_succ comp pivot (0 + 1) l first last,
      unguarded_partition_succ comp pivot 0 l first last]
    simp only [hnot, decide_False, Bool.not_false, if_true]
  | succ n ih =>
    have h1 := le_scanUp comp l pivot l.length first
    have h2 := scanDown_le comp l pivot (last - 1)
    rw [unguarded_partition_succ comp pivot (n + 1 + 1) l first last,
      unguarded_partition_succ comp pivot (n + 1) l first last]
    by_cases hc : scanUp comp l pivot l.length first < scanDown comp l pivot (last - 1)
    · simp only [hc, decide_True, Bool.not_true, Bool.false_eq_true, if_false]
      exact ih _ _ _ (by omega)
    · simp only [hc, decide_False, Bool.not_false, if_true]

theorem store_some {α : Type} (l : List α) (i : Nat) (v : α) (h : i < l.length) :
    store l i v = some (l.set i v) := by
  unfold store
  rw [if_pos h]

theorem getElem?_inside {α : Type} (l : List α) (i : Nat) (h : i < l.length) :
    ∃ x, l[i]? = some x := ⟨l[i], List.getElem?_eq_getElem h⟩

/-- The bound on the rounds of `__push_heap` is never reached. -/
theorem push_heap_succ {α : Type} (comp : α → α → Bool) (base topIndex : Nat) (value : α)
    (fuel : Nat) (l : List α) (holeIndex : Nat) :
    push_heap comp base topIndex value (fuel + 1) l holeIndex
      = match l[base + (holeIndex - 1) / 2]? with
        | none => none
        | some p =>
          if holeIndex > topIndex && comp p value then
            match store l (base + holeIndex) p with
            | none => none
            | some l1 => push_heap comp base topIndex value fuel l1 ((holeIndex - 1) / 2)
          else store l (base + holeIndex) value := rfl

theorem push_heap_fuel {α : Type} (comp : α → α → Bool) (base topIndex : Nat) (value : α)
    (fuel : Nat) (l : List α) (holeIndex : Nat) (h : holeIndex ≤ fuel) :
    push_heap comp base topIndex value (fuel + 1) l holeIndex
      = push_heap comp base topIndex value fuel l holeIndex := by
  induction fuel generalizing l holeIndex with
  | zero =>
    have h0 : holeIndex = 0 := by omega
    subst h0
    rw [push_heap_succ]
    simp only [push_heap]
    cases hp : l[base + (0 - 1) / 2]? with
    | none =>
      simp only
      unfold store
      rw [if_neg]
      intro hlt
      rw [List.getElem?_eq_getElem (by simpa using hlt)] at hp
      cases hp
    | some p => simp
  | succ n ih =>
    rw [push_heap_succ comp base topIndex value (n + 1) l holeIndex,
      push_heap_succ comp base topIndex value n l holeIndex]
    cases hp : l[base + (holeIndex - 1) / 2]? with
    | none => rfl
    | some p =>
      simp only
      split_ifs with hc
      · cases hs : store l (base + holeIndex) p with
        | none => rfl
        | some l1 =>
          simp only
          have hpos : holeIndex > topIndex := by
            simp only [Bool.and_eq_true, decide_eq_true_eq] at hc
            exact hc.1
          exact ih _ _ (by omega)
      · rfl

/-- The bound on the rounds of the first loop of `__adjust_heap` is never
reached. -/
theorem adjust_down_succ {α : Type} (comp : α → α → Bool) (base len fuel : Nat)
    (l : List α) (holeIndex secondChild : Nat) :
    adjust_down comp base len (fuel + 1) l holeIndex secondChild
      = if secondChild < (len - 1) / 2 then
          match l[base + if compAt comp l (base + 2 * (secondChild + 1))
              (base + (2 * (secondChild + 1) - 1)) then 2 * (secondChild + 1) - 1
              else 2 * (secondChild + 1)]? with
          | none => none
          | some x =>
            match store l (base + holeIndex) x with
            | none => none
            | some l1 => adjust_down comp base len fuel l1
                (if compAt comp l (base + 2 * (secondChild + 1))
                  (base + (2 * (secondChild + 1) - 1)) then 2 * (secondChild + 1) - 1
                  else 2 * (secondChild + 1))
                (if compAt comp l (base + 2 * (secondChild + 1))
                  (base + (2 * (secondChild + 1) - 1)) then 2 * (secondChild + 1) - 1
                  else 2 * (secondChild + 1))
        else some (l, holeIndex, secondChild) := rfl

theorem adjust_down_fuel {α : Type} (comp : α → α → Bool) (base len fuel : Nat)
    (l : List α) (holeIndex secondChild : Nat) (h : (len - 1) / 2 ≤ fuel + secondChild) :
    adjust_down comp base len (fuel + 1) l holeIndex secondChild
      = adjust_down comp base len fuel l holeIndex secondChild := by
  induction fuel generalizing l holeIndex secondChild with
  | zero =>
    simp only [adjust_down]
    rw [if_neg (by omega)]
  | succ n ih =>
    rw [adjust_down_succ comp base len (n + 1) l holeIndex secondChild,
      adjust_down_succ comp base len n l holeIndex secondChild]
    by_cases hc : secondChild < (len - 1) / 2
    · rw [if_pos hc, if_pos hc]
      cases hx : l[base + if compAt comp l (base + 2 * (secondChild + 1))
          (base + (2 * (secondChild + 1) - 1)) = true then 2 * (secondChild + 1) - 1
          else 2 * (secondChild + 1)]? with
      | none => rfl
      | some x =>
        simp only
        cases hs : store l (base + holeIndex) x with
        | none => rfl
        | some l1 =>
          simp only
          apply ih
          split_ifs <;> omega
    · rw [if_neg hc, if_neg hc]

theorem push_heap_inside {α : Type} (comp : α → α → Bool) (base topIndex : Nat) (value : α)
    (fuel : Nat) (l : List α) (holeIndex : Nat) (h : base + holeIndex < l.length) :
    ∃ r, push_heap comp base topIndex value fuel l holeIndex = some r ∧
      r.length = l.length := by
  induction fuel generalizing l holeIndex with
  | zero =>
    simp only [push_heap]
    exact ⟨_, store_some _ _ _ h, List.length_set _ _ _⟩
  | succ n ih =>
    simp only [push_heap]
    obtain ⟨p, hp⟩ := getElem?_inside l (base + (holeIndex - 1) / 2) (by omega)
    rw [hp]
    simp only
    split_ifs
    · rw [store_some _ _ _ h]
      simp only
      obtain ⟨r, hr, hlen⟩ := ih (l.set (base + holeIndex) p) ((holeIndex - 1) / 2)
        (by rw [List.length_set]; omega)
      exact ⟨r, hr, by rw [hlen, List.length_set]⟩
    · exact ⟨_, store_some _ _ _ h, List.length_set _ _ _⟩

theorem adjust_down_inside {α : Type} (comp : α → α → Bool) (base len fuel : Nat)
    (l : List α) (holeIndex secondChild : Nat) (hlen : base + len ≤ l.length)
    (hh : holeIndex < len) :
    ∃ r, adjust_down comp base len fuel l holeIndex secondChild = some r ∧
      r.1.length = l.length ∧ r.2.1 < len := by
  induction fuel generalizing l holeIndex secondChild with
  | zero => exact ⟨_, rfl, rfl, hh⟩
  | succ n ih =>
    simp only [adjust_down]
    split_ifs with hc hcmp
    · obtain ⟨x, hx⟩ := getElem?_inside l (base + (2 * (secondChild + 1) - 1)) (by omega)
      rw [hx]
      simp only
      rw [store_some l (base + holeIndex) x (by omega)]
      simp only
      obtain ⟨r, hr, h1, h2⟩ := ih (l.set (base + holeIndex) x) (2 * (secondChild + 1) - 1)
        (2 * (secondChild + 1) - 1) (by rw [List.length_set]; exact hlen) (by omega)
      exact ⟨r, hr, by rw [h1, List.length_set], h2⟩
    · obtain ⟨x, hx⟩ := getElem?_inside l (base + 2 * (secondChild + 1)) (by omega)
      rw [hx]
      simp only
      rw [store_some l (base + holeIndex) x (by omega)]
      simp only
      obtain ⟨r, hr, h1, h2⟩ := ih (l.set (base + holeIndex) x) (2 * (secondChild + 1))
        (2 * (secondChild + 1)) (by rw [List.length_set]; exact hlen) (by omega)
      exact ⟨r, hr, by rw [h1, List.length_set], h2⟩
    · exact ⟨_, rfl, rfl, hh⟩

theorem adjust_heap_inside {α : Type} (comp : α → α → Bool) (base : Nat) (l : List α)
    (holeIndex len : Nat) (value : α) (hlen : base + len ≤ l.length) (hh : holeIndex < len) :
    ∃ r, adjust_heap comp base l holeIndex len value = some r ∧ r.length = l.length := by
  unfold adjust_heap
  obtain ⟨⟨l1, hole1, sc⟩, hd, h1, h2⟩ :=
    adjust_down_inside comp base len len l holeIndex holeIndex hlen hh
  simp only at h1 h2
  simp only [hd]
  split_ifs with hc
  · simp only [Bool.and_eq_true, decide_eq_true_eq] at hc
    obtain ⟨x, hx⟩ := getElem?_inside l1 (base + (2 * (sc + 1) - 1)) (by omega)
    rw [hx]
    simp only
    rw [store_some l1 (base + hole1) x (by omega)]
    simp only
    obtain ⟨r, hr, h3⟩ := push_heap_inside comp base holeIndex value len
      (l1.set (base + hole1) x) (2 * (sc + 1) - 1) (by rw [List.length_set]; omega)
    exact ⟨r, hr, by rw [h3, List.length_set, h1]⟩
  · obtain ⟨r, hr, h3⟩ := push_heap_inside comp base holeIndex value len l1 hole1 (by omega)
    exact ⟨r, hr, by rw [h3, h1]⟩

theorem pop_heap_inside {α : Type} (comp : α → α → Bool) (l : List α)
    (first last result : Nat) (h1 : first < last) (h2 : last ≤ l.length)
    (h3 : result < l.length) :
    ∃ r, pop_heap comp l first last result = some r ∧ r.length = l.length := by
  unfold pop_heap
  obtain ⟨value, hv⟩ := getElem?_inside l result h3
  obtain ⟨top, ht⟩ := getElem?_inside l first (by omega)
  rw [hv, ht]
  simp only
  rw [store_some _ _ _ h3]
  simp only
  obtain ⟨r, hr, h4⟩ := adjust_heap_inside comp first (l.set result top) 0 (last - first) value
    (by rw [List.length_set]; omega) (by omega)
  exact ⟨r, hr, by rw [h4, List.length_set]⟩

theorem make_heap_loop_inside {α : Type} (comp : α → α → Bool) (first len parent : Nat)
    (l : List α) (hlen : first + len ≤ l.length) (hp : parent < len) :
    ∃ r, make_heap_loop comp first len parent l = some r ∧ r.length = l.length := by
  induction parent generalizing l with
  | zero =>
    simp only [make_heap_loop]
    obtain ⟨value, hv⟩ := getElem?_inside l first (by omega)
    rw [hv]
    exact adjust_heap_inside comp first l 0 len value hlen hp
  | succ p ih =>
    simp only [make_heap_loop]
    obtain ⟨value, hv⟩ := getElem?_inside l (first + (p + 1)) (by omega)
    rw [hv]
    simp only
    obtain ⟨l1, h1, h2⟩ := adjust_heap_inside comp first l (p + 1) len value hlen hp
    rw [h1]
    simp only
    obtain ⟨r, hr, h3⟩ := ih l1 (by omega) (by omega)
    exact ⟨r, hr, by rw [h3, h2]⟩

theorem make_heap_inside {α : Type} (comp : α → α → Bool) (l : List α) (first last : Nat)
    (h2 : last ≤ l.length) :
    ∃ r, make_heap comp l first last = some r ∧ r.length = l.length := by
  unfold make_heap
  split_ifs with h
  · exact ⟨l, rfl, rfl⟩
  · exact make_heap_loop_inside comp first (last - first) _ l (by omega) (by omega)

theorem sort_heap_inside {α : Type} (comp : α → α → Bool) (first n : Nat) (l : List α)
    (h : first + n ≤ l.length) :
    ∃ r, sort_heap comp first n l = some r ∧ r.length = l.length := by
  induction n generalizing l with
  | zero => exact ⟨l, rfl, rfl⟩
  | succ k ih =>
    simp only [sort_heap]
    split_ifs with hk
    · obtain ⟨l1, h1, h2⟩ := pop_heap_inside comp l first (first + k) (first + k)
        (by omega) (by omega) (by omega)
      rw [h1]
      simp only
      obtain ⟨r, hr, h3⟩ := ih l1 (by omega)
      exact ⟨r, hr, by rw [h3, h2]⟩
    · exact ⟨l, rfl, rfl⟩

/-- The heap sort of `__introsort_loop` stays inside the array: on a range of
the array it returns a result. -/
theorem partial_sort_inside {α : Type} (comp : α → α → Bool) (l : List α) (first last : Nat)
    (h1 : first ≤ last) (h2 : last ≤ l.length) :
    ∃ r, partial_sort comp l first last = some r ∧ r.length = l.length := by
  unfold partial_sort
  obtain ⟨l1, hm, hl1⟩ := make_heap_inside comp l first last h2
  rw [hm]
  simp only
  obtain ⟨r, hr, h3⟩ := sort_heap_inside comp first (last - first) l1 (by omega)
  exact ⟨r, hr, by rw [h3, hl1]⟩

theorem unguarded_linear_insert_perm {α : Type} (comp : α → α → Bool) (val : α)
    (done : List α) : (unguarded_linear_insert comp val done).Perm (val :: done) := by
  induction done with
  | nil => exact List.Perm.refl _
  | cons next rest ih =>
    simp only [unguarded_linear_insert]
    split_ifs
    · exact (ih.cons next).trans (List.Perm.swap _ _ _)
    · exact List.Perm.refl _

theorem insertion_step_perm {α : Type} (comp : α → α → Bool) (done : List α) (val : α) :
    (insertion_step comp done val).Perm (val :: done) := by
  unfold insertion_step
  cases hl : done.getLast? with
  | none =>
    rw [List.getLast?_eq_none_iff] at hl
    rw [hl]
  | some first =>
    simp only
    split_ifs
    · exact List.perm_append_singleton val done
    · exact unguarded_linear_insert_perm comp val done

theorem foldl_insert_perm {α : Type} (step : List α → α → List α)
    (hstep : ∀ done val, (step done val).Perm (val :: done)) (l done : List α) :
    (l.foldl step done).Perm (done ++ l) := by
  induction l generalizing done with
  | nil => simp
  | cons x xs ih =>
    simp only [List.foldl_cons]
    refine (ih _).trans ?_
    refine ((hstep done x).append_right xs).trans ?_
    have hmid : (done ++ x :: xs).Perm (x :: (done ++ xs)) := List.perm_middle
    simpa using hmid.symm

theorem insertion_sort_perm {α : Type} (comp : α → α → Bool) (l : List α) :
    (insertion_sort comp l).Perm l := by
  have h := foldl_insert_perm (insertion_step comp) (insertion_step_perm comp) l []
  simpa [insertion_sort] using h

theorem unguarded_insertion_sort_perm {α : Type} (comp : α → α → Bool) (done l : List α) :
    (unguarded_insertion_sort comp done l).Perm (done ++ l) :=
  foldl_insert_perm (fun acc val => unguarded_linear_insert comp val acc)
    (fun done val => unguarded_linear_insert_perm comp val done) l done

theorem final_insertion_sort_perm {α : Type} (comp : α → α → Bool) (l : List α) :
    (final_insertion_sort comp l).Perm l := by
  unfold final_insertion_sort
  split_ifs
  · refine (List.reverse_perm _).trans ((unguarded_insertion_sort_perm comp _ _).trans ?_)
    refine ((insertion_sort_perm comp (l.take 16)).append_right _).trans ?_
    rw [List.take_append_drop]
  · exact (List.reverse_perm _).trans (insertion_sort_perm comp l)

theorem stdSort_perm {α : Type} (comp : α → α → Bool) (l : List α) :
    (stdSort comp l).Perm l := by
  unfold stdSort
  split_ifs
  · exact List.Perm.refl _
  · exact (final_insertion_sort_perm comp _).trans (introsort_loop_perm comp _ _ _ _)

theorem unguarded_linear_insert_sorted {α : Type} (comp : α → α → Bool)
    (hasymm : ∀ a b, comp a b = true → comp b a = false)
    (htrans : ∀ a b c, comp b a = false → comp c b = false → comp c a = false)
    (val : α) (done : List α) (h : done.Pairwise (fun a b => comp a b = false)) :
    (unguarded_linear_insert comp val done).Pairwise (fun a b => comp a b = false) := by
  induction done with
  | nil => simp [unguarded_linear_insert]
  | cons next rest ih =>
    rw [List.pairwise_cons] at h
    simp only [unguarded_linear_insert]
    split_ifs with hc
    · refine List.pairwise_cons.mpr ⟨?_, ih h.2⟩
      intro z hz
      rcases List.mem_cons.mp ((unguarded_linear_insert_perm comp val rest).subset hz)
        with rfl | hz
      · exact hasymm _ _ hc
      · exact h.1 z hz
    · simp only [Bool.not_eq_true] at hc
      refine List.pairwise_cons.mpr ⟨?_, List.pairwise_cons.mpr h⟩
      intro z hz
      rcases List.mem_cons.mp hz with rfl | hz
      · exact hc
      · exact htrans _ _ _ (h.1 z hz) hc

theorem insertion_step_sorted {α : Type} (comp : α → α → Bool)
    (hasymm : ∀ a b, comp a b = true → comp b a = false)
    (htrans : ∀ a b c, comp b a = false → comp c b = false → comp c a = false)
    (done : List α) (val : α) (h : done.Pairwise (fun a b => comp a b = false)) :
    (insertion_step comp done val).Pairwise (fun a b => comp a b = false) := by
  unfold insertion_step
  cases hl : done.getLast? with
  | none => simp
  | some first =>
    simp only
    split_ifs with hc
    · obtain ⟨ys, rfl⟩ := List.getLast?_eq_some_iff.mp hl
      rw [List.pairwise_append] at h
      refine List.pairwise_append.mpr ⟨List.pairwise_append.mpr h, List.pairwise_singleton _ _, ?_⟩
      intro y hy z hz
      rw [List.mem_singleton] at hz
      subst hz
      rcases List.mem_append.mp hy with hy | hy
      · exact htrans _ _ _ (hasymm _ _ hc) (h.2.2 y hy first (List.mem_singleton_self _))
      · rw [List.mem_singleton] at hy
        subst hy
        exact hasymm _ _ hc
    · exact unguarded_linear_insert_sorted comp hasymm htrans val done h

theorem foldl_insert_sorted {α : Type} (comp : α → α → Bool) (step : List α → α → List α)
    (hstep : ∀ done val, done.Pairwise (fun a b => comp a b = false) →
      (step done val).Pairwise (fun a b => comp a b = false))
    (l done : List α) (h : done.Pairwise (fun a b => comp a b = false)) :
    (l.foldl step done).Pairwise (fun a b => comp a b = false) := by
  induction l generalizing done with
  | nil => simpa using h
  | cons x xs ih => exact ih _ (hstep done x h)

theorem final_insertion_sort_sorted {α : Type} (comp : α → α → Bool)
    (hasymm : ∀ a b, comp a b = true → comp b a = false)
    (htrans : ∀ a b c, comp b a = false → comp c b = false → comp c a = false)
    (l : List α) : (final_insertion_sort comp l).Pairwise (fun a b => comp b a = false) := by
  have hins : ∀ l : List α, (insertion_sort comp l).Pairwise (fun a b => comp a b = false) :=
    fun l => foldl_insert_sorted comp (insertion_step comp)
      (insertion_step_sorted comp hasymm htrans) l [] List.Pairwise.nil
  unfold final_insertion_sort
  split_ifs
  · rw [List.pairwise_reverse]
    exact foldl_insert_sorted comp (fun acc val => unguarded_linear_insert comp val acc)
      (fun done val => unguarded_linear_insert_sorted comp hasymm htrans val done) _ _ (hins _)
  · rw [List.pairwise_reverse]
    exact hins l

theorem stdSort_sorted {α : Type} (comp : α → α → Bool)
    (hasymm : ∀ a b, comp a b = true → comp b a = false)
    (htrans : ∀ a b c, comp b a = false → comp c b = false → comp c a = false)
    (l : List α) : (stdSort comp l).Pairwise (fun a b => comp b a = false) := by
  unfold stdSort
  split_ifs with he
  · rw [List.isEmpty_iff] at he
    rw [he]
    exact List.Pairwise.nil
  · exact final_insertion_sort_sorted comp hasymm htrans _

theorem unguarded_linear_insert_filter {α : Type} (comp : α → α → Bool) (p : α → Bool)
    (hp : ∀ a b, p a = true → p b = true → comp a b = false)
    (val : α) (done : List α) :
    (unguarded_linear_insert comp val done).filter p
      = [val].filter p ++ done.filter p := by
  induction done with
  | nil => simp [unguarded_linear_insert]
  | cons next rest ih =>
    simp only [unguarded_linear_insert]
    split_ifs with hc
    · rw [List.filter_cons, ih]
      by_cases hv : p val = true
      · have hn : p next = false := by
          by_contra hn
          simp only [Bool.not_eq_false] at hn
          rw [hp val next hv hn] at hc
          cases hc
        simp [hn]
      · simp only [Bool.not_eq_true] at hv
        simp [hv, List.filter_cons]
    · have hsplit : val :: next :: rest = [val] ++ (next :: rest) := rfl
      rw [hsplit, List.filter_append]

theorem insertion_step_filter {α : Type} (comp : α → α → Bool) (p : α → Bool)
    (htrans : ∀ a b c, comp b a = false → comp c b = false → comp c a = false)
    (hp : ∀ a b, p a = true → p b = true → comp a b = false)
    (done : List α) (val : α) (h : done.Pairwise (fun a b => comp a b = false)) :
    (insertion_step comp done val).filter p = [val].filter p ++ done.filter p := by
  unfold insertion_step
  cases hl : done.getLast? with
  | none =>
    rw [List.getLast?_eq_none_iff] at hl
    rw [hl]
    simp
  | some first =>
    simp only
    split_ifs with hc
    · rw [List.filter_append]
      by_cases hv : p val = true
      · have hnone : done.filter p = [] := by
          rw [List.filter_eq_nil_iff]
          intro y hy hpy
          obtain ⟨ys, rfl⟩ := List.getLast?_eq_some_iff.mp hl
          rw [List.pairwise_append] at h
          have hvy : comp val y = false := hp val y hv hpy
          rcases List.mem_append.mp hy with hy | hy
          · have := htrans _ _ _ (h.2.2 y hy first (List.mem_singleton_self _)) hvy
            rw [this] at hc
            cases hc
          · rw [List.mem_singleton] at hy
            subst hy
            rw [hvy] at hc
            cases hc
        rw [hnone]
        simp
      · simp only [Bool.not_eq_true] at hv
        simp [hv]
    · exact unguarded_linear_insert_filter comp p hp val done

theorem insertion_sort_filter {α : Type} (comp : α → α → Bool) (p : α → Bool)
    (hasymm : ∀ a b, comp a b = true → comp b a = false)
    (htrans : ∀ a b c, comp b a = false → comp c b = false → comp c a = false)
    (hp : ∀ a b, p a = true → p b = true → comp a b = false)
    (l : List α) : (insertion_sort comp l).filter p = (l.filter p).reverse := by
  unfold insertion_sort
  suffices h : ∀ (l done : List α), done.Pairwise (fun a b => comp a b = false) →
      (l.foldl (insertion_step comp) done).filter p = (l.filter p).reverse ++ done.filter p by
    simpa using h l [] List.Pairwise.nil
  intro l
  induction l with
  | nil => intro done _; simp
  | cons x xs ih =>
    intro done hdone
    simp only [List.foldl_cons]
    rw [ih _ (insertion_step_sorted comp hasymm htrans done x hdone),
      insertion_step_filter comp p htrans hp done x hdone]
    by_cases hx : p x = true
    · simp [hx]
    · simp only [Bool.not_eq_true] at hx
      simp [hx]

/-- A call of `std::sort` on at most 16 elements keeps the elements of one
class of equivalent elements in their order. -/
theorem stdSort_filter_short {α : Type} (comp : α → α → Bool) (p : α → Bool)
    (hasymm : ∀ a b, comp a b = true → comp b a = false)
    (htrans : ∀ a b c, comp b a = false → comp c b = false → comp c a = false)
    (hp : ∀ a b, p a = true → p b = true → comp a b = false)
    (l : List α) (hlen : l.length ≤ 16) : (stdSort comp l).filter p = l.filter p := by
  unfold stdSort
  split_ifs
  · rfl
  · rw [introsort_loop_short comp _ l 0 l.length (by omega)]
    unfold final_insertion_sort
    rw [if_neg (by omega), List.filter_reverse, insertion_sort_filter comp p hasymm htrans hp,
      List.reverse_reverse]

end ABCU

/-! ## The map and the load loop -/

namespace ABCU

open EnhancementOne

theorem mem_assign (m : UMap) (k : Str) (v : Course) (e : Str × Course) :
    e ∈ m.assign k v ↔ e = (k, v) ∨ (e ∈ m ∧ e.1 ≠ k) := by
  unfold UMap.assign
  by_cases h : m.any (fun e => e.1 == k) = true
  · simp only [h, if_true, List.mem_map]
    simp only [List.any_eq_true, beq_iff_eq] at h
    constructor
    · rintro ⟨x, hx, rfl⟩
      by_cases hk : x.1 = k
      · simp [hk]
      · simp [hk, hx]
    · rintro (rfl | ⟨he, hk⟩)
      · obtain ⟨x, hx, hxk⟩ := h
        exact ⟨x, hx, by simp [hxk]⟩
      · exact ⟨e, he, by simp [hk]⟩
  · rw [if_neg h, List.mem_cons]
    simp only [List.any_eq_true, beq_iff_eq, not_exists, not_and, Bool.not_eq_true] at h
    constructor
    · rintro (rfl | he)
      · exact Or.inl rfl
      · exact Or.inr ⟨he, by simpa using h e he⟩
    · rintro (rfl | ⟨he, _⟩)
      · exact Or.inl rfl
      · exact Or.inr he

theorem keys_assign (m : UMap) (k : Str) (v : Course) (x : Str) :
    x ∈ (m.assign k v).keys ↔ x = k ∨ x ∈ m.keys := by
  simp only [UMap.keys, List.mem_map, mem_assign]
  constructor
  · rintro ⟨e, (rfl | ⟨he, _⟩), rfl⟩
    · exact Or.inl rfl
    · exact Or.inr ⟨e, he, rfl⟩
  · rintro (rfl | ⟨e, he, rfl⟩)
    · exact ⟨(x, v), Or.inl rfl, rfl⟩
    · by_cases hk : e.1 = k
      · exact ⟨(k, v), Or.inl rfl, hk.symm⟩
      · exact ⟨e, Or.inr ⟨he, hk⟩, rfl⟩

theorem keys_assign_nodup (m : UMap) (k : Str) (v : Course) (h : m.keys.Nodup) :
    (m.assign k v).keys.Nodup := by
  unfold UMap.assign
  by_cases hk : m.any (fun e => e.1 == k) = true
  · simp only [hk, if_true]
    have : (m.map (fun e => if e.1 = k then (k, v) else e)).map (fun e => e.1) = m.map (fun e => e.1) := by
      rw [List.map_map]
      apply List.map_congr_left
      intro e _
      by_cases he : e.1 = k <;> simp [he]
    unfold UMap.keys at h ⊢
    rw [this]; exact h
  · rw [if_neg hk]
    simp only [List.any_eq_true, beq_iff_eq, not_exists, not_and, Bool.not_eq_true] at hk
    unfold UMap.keys at h ⊢
    simp only [List.map_cons, List.nodup_cons, List.mem_map, not_exists, not_and]
    refine ⟨fun e he => ?_, h⟩
    simpa using hk e he

theorem assignAll_snoc (m : UMap) (recs : List Course) (c : Course) :
    assignAll m (recs ++ [c]) = (assignAll m recs).assign c.courseNumber c := by
  simp [assignAll, List.foldl_append]

theorem assignAll_cons (m : UMap) (recs : List Course) (c : Course) :
    assignAll m (c :: recs) = assignAll (m.assign c.courseNumber c) recs := rfl

theorem assignAll_append (m : UMap) (r1 r2 : List Course) :
    assignAll m (r1 ++ r2) = assignAll (assignAll m r1) r2 := by
  simp [assignAll, List.foldl_append]

theorem mem_assignAll (m : UMap) (recs : List Course) (e : Str × Course)
    (h : e ∈ assignAll m recs) : e ∈ m ∨ ∃ c ∈ recs, e = (c.courseNumber, c) := by
  induction recs generalizing m with
  | nil => exact Or.inl h
  | cons c cs ih =>
    rw [assignAll_cons] at h
    rcases ih _ h with h1 | ⟨d, hd, rfl⟩
    · rcases (mem_assign _ _ _ _).mp h1 with rfl | ⟨h2, _⟩
      · exact Or.inr ⟨c, by simp, rfl⟩
      · exact Or.inl h2
    · exact Or.inr ⟨d, by simp [hd], rfl⟩

theorem mem_assignAll_of_later_ne (m : UMap) (recs : List Course) (e : Str × Course)
    (he : e ∈ m) (h : ∀ c ∈ recs, c.courseNumber ≠ e.1) : e ∈ assignAll m recs := by
  induction recs generalizing m with
  | nil => exact he
  | cons c cs ih =>
    rw [assignAll_cons]
    refine ih _ ((mem_assign _ _ _ _).mpr (Or.inr ⟨he, ?_⟩)) (fun d hd => h d (by simp [hd]))
    exact fun h' => h c (by simp) h'.symm

theorem keys_assignAll (m : UMap) (recs : List Course) (x : Str) :
    x ∈ (assignAll m recs).keys ↔ x ∈ m.keys ∨ x ∈ recs.map (fun c => c.courseNumber) := by
  induction recs generalizing m with
  | nil => simp [assignAll]
  | cons c cs ih =>
    rw [assignAll_cons, ih, keys_assign]
    simp only [List.map_cons, List.mem_cons]
    tauto

theorem keys_assignAll_nodup (m : UMap) (recs : List Course) (h : m.keys.Nodup) :
    (assignAll m recs).keys.Nodup := by
  induction recs generalizing m with
  | nil => exact h
  | cons c cs ih =>
    rw [assignAll_cons]
    exact ih _ (keys_assign_nodup m _ _ h)

namespace EnhancementOne

theorem loadStep_eq (st : Catalog) (line : Str) :
    loadStep st line =
      match lineRecord line with
      | none => st
      | some c => ⟨st.courses ++ [c], st.courseMap.assign c.courseNumber c⟩ := by
  unfold loadStep lineRecord
  simp only
  split_ifs <;> rfl

theorem foldl_loadStep (lines : List Str) (st : Catalog) :
    lines.foldl loadStep st =
      ⟨st.courses ++ lines.filterMap lineRecord,
        assignAll st.courseMap (lines.filterMap lineRecord)⟩ := by
  induction lines generalizing st with
  | nil => simp [assignAll]
  | cons l ls ih =>
    rw [List.foldl_cons, ih, loadStep_eq]
    cases h : lineRecord l with
    | none => simp [List.filterMap_cons, h]
    | some c => simp [List.filterMap_cons, h, assignAll_cons]

theorem load_some (content : Str) (st : Catalog) :
    loadCoursesFromFile (some content) st =
      (!((getlines '\n' content).filterMap lineRecord).isEmpty,
        ⟨(getlines '\n' content).filterMap lineRecord,
          assignAll [] ((getlines '\n' content).filterMap lineRecord)⟩) := by
  unfold loadCoursesFromFile
  simp only [foldl_loadStep, List.nil_append]
  split_ifs with h <;> simp [h]

theorem collectPrereqs_valid (tokens : List Str) :
    ∀ p ∈ collectPrereqs tokens, isValidCourseNumber p = true := by
  unfold collectPrereqs
  suffices h : ∀ (l acc : List Str), (∀ p ∈ acc, isValidCourseNumber p = true) →
      ∀ p ∈ l.foldl (fun prerequisites tok =>
        let prereq := trim tok
        if !prereq.isEmpty && isValidCourseNumber prereq then prerequisites ++ [prereq]
        else prerequisites) acc, isValidCourseNumber p = true from
    h _ [] (by simp)
  intro l
  induction l with
  | nil => intro acc h; simpa using h
  | cons t ts ih =>
    intro acc h
    simp only [List.foldl_cons]
    apply ih
    by_cases hv : (!(trim t).isEmpty && isValidCourseNumber (trim t)) = true
    · simp only [hv, if_true]
      intro p hp
      rcases List.mem_append.mp hp with hp | hp
      · exact h p hp
      · simp only [List.mem_singleton] at hp
        subst hp
        simp only [Bool.and_eq_true] at hv
        exact hv.2
    · simpa [hv] using h

theorem lineRecord_valid (line : Str) (c : Course) (h : lineRecord line = some c) :
    RecordValid c := by
  unfold lineRecord at h
  simp only at h
  split_ifs at h with h1 h2 h3
  simp only [Option.some.injEq] at h
  subst h
  exact ⟨by simpa using h3, collectPrereqs_valid _⟩

theorem lineRecord_of_tokens (line t0 t1 : Str) (rest : List Str)
    (htok : split (trim line) ',' = t0 :: t1 :: rest)
    (hvalid : isValidCourseNumber t0 = true) :
    lineRecord line = some ⟨t0, t1, collectPrereqs (t0 :: t1 :: rest)⟩ := by
  have h0 : trim t0 = t0 := (split_token (trim line) ',' t0 (by simp [htok])).2
  have h1 : trim t1 = t1 := (split_token (trim line) ',' t1 (by simp [htok])).2
  have hne : (trim line).isEmpty = false := by
    cases h : trim line with
    | nil => rw [h] at htok; simp [split, getlines] at htok
    | cons a b => rfl
  unfold lineRecord
  simp [hne, htok, h0, h1, hvalid]

theorem lineRecord_head (line : Str) (c : Course) (h : lineRecord line = some c) :
    (split (trim line) ',').head? = some c.courseNumber := by
  unfold lineRecord at h
  simp only at h
  split_ifs at h with h1 h2 h3
  simp only [Option.some.injEq] at h
  subst h
  cases hs : split (trim line) ',' with
  | nil => simp [hs] at h2
  | cons a b =>
    have := (split_token (trim line) ',' a (by simp [hs])).2
    simp [this]

end EnhancementOne

end ABCU

/-! ## Case folding and rendering -/

namespace ABCU

open EnhancementOne

theorem not_letter_of_blank (c : Char) (h : c ∈ blanks) : ¬ IsAsciiLetter c := by
  rw [mem_blanks] at h
  rcases h with rfl | rfl <;> unfold IsAsciiLetter <;> decide

theorem sameUpToCase_blank (a b : Char) (h : SameUpToCase a b) : a ∈ blanks ↔ b ∈ blanks := by
  rcases h with rfl | ⟨ha, hb, _⟩
  · rfl
  · exact ⟨fun h => absurd ha (not_letter_of_blank a h), fun h => absurd hb (not_letter_of_blank b h)⟩

theorem toUpper_of_lower (a b : Char) (ha : 97 ≤ a.toNat ∧ a.toNat ≤ 122)
    (hab : a.toNat = b.toNat + 32) : a.toUpper = b ∧ b.toUpper = b := by
  have h1 : a.toNat - 32 = b.toNat := by omega
  have hb : ¬ (b.toNat ≥ 97 ∧ b.toNat ≤ 122) := by omega
  constructor
  · simp only [Char.toUpper, ha.1, ha.2, ge_iff_le, and_self, if_true, h1, Char.ofNat_toNat]
  · simp only [Char.toUpper, hb, if_false]

theorem sameUpToCase_toUpper (a b : Char) (h : SameUpToCase a b) : a.toUpper = b.toUpper := by
  rcases h with rfl | ⟨ha, hb, hab | hab⟩
  · rfl
  · unfold IsAsciiLetter at ha hb
    have := toUpper_of_lower a b (by omega) hab
    rw [this.1, this.2]
  · unfold IsAsciiLetter at ha hb
    have := toUpper_of_lower b a (by omega) hab
    rw [this.1, this.2]

theorem find_first_sameUpToCase (q1 q2 : Str) (h : List.Forall₂ SameUpToCase q1 q2) :
    find_first_not_of blanks q1 = find_first_not_of blanks q2 := by
  induction h with
  | nil => rfl
  | cons hab _ ih =>
    simp only [find_first_not_of, sameUpToCase_blank _ _ hab, ih]

theorem find_last_sameUpToCase (q1 q2 : Str) (h : List.Forall₂ SameUpToCase q1 q2) :
    find_last_not_of blanks q1 = find_last_not_of blanks q2 := by
  induction h with
  | nil => rfl
  | cons hab _ ih =>
    simp only [find_last_not_of, sameUpToCase_blank _ _ hab, ih]

theorem map_toUpper_sameUpToCase (q1 q2 : Str) (h : List.Forall₂ SameUpToCase q1 q2) :
    q1.map Char.toUpper = q2.map Char.toUpper := by
  induction h with
  | nil => rfl
  | cons hab _ ih => simp [sameUpToCase_toUpper _ _ hab, ih]

theorem substr_map (f : Char → Char) (s : Str) (i n : Nat) :
    (substr s i n).map f = substr (s.map f) i n := by
  simp [substr, List.map_take, List.map_drop]

namespace EnhancementOne

theorem toUpperStr_trim_sameUpToCase (q1 q2 : Str) (h : List.Forall₂ SameUpToCase q1 q2) :
    toUpperStr (trim q1) = toUpperStr (trim q2) := by
  unfold trim toUpperStr
  rw [find_first_sameUpToCase q1 q2 h, find_last_sameUpToCase q1 q2 h]
  cases find_first_not_of blanks q2 with
  | none => rfl
  | some first =>
    cases find_last_not_of blanks q2 with
    | none => simp only [substr_map, map_toUpper_sameUpToCase q1 q2 h]
    | some last => simp only [substr_map, map_toUpper_sameUpToCase q1 q2 h]

theorem prereqLoop_eq (m : UMap) (size : Nat) (i : Nat) (ps : List Str)
    (h : i + ps.length = size) :
    prereqLoop m size i ps =
      List.intercalate ", ".toList
        (ps.map (fun p => p ++ " (".toList ++ prereqTitle m p ++ ")".toList)) := by
  induction ps generalizing i with
  | nil => rfl
  | cons p rest ih =>
    cases rest with
    | nil =>
      have : ¬ i < size - 1 := by simp at h; omega
      simp [prereqLoop, this, List.intercalate]
    | cons r rs =>
      have hi : i < size - 1 := by simp at h; omega
      have := ih (i + 1) (by simp at h ⊢; omega)
      rw [prereqLoop, this]
      simp [hi, List.intercalate, List.intersperse]

theorem find?_unique {α : Type} (p : α → Bool) (l : List α) (x : α) (hx : x ∈ l) (hp : p x = true)
    (huniq : ∀ y ∈ l, p y = true → y = x) : l.find? p = some x := by
  cases h : l.find? p with
  | none =>
    have := List.find?_eq_none.mp h x hx
    simp [hp] at this
  | some y =>
    have h1 := List.find?_some h
    have h2 := List.mem_of_find?_eq_some h
    rw [huniq y h2 h1]

end EnhancementOne

end ABCU

/-! ## Helper lemmas for the catalog properties -/

namespace ABCU

namespace EnhancementOne

theorem courseLt_asymm (a b : Course) (h : courseLt a b = true) : courseLt b a = false :=
  strLt_asymm _ _ h

theorem courseLe_trans (a b c : Course) (h1 : courseLt b a = false)
    (h2 : courseLt c b = false) : courseLt c a = false :=
  strLe_trans _ _ _ h1 h2

/-- Two arrangements of the same courses that are both in ascending order of
course number carry the same sequence of course numbers. -/
theorem sorted_numbers_unique (s1 s2 : List Course) (hp : s1.Perm s2)
    (h1 : s1.Pairwise (fun a b => courseLt b a = false))
    (h2 : s2.Pairwise (fun a b => courseLt b a = false)) :
    s1.map (fun c => c.courseNumber) = s2.map (fun c => c.courseNumber) := by
  have hanti : IsAntisymm Str (fun a b => strLt b a = false) :=
    ⟨fun a b hab hba => strLt_total a b hba hab⟩
  refine @List.eq_of_perm_of_sorted Str (fun a b => strLt b a = false) hanti _ _
    (hp.map _) ?_ ?_
  · exact List.pairwise_map.mpr h1
  · exact List.pairwise_map.mpr h2

theorem printCourseList_eq (courses : List Course) (h : courses ≠ []) :
    printCourseList courses =
      some ((stdSort courseLt courses).map (fun c => (c.courseNumber, c.courseTitle))) := by
  unfold printCourseList
  cases courses with
  | nil => exact absurd rfl h
  | cons c cs => rfl

theorem other_records_ne (t0 : Str) (ls : List Str)
    (h : ∀ l ∈ ls, ∀ u ∈ (split (trim l) ',').head?, toUpperStr u ≠ toUpperStr t0) :
    ∀ d ∈ ls.filterMap lineRecord, toUpperStr d.courseNumber ≠ toUpperStr t0 := by
  intro d hd
  obtain ⟨l, hl, hld⟩ := List.mem_filterMap.mp hd
  exact h l hl _ (by simp [lineRecord_head l d hld])

theorem find_of_mem (m : UMap) (hm : m.keys.Nodup) (p : Str) (c : Course) (h : (p, c) ∈ m) :
    m.find p = some c := by
  unfold UMap.find
  rw [find?_unique (fun e => e.1 == p) m (p, c) h (by simp)]
  · rfl
  · intro y hy hyp
    simp only [beq_iff_eq] at hyp
    exact List.inj_on_of_nodup_map hm hy h hyp

theorem find_of_not_mem (m : UMap) (p : Str) (h : p ∉ m.keys) : m.find p = none := by
  unfold UMap.find
  rw [List.find?_eq_none.mpr]
  · rfl
  · intro e he hep
    simp only [beq_iff_eq] at hep
    exact h (List.mem_map.mpr ⟨e, he, hep⟩)

theorem lineRecord_length (line : Str) (c : Course) (h : lineRecord line = some c) :
    2 ≤ (split (trim line) ',').length := by
  unfold lineRecord at h
  simp only at h
  split_ifs at h with h1 h2 h3
  omega

theorem catalogValid_load (content : Str) (st : Catalog) :
    CatalogValid (loadCoursesFromFile (some content) st).2 := by
  rw [load_some]
  have hrec : ∀ c ∈ (getlines '\n' content).filterMap lineRecord, RecordValid c := by
    intro c hc
    obtain ⟨l, _, hl⟩ := List.mem_filterMap.mp hc
    exact lineRecord_valid l c hl
  refine ⟨hrec, ?_⟩
  intro e he
  rcases mem_assignAll _ _ _ he with h | ⟨d, hd, rfl⟩
  · cases h
  · exact ⟨rfl, hrec d hd⟩

theorem catalogValid_sequence (files : List (Option Str)) :
    CatalogValid (loadSequence files) := by
  unfold loadSequence
  suffices h : ∀ (fs : List (Option Str)) (st : Catalog), CatalogValid st →
      CatalogValid (fs.foldl (fun st file => (loadCoursesFromFile file st).2) st) from
    h files ⟨[], []⟩ ⟨by simp, by simp⟩
  intro fs
  induction fs with
  | nil => intro st h; exact h
  | cons f fs ih =>
    intro st h
    simp only [List.foldl_cons]
    apply ih
    cases f with
    | none => exact h
    | some content => exact catalogValid_load content st

/-- Both lines of the sample file `MATH,Calculus` / `CSCI101` are malformed:
the first has a course number that is too short, the second a single field. -/
theorem sample_lines_malformed :
    ∀ l ∈ getlines '\n' "MATH,Calculus\nCSCI101".toList,
      (split (trim l) ',').length < 2 ∨
        ∀ u ∈ (split (trim l) ',').head?, isValidCourseNumber u = false := by
  intro l hl
  have h : getlines '\n' "MATH,Calculus\nCSCI101".toList
      = ["MATH,Calculus".toList, "CSCI101".toList] := by decide
  rw [h] at hl
  have hl2 : l = "MATH,Calculus".toList ∨ l = "CSCI101".toList := by simpa using hl
  rcases hl2 with rfl | rfl
  · right
    have h2 : split (trim "MATH,Calculus".toList) ','
        = ["MATH".toList, "Calculus".toList] := by decide
    rw [h2]
    intro u hu
    simp only [List.head?_cons, Option.mem_def, Option.some.injEq] at hu
    subst hu
    decide
  · left; decide

/-- In the sample file whose second line is `MATH201,Calculus`, that line does
not carry the course number `CSCI101` in any letter case. -/
theorem sample_other_line :
    ∀ l ∈ ([] : List Str) ++ ["MATH201,Calculus".toList],
      ∀ u ∈ (split (trim l) ',').head?, toUpperStr u ≠ toUpperStr "CSCI101".toList := by
  intro l hl u hu
  have hl2 : l = "MATH201,Calculus".toList := by simpa using hl
  subst hl2
  have h2 : split (trim "MATH201,Calculus".toList) ','
      = ["MATH201".toList, "Calculus".toList] := by decide
  rw [h2] at hu
  simp only [List.head?_cons, Option.mem_def, Option.some.injEq] at hu
  subst hu
  decide

/-- The queries `csci101` and `CSCI101` differ only in the case of letters. -/
theorem sample_queries_same :
    List.Forall₂ SameUpToCase "csci101".toList "CSCI101".toList := by
  have hl : ∀ a b : Char, IsAsciiLetter a → IsAsciiLetter b → a.toNat = b.toNat + 32 →
      SameUpToCase a b := fun a b ha hb h => Or.inr ⟨ha, hb, Or.inl h⟩
  refine List.Forall₂.cons (hl _ _ ?_ ?_ ?_) (List.Forall₂.cons (hl _ _ ?_ ?_ ?_)
    (List.Forall₂.cons (hl _ _ ?_ ?_ ?_) (List.Forall₂.cons (hl _ _ ?_ ?_ ?_)
    (List.Forall₂.cons (Or.inl rfl) (List.Forall₂.cons (Or.inl rfl)
    (List.Forall₂.cons (Or.inl rfl) List.Forall₂.nil))))))
  all_goals first
    | (unfold IsAsciiLetter; decide)
    | decide

end EnhancementOne

end ABCU

/-! ## The catalog properties -/

namespace ABCU

namespace EnhancementOne

/-- Claim C1. Load followed by the detail query: when a line of a readable
file gives, after trimming and splitting on `,`, the tokens `t0, t1, ...` with
`t0` accepted by `isValidCourseNumber`, and no other line of the file has a
first token equal to `t0` up to letter case, then the load returns `true` and,
whatever the iteration order of `courseMap`, `printCourseInfo` for `t0` finds a
record with number `t0` and title `t1`. -/
theorem load_then_detail_finds_title (content : Str) (st : Catalog)
    (before after : List Str) (line t0 t1 : Str) (rest : List Str)
    (hlines : getlines '\n' content = before ++ line :: after)
    (htok : split (trim line) ',' = t0 :: t1 :: rest)
    (hvalid : isValidCourseNumber t0 = true)
    (honly : ∀ l ∈ before ++ after, ∀ u ∈ (split (trim l) ',').head?,
      toUpperStr u ≠ toUpperStr t0) :
    (loadCoursesFromFile (some content) st).1 = true ∧
    ∀ m : UMap, m.Perm (loadCoursesFromFile (some content) st).2.courseMap →
      ∃ p, printCourseInfo m t0 = InfoResult.found t0 t1 p := by
  have hrec := lineRecord_of_tokens line t0 t1 rest htok hvalid
  have hA := other_records_ne t0 before (fun l hl => honly l (by simp [hl]))
  have hB := other_records_ne t0 after (fun l hl => honly l (by simp [hl]))
  have hrecs : (getlines '\n' content).filterMap lineRecord =
      before.filterMap lineRecord ++
        (⟨t0, t1, collectPrereqs (t0 :: t1 :: rest)⟩ :: after.filterMap lineRecord) := by
    rw [hlines, List.filterMap_append, List.filterMap_cons, hrec]
  rw [load_some, hrecs]
  refine ⟨by simp, ?_⟩
  intro m hperm
  simp only at hperm
  generalize hc : (⟨t0, t1, collectPrereqs (t0 :: t1 :: rest)⟩ : Course) = c at hperm hrecs
  have hcn : c.courseNumber = t0 := by rw [← hc]
  have hct : c.courseTitle = t1 := by rw [← hc]
  have hmem : (t0, c) ∈ m := by
    refine hperm.symm.subset ?_
    rw [assignAll_append, assignAll_cons]
    refine mem_assignAll_of_later_ne _ _ _ ?_ ?_
    · rw [hcn]; exact (mem_assign _ _ _ _).mpr (Or.inl rfl)
    · intro d hd hd2
      exact hB d hd (by rw [hd2])
  have huniq : ∀ y ∈ m, (toUpperStr y.1 == toUpperStr t0) = true → y = (t0, c) := by
    intro y hy hyu
    rcases mem_assignAll _ _ _ (hperm.subset hy) with h | ⟨d, hd, rfl⟩
    · cases h
    · simp only [beq_iff_eq] at hyu
      rcases List.mem_append.mp hd with hd | hd
      · exact absurd hyu (hA d hd)
      · rcases List.mem_cons.mp hd with rfl | hd
        · rw [hcn]
        · exact absurd hyu (hB d hd)
  have htrim : trim t0 = t0 := (split_token (trim line) ',' t0 (by simp [htok])).2
  have hscan : scanMap m (toUpperStr (trim t0)) = some (t0, c) := by
    rw [htrim]
    exact find?_unique _ m (t0, c) hmem (by simp) huniq
  have hne : m.isEmpty = false := by
    cases m with
    | nil => cases hmem
    | cons a b => rfl
  refine ⟨renderPrereqs m c.prerequisites, ?_⟩
  unfold printCourseInfo
  simp only [hne, hscan, hcn, hct]
  rfl

/-- Claim C1 at the file `CSCI101, Intro to Programming, CSCI100` /
`MATH201,Calculus`, queried for `CSCI101`. -/
theorem load_then_detail_finds_title_witness :
    (loadCoursesFromFile
      (some "CSCI101, Intro to Programming, CSCI100\nMATH201,Calculus".toList) ⟨[], []⟩).1 = true ∧
    ∃ p, printCourseInfo
      (loadCoursesFromFile
        (some "CSCI101, Intro to Programming, CSCI100\nMATH201,Calculus".toList)
        ⟨[], []⟩).2.courseMap
      "CSCI101".toList
      = InfoResult.found "CSCI101".toList "Intro to Programming".toList p :=
  have h := load_then_detail_finds_title
    "CSCI101, Intro to Programming, CSCI100\nMATH201,Calculus".toList ⟨[], []⟩
    [] ["MATH201,Calculus".toList] "CSCI101, Intro to Programming, CSCI100".toList
    "CSCI101".toList "Intro to Programming".toList ["CSCI100".toList]
    (by decide) (by decide) (by decide) sample_other_line
  ⟨h.1, h.2 _ (List.Perm.refl _)⟩

/-- Claim C2. For a non-empty `courses`, `printCourseList` prints a listing
whose course numbers are in ascending order of `std::string` comparison: each
number is smaller than or equal to every number after it, in particular to the
next one. The sequence of course numbers does not depend on how `std::sort`
arranges equivalent elements: every arrangement of `courses` that is ordered by
the comparator carries the same sequence. -/
theorem listing_sorted (courses : List Course) (h : courses ≠ []) :
    ∃ l, printCourseList courses = some l ∧
      (l.map Prod.fst).Pairwise (fun a b => strLt a b = true ∨ a = b) ∧
      ∀ s : List Course, s.Perm courses →
        s.Pairwise (fun a b => courseLt b a = false) →
        s.map (fun c => c.courseNumber) = l.map Prod.fst := by
  refine ⟨_, printCourseList_eq courses h, ?_, ?_⟩
  · rw [List.map_map, List.pairwise_map]
    refine (stdSort_sorted courseLt courseLt_asymm courseLe_trans courses).imp ?_
    intro a b hab
    exact (strLe_iff _ _).mp hab
  · intro s hs hsorted
    rw [List.map_map]
    exact sorted_numbers_unique s _ (hs.trans (stdSort_perm courseLt courses).symm) hsorted
      (stdSort_sorted courseLt courseLt_asymm courseLe_trans courses)

/-- Claim C2 at the two courses `MATH201`, `CSCI101`. -/
theorem listing_sorted_witness :
    ([⟨"MATH201".toList, "Calculus".toList, []⟩,
      ⟨"CSCI101".toList, "Intro".toList, []⟩] : List Course) ≠ [] ∧
    ∃ l, printCourseList [⟨"MATH201".toList, "Calculus".toList, []⟩,
        ⟨"CSCI101".toList, "Intro".toList, []⟩] = some l ∧
      (l.map Prod.fst).Pairwise (fun a b => strLt a b = true ∨ a = b) ∧
      ∀ s : List Course,
        s.Perm [⟨"MATH201".toList, "Calculus".toList, []⟩,
          ⟨"CSCI101".toList, "Intro".toList, []⟩] →
        s.Pairwise (fun a b => courseLt b a = false) →
        s.map (fun c => c.courseNumber) = l.map Prod.fst :=
  ⟨by decide, listing_sorted _ (by decide)⟩

/-- Claim C3 fails as stated: after a successful load of a file with the lines
`CSCI101,A` and `CSCI101,B` the index has the single key `CSCI101`, and the
listing has two entries with that course number. -/
theorem listing_once_per_key_counterexample :
    (loadCoursesFromFile (some "CSCI101,A\nCSCI101,B".toList) ⟨[], []⟩).1 = true ∧
    (loadCoursesFromFile (some "CSCI101,A\nCSCI101,B".toList) ⟨[], []⟩).2.courseMap.keys
      = ["CSCI101".toList] ∧
    ((printCourseList
      (loadCoursesFromFile (some "CSCI101,A\nCSCI101,B".toList) ⟨[], []⟩).2.courses).getD
        []).map Prod.fst
      = ["CSCI101".toList, "CSCI101".toList] := by
  decide

/-- Claim C3, amended. After a successful load the listing has one entry per
accepted line: `courses` holds the records of the accepted lines in file order,
the course numbers of the listing are a rearrangement of those of `courses`,
the keys of `courseMap` are pairwise distinct, and a course number is in the
listing if and only if it is a key of `courseMap`. -/
theorem listing_codes_of_load (content : Str) (st : Catalog)
    (hok : (loadCoursesFromFile (some content) st).1 = true) :
    ∃ l, printCourseList (loadCoursesFromFile (some content) st).2.courses = some l ∧
      (∀ k, k ∈ l.map Prod.fst ↔ k ∈ (loadCoursesFromFile (some content) st).2.courseMap.keys) ∧
      (loadCoursesFromFile (some content) st).2.courseMap.keys.Nodup ∧
      (l.map Prod.fst).Perm
        ((loadCoursesFromFile (some content) st).2.courses.map (fun c => c.courseNumber)) ∧
      (loadCoursesFromFile (some content) st).2.courses
        = (getlines '\n' content).filterMap lineRecord := by
  rw [load_some] at hok ⊢
  simp only at hok ⊢
  have hne : (getlines '\n' content).filterMap lineRecord ≠ [] := by
    intro h; rw [h] at hok; simp at hok
  have hperm : (((stdSort courseLt ((getlines '\n' content).filterMap lineRecord)).map
      (fun c => (c.courseNumber, c.courseTitle))).map Prod.fst).Perm
      (((getlines '\n' content).filterMap lineRecord).map (fun c => c.courseNumber)) := by
    rw [List.map_map]
    exact (stdSort_perm courseLt _).map _
  refine ⟨_, printCourseList_eq _ hne, ?_, ?_, hperm, trivial⟩
  · intro k
    rw [hperm.mem_iff, keys_assignAll]
    simp [UMap.keys]
  · exact keys_assignAll_nodup [] _ (by simp [UMap.keys])

/-- Claim C3, amended, at the file `CSCI101,A` / `CSCI101,B`. -/
theorem listing_codes_of_load_witness :
    (loadCoursesFromFile (some "CSCI101,A\nCSCI101,B".toList) ⟨[], []⟩).1 = true ∧
    ∃ l, printCourseList
        (loadCoursesFromFile (some "CSCI101,A\nCSCI101,B".toList) ⟨[], []⟩).2.courses = some l ∧
      (∀ k, k ∈ l.map Prod.fst ↔
        k ∈ (loadCoursesFromFile (some "CSCI101,A\nCSCI101,B".toList)
          ⟨[], []⟩).2.courseMap.keys) ∧
      (loadCoursesFromFile (some "CSCI101,A\nCSCI101,B".toList) ⟨[], []⟩).2.courseMap.keys.Nodup ∧
      (l.map Prod.fst).Perm
        ((loadCoursesFromFile (some "CSCI101,A\nCSCI101,B".toList) ⟨[], []⟩).2.courses.map
          (fun c => c.courseNumber)) ∧
      (loadCoursesFromFile (some "CSCI101,A\nCSCI101,B".toList) ⟨[], []⟩).2.courses
        = (getlines '\n' "CSCI101,A\nCSCI101,B".toList).filterMap lineRecord :=
  ⟨by decide, listing_codes_of_load "CSCI101,A\nCSCI101,B".toList ⟨[], []⟩ (by decide)⟩

/-- Claim C4. `printCourseInfo` is case-insensitive in the query: for two
queries that differ only in the case of ASCII letters, either both calls print
"No courses loaded", or both print "not found" (each naming its own query), or
both print the same course number, title and prerequisites text. -/
theorem detail_case_insensitive (m : UMap) (q1 q2 : Str)
    (h : List.Forall₂ SameUpToCase q1 q2) :
    (printCourseInfo m q1 = InfoResult.noCourses ∧
      printCourseInfo m q2 = InfoResult.noCourses) ∨
    (printCourseInfo m q1 = InfoResult.notFound q1 ∧
      printCourseInfo m q2 = InfoResult.notFound q2) ∨
    ∃ n t p, printCourseInfo m q1 = InfoResult.found n t p ∧
      printCourseInfo m q2 = InfoResult.found n t p := by
  unfold printCourseInfo
  rw [toUpperStr_trim_sameUpToCase q1 q2 h]
  by_cases he : m.isEmpty = true
  · simp [he]
  · simp only [he]
    cases hs : scanMap m (toUpperStr (trim q2)) with
    | none => simp
    | some e => simp

/-- Claim C4 at the queries `csci101` and `CSCI101` on a one-course map. -/
theorem detail_case_insensitive_witness :
    (printCourseInfo [("CSCI101".toList, ⟨"CSCI101".toList, "Intro".toList, []⟩)]
        "csci101".toList = InfoResult.noCourses ∧
      printCourseInfo [("CSCI101".toList, ⟨"CSCI101".toList, "Intro".toList, []⟩)]
        "CSCI101".toList = InfoResult.noCourses) ∨
    (printCourseInfo [("CSCI101".toList, ⟨"CSCI101".toList, "Intro".toList, []⟩)]
        "csci101".toList = InfoResult.notFound "csci101".toList ∧
      printCourseInfo [("CSCI101".toList, ⟨"CSCI101".toList, "Intro".toList, []⟩)]
        "CSCI101".toList = InfoResult.notFound "CSCI101".toList) ∨
    ∃ n t p,
      printCourseInfo [("CSCI101".toList, ⟨"CSCI101".toList, "Intro".toList, []⟩)]
        "csci101".toList = InfoResult.found n t p ∧
      printCourseInfo [("CSCI101".toList, ⟨"CSCI101".toList, "Intro".toList, []⟩)]
        "CSCI101".toList = InfoResult.found n t p :=
  detail_case_insensitive _ _ _ sample_queries_same

/-- Claim C5. When the scan of `printCourseInfo` finds an entry, the call
prints that record's number and title, and the prerequisites text is `None`
for an empty prerequisite vector and otherwise the entries `<code> (<title>)`
in stored order joined by `, `; the title of an entry is that of the map entry
whose key is the prerequisite code, and `Unknown` when the code is not a key.
The result is a found record in either case. -/
theorem detail_prerequisites_rendering (m : UMap) (hm : m.keys.Nodup) (q : Str)
    (e : Str × Course) (hfound : scanMap m (toUpperStr (trim q)) = some e) :
    printCourseInfo m q =
      InfoResult.found e.2.courseNumber e.2.courseTitle
        (if e.2.prerequisites = [] then "None".toList
         else List.intercalate ", ".toList
           (e.2.prerequisites.map
             (fun p => p ++ " (".toList ++ prereqTitle m p ++ ")".toList))) ∧
    (∀ p c, (p, c) ∈ m → prereqTitle m p = c.courseTitle) ∧
    (∀ p, p ∉ m.keys → prereqTitle m p = "Unknown".toList) := by
  refine ⟨?_, ?_, ?_⟩
  · have hne : m.isEmpty = false := by
      cases m with
      | nil => simp [scanMap] at hfound
      | cons a b => rfl
    unfold printCourseInfo
    simp only [hne, hfound]
    unfold renderPrereqs
    cases hp : e.2.prerequisites with
    | nil => simp
    | cons a b =>
      rw [prereqLoop_eq m _ 0 _ (by simp)]
      simp
  · intro p c hpc
    simp [prereqTitle, find_of_mem m hm p c hpc]
  · intro p hp
    simp [prereqTitle, find_of_not_mem m p hp]

/-- Claim C5 at a two-course map where `CSCI300` requires `CSCI200` (present)
and `CSCI100` (absent). -/
theorem detail_prerequisites_rendering_witness :
    printCourseInfo
      [("CSCI300".toList, ⟨"CSCI300".toList, "Algorithms".toList,
          ["CSCI200".toList, "CSCI100".toList]⟩),
        ("CSCI200".toList, ⟨"CSCI200".toList, "Data".toList, []⟩)]
      "csci300".toList
      = InfoResult.found "CSCI300".toList "Algorithms".toList
          "CSCI200 (Data), CSCI100 (Unknown)".toList :=
  (detail_prerequisites_rendering
    [("CSCI300".toList, ⟨"CSCI300".toList, "Algorithms".toList,
        ["CSCI200".toList, "CSCI100".toList]⟩),
      ("CSCI200".toList, ⟨"CSCI200".toList, "Data".toList, []⟩)]
    (by decide) "csci300".toList
    ("CSCI300".toList, ⟨"CSCI300".toList, "Algorithms".toList,
        ["CSCI200".toList, "CSCI100".toList]⟩)
    (by decide)).1.trans (by decide)

/-- Claim C6. When the file cannot be opened, `loadCoursesFromFile` returns
`false` and leaves `courses` and `courseMap` as they were, so the listing and
every detail query answer as before, and a catalog that was never loaded still
prints "No courses loaded" for both. -/
theorem load_unopenable_keeps_state (st : Catalog) :
    loadCoursesFromFile none st = (false, st) ∧
    printCourseList (loadCoursesFromFile none st).2.courses = printCourseList st.courses ∧
    (∀ q, printCourseInfo (loadCoursesFromFile none st).2.courseMap q
      = printCourseInfo st.courseMap q) ∧
    printCourseList (loadCoursesFromFile none ⟨[], []⟩).2.courses = none ∧
    (∀ q, printCourseInfo (loadCoursesFromFile none ⟨[], []⟩).2.courseMap q
      = InfoResult.noCourses) :=
  ⟨rfl, rfl, fun _ => rfl, rfl, fun _ => rfl⟩

/-- Claim C7 fails as stated: with one course loaded, loading the readable file
`MATH,Calculus` / `CSCI101`, whose lines are all malformed, returns `false` and
leaves an empty catalog, which differs from the catalog before the load. -/
theorem load_malformed_unchanged_counterexample :
    loadCoursesFromFile (some "MATH,Calculus\nCSCI101".toList)
      ⟨[⟨"CSCI200".toList, "Data".toList, []⟩],
        [("CSCI200".toList, ⟨"CSCI200".toList, "Data".toList, []⟩)]⟩
      = (false, ⟨[], []⟩) ∧
    (loadCoursesFromFile (some "MATH,Calculus\nCSCI101".toList)
      ⟨[⟨"CSCI200".toList, "Data".toList, []⟩],
        [("CSCI200".toList, ⟨"CSCI200".toList, "Data".toList, []⟩)]⟩).2
      ≠ ⟨[⟨"CSCI200".toList, "Data".toList, []⟩],
        [("CSCI200".toList, ⟨"CSCI200".toList, "Data".toList, []⟩)]⟩ := by
  decide

/-- Claim C7, amended. For every prior catalog and every readable file whose
lines all have fewer than two tokens or a first token that
`isValidCourseNumber` rejects, the load returns `false` and leaves `courses`
and `courseMap` empty. -/
theorem load_malformed_only_clears (content : Str) (st : Catalog)
    (h : ∀ l ∈ getlines '\n' content,
      (split (trim l) ',').length < 2 ∨
        ∀ u ∈ (split (trim l) ',').head?, isValidCourseNumber u = false) :
    loadCoursesFromFile (some content) st = (false, ⟨[], []⟩) := by
  have hnone : (getlines '\n' content).filterMap lineRecord = [] := by
    rw [List.filterMap_eq_nil_iff]
    intro l hl
    cases hr : lineRecord l with
    | none => rfl
    | some c =>
      exfalso
      rcases h l hl with h1 | h2
      · have := lineRecord_length l c hr
        omega
      · have hv := (lineRecord_valid l c hr).1
        rw [h2 _ (by simp [lineRecord_head l c hr])] at hv
        cases hv
  rw [load_some, hnone]
  rfl

/-- Claim C7, amended, at the file `MATH,Calculus` / `CSCI101` loaded over a
one-course catalog. -/
theorem load_malformed_only_clears_witness :
    loadCoursesFromFile (some "MATH,Calculus\nCSCI101".toList)
      ⟨[⟨"CSCI200".toList, "Data".toList, []⟩],
        [("CSCI200".toList, ⟨"CSCI200".toList, "Data".toList, []⟩)]⟩
      = (false, ⟨[], []⟩) :=
  load_malformed_only_clears "MATH,Calculus\nCSCI101".toList _ sample_lines_malformed

/-- Claim C9. Every record held after a load passes the validity predicate,
for its course number and for each of its prerequisites: this holds after every
load that reads a file, whatever the prior state, and in every state of a
session of loads (opened or not) that starts empty. The line `MATH,Calculus`
leaves the state of the load loop as it is, a file with that line alone gives
an empty catalog and a failed load, and `MATH` is in no listing. -/
theorem load_records_valid :
    (∀ content st, CatalogValid (loadCoursesFromFile (some content) st).2) ∧
    (∀ files, CatalogValid (loadSequence files)) ∧
    (∀ st, loadStep st "MATH,Calculus".toList = st) ∧
    (∀ st, loadCoursesFromFile (some "MATH,Calculus".toList) st = (false, ⟨[], []⟩)) ∧
    (∀ files l, printCourseList (loadSequence files).courses = some l →
      "MATH".toList ∉ l.map Prod.fst) := by
  refine ⟨catalogValid_load, catalogValid_sequence, ?_, ?_, ?_⟩
  · intro st
    have h : lineRecord "MATH,Calculus".toList = none := by decide
    rw [loadStep_eq, h]
  · intro st
    rw [load_some]
    decide
  · intro files l hl hmem
    have hne : (loadSequence files).courses ≠ [] := by
      intro h; rw [h] at hl; simp [printCourseList] at hl
    rw [printCourseList_eq _ hne] at hl
    simp only [Option.some.injEq] at hl
    subst hl
    rw [List.map_map] at hmem
    obtain ⟨c, hc, hcn⟩ := List.mem_map.mp hmem
    have hv := ((catalogValid_sequence files).1 c ((stdSort_perm courseLt _).subset hc)).1
    simp only [Function.comp] at hcn
    rw [hcn] at hv
    revert hv
    decide

/-- Claim C10. `isValidCourseNumber s` is true exactly when the length of `s`
is between 5 and 8 inclusive and every character of `s` is an ASCII letter or
an ASCII digit. -/
theorem isValidCourseNumber_iff (s : Str) :
    isValidCourseNumber s = true ↔
      (5 ≤ s.length ∧ s.length ≤ 8) ∧ ∀ c ∈ s, IsAsciiLetter c ∨ IsAsciiDigit c := by
  unfold isValidCourseNumber
  by_cases h : (decide (s.length < 5) || decide (s.length > 8)) = true
  · simp only [h, if_true]
    simp only [Bool.or_eq_true, decide_eq_true_eq] at h
    constructor
    · intro h2; cases h2
    · rintro ⟨⟨h1, h2⟩, _⟩; omega
  · rw [if_neg h, alnumLoop_iff]
    simp only [Bool.or_eq_true, decide_eq_true_eq, not_or, not_lt] at h
    constructor
    · intro h2
      exact ⟨⟨h.1, by omega⟩, fun c hc => (isAlphanum_iff c).mp (h2 c hc)⟩
    · rintro ⟨_, h2⟩ c hc
      exact (isAlphanum_iff c).mpr (h2 c hc)

end EnhancementOne

namespace EnhancementTwo

/-- Claim C8 fails as stated: a readable empty file, and a readable file with
only invalid lines, both make `loadCoursesFromFile` return `true` while no
record is produced. -/
theorem load_zero_records_counterexample :
    loadCoursesFromFile (some []) ⟨[], []⟩ = (true, ⟨[], []⟩) ∧
    loadCoursesFromFile (some "MATH,Calculus\nCSCI101".toList) ⟨[], []⟩ = (true, ⟨[], []⟩) := by
  decide

/-- Claim C8, amended. `loadCoursesFromFile` returns `true` if and only if the
file could be opened, whatever number of records the file produces. -/
theorem load_success_iff_opened (file : Option Str) (st : Catalog) :
    (loadCoursesFromFile file st).1 = true ↔ file.isSome = true := by
  cases file <;> simp [loadCoursesFromFile]

end EnhancementTwo

end ABCU

/-! ## Further lemmas on the load loop of `Enhanced_ProjectTwo.cpp` -/

namespace ABCU

open EnhancementOne

theorem mem_assignAll_last (m : UMap) (before after : List Course) (c : Course)
    (h : ∀ d ∈ after, d.courseNumber ≠ c.courseNumber) :
    (c.courseNumber, c) ∈ assignAll m (before ++ c :: after) := by
  rw [assignAll_append, assignAll_cons]
  exact mem_assignAll_of_later_ne _ _ _ ((mem_assign _ _ _ _).mpr (Or.inl rfl)) h

theorem find_eq_of_perm (m1 m2 : UMap) (hp : m1.Perm m2) (hn : m2.keys.Nodup) (k : Str) :
    m1.find k = m2.find k := by
  have hpk : m1.keys.Perm m2.keys := hp.map _
  have hn1 : m1.keys.Nodup := hpk.nodup_iff.mpr hn
  cases h2 : List.find? (fun e => e.1 == k) m2 with
  | none =>
    have hk : k ∉ m2.keys := by
      intro hk
      obtain ⟨e, he, hek⟩ := List.mem_map.mp hk
      have := List.find?_eq_none.mp h2 e he
      simp [hek] at this
    have hk1 : k ∉ m1.keys := fun hk1 => hk (hpk.subset hk1)
    rw [find_of_not_mem m1 k hk1, find_of_not_mem m2 k hk]
  | some e =>
    have hmem := List.mem_of_find?_eq_some h2
    have hkey : e.1 = k := by simpa using List.find?_some h2
    have hmem2 : (k, e.2) ∈ m2 := by rw [← hkey]; exact hmem
    rw [find_of_mem m2 hn k e.2 hmem2, find_of_mem m1 hn1 k e.2 (hp.symm.subset hmem2)]

namespace EnhancementOne

theorem collectPrereqs_eq (tokens : List Str) :
    collectPrereqs tokens = ((tokens.drop 2).map trim).filter isValidCourseNumber := by
  unfold collectPrereqs
  suffices h : ∀ (l acc : List Str),
      l.foldl (fun prerequisites tok =>
        let prereq := trim tok
        if !prereq.isEmpty && isValidCourseNumber prereq then prerequisites ++ [prereq]
        else prerequisites) acc
      = acc ++ (l.map trim).filter isValidCourseNumber by
    simpa using h (tokens.drop 2) []
  intro l
  induction l with
  | nil => simp
  | cons t ts ih =>
    intro acc
    simp only [List.foldl_cons, List.map_cons, ih]
    by_cases hv : isValidCourseNumber (trim t) = true
    · have hne : (trim t).isEmpty = false := by
        cases h : trim t with
        | nil => rw [h] at hv; simp [isValidCourseNumber] at hv
        | cons a b => rfl
      simp [hv, hne, List.filter_cons]
    · simp [hv, List.filter_cons]

theorem map_trim_tokens (s : Str) (d : Char) (ts : List Str)
    (h : ∀ t ∈ ts, t ∈ split s d) : ts.map trim = ts := by
  induction ts with
  | nil => rfl
  | cons t ts ih =>
    rw [List.map_cons, (split_token s d t (h t (by simp))).2,
      ih (fun x hx => h x (by simp [hx]))]

theorem lineRecord_tokens (line t0 t1 : Str) (rest : List Str)
    (htok : split (trim line) ',' = t0 :: t1 :: rest)
    (hvalid : isValidCourseNumber t0 = true) :
    lineRecord line = some ⟨t0, t1, rest.filter isValidCourseNumber⟩ := by
  rw [lineRecord_of_tokens line t0 t1 rest htok hvalid, collectPrereqs_eq]
  have : (rest.map trim) = rest :=
    map_trim_tokens (trim line) ',' rest (fun t ht => by simp [htok, ht])
  simp [this]

theorem lineRecord_blank (l : Str) (h : isBlankLine l = true) : lineRecord l = none := by
  have hall : ∀ c ∈ l, c ∈ blanks := by
    simpa [isBlankLine] using h
  have : trim l = [] := by
    unfold trim
    rw [(find_first_not_of_eq_none blanks l).mpr hall]
  unfold lineRecord
  simp [this]

theorem filterMap_lineRecord_nonblank (ls : List Str) :
    (ls.filter (fun l => !isBlankLine l)).filterMap lineRecord = ls.filterMap lineRecord := by
  induction ls with
  | nil => rfl
  | cons l ls ih =>
    by_cases hb : isBlankLine l = true
    · simp [List.filter_cons, hb, List.filterMap_cons, lineRecord_blank l hb, ih]
    · simp only [Bool.not_eq_true] at hb
      simp [List.filter_cons, hb, List.filterMap_cons, ih]

end EnhancementOne

theorem getlines_no_delim (d : Char) (s : Str) : ∀ l ∈ getlines d s, d ∉ l := by
  induction s with
  | nil => simp [getlines]
  | cons c cs ih =>
    intro l hl
    by_cases hc : c = d
    · simp only [getlines, hc, if_true, List.mem_cons] at hl
      rcases hl with rfl | hl
      · simp
      · exact ih l hl
    · simp only [getlines, hc, if_false] at hl
      cases hg : getlines d cs with
      | nil =>
        rw [hg] at hl
        simp only [List.mem_singleton] at hl
        subst hl
        simpa using fun h => hc h.symm
      | cons t ts =>
        rw [hg] at hl ih
        simp only [List.mem_cons] at hl
        rcases hl with rfl | hl
        · have := ih t (by simp)
          simp only [List.mem_cons, not_or]
          exact ⟨fun h => hc h.symm, this⟩
        · exact ih l (by simp [hl])

theorem getlines_append_delim (d : Char) (a b : Str) (ha : d ∉ a) :
    getlines d (a ++ d :: b) = a :: getlines d b := by
  induction a with
  | nil => simp [getlines]
  | cons x xs ih =>
    have hx : x ≠ d := fun h => ha (by simp [h])
    have hxs : d ∉ xs := fun h => ha (by simp [h])
    simp [getlines, hx, ih hxs]

theorem getlines_unlines (ls : List Str) (h : ∀ l ∈ ls, '\n' ∉ l) :
    getlines '\n' (unlines ls) = ls := by
  induction ls with
  | nil => rfl
  | cons l ls ih =>
    rw [unlines, getlines_append_delim '\n' l _ (h l (by simp)),
      ih (fun x hx => h x (by simp [hx]))]

theorem getlines_dropBlankLines (content : Str) :
    getlines '\n' (dropBlankLines content)
      = (getlines '\n' content).filter (fun l => !isBlankLine l) := by
  unfold dropBlankLines
  apply getlines_unlines
  intro l hl
  exact getlines_no_delim '\n' content l (List.mem_filter.mp hl).1

end ABCU

namespace ABCU

namespace EnhancementOne

theorem keys_iff_load (file : Option Str) (st : Catalog)
    (h : ∀ k, k ∈ st.courseMap.keys ↔ k ∈ st.courses.map (fun c => c.courseNumber)) :
    ∀ k, k ∈ (loadCoursesFromFile file st).2.courseMap.keys ↔
      k ∈ (loadCoursesFromFile file st).2.courses.map (fun c => c.courseNumber) := by
  cases file with
  | none => exact h
  | some content =>
    intro k
    rw [load_some]
    simp only
    rw [keys_assignAll]
    simp [UMap.keys]

theorem keys_iff_sequence (files : List (Option Str)) :
    ∀ k, k ∈ (loadSequence files).courseMap.keys ↔
      k ∈ (loadSequence files).courses.map (fun c => c.courseNumber) := by
  unfold loadSequence
  suffices h : ∀ (fs : List (Option Str)) (st : Catalog),
      (∀ k, k ∈ st.courseMap.keys ↔ k ∈ st.courses.map (fun c => c.courseNumber)) →
      ∀ k, k ∈ (fs.foldl (fun st file => (loadCoursesFromFile file st).2) st).courseMap.keys ↔
        k ∈ (fs.foldl (fun st file => (loadCoursesFromFile file st).2) st).courses.map
          (fun c => c.courseNumber) from
    h files ⟨[], []⟩ (by simp [UMap.keys])
  intro fs
  induction fs with
  | nil => intro st h; exact h
  | cons f fs ih =>
    intro st h
    simp only [List.foldl_cons]
    exact ih _ (keys_iff_load f st h)

theorem printCourseInfo_noCourses_iff (m : UMap) (q : Str) :
    printCourseInfo m q = InfoResult.noCourses ↔ m = [] := by
  unfold printCourseInfo
  cases m with
  | nil => simp
  | cons a b =>
    simp only [List.isEmpty_cons]
    cases scanMap (a :: b) (toUpperStr (trim q)) <;> simp

theorem printCourseList_none_iff (courses : List Course) :
    printCourseList courses = none ↔ courses = [] := by
  unfold printCourseList
  cases courses <;> simp

/-- The third line of the sample file `CSCI101,A` / `MATH201,Calc` /
`CSCI101,B` has no line after it. -/
theorem sample_no_later_line :
    ∀ l ∈ ([] : List Str), ∀ d, lineRecord l = some d → d.courseNumber ≠ "CSCI101".toList := by
  intro l hl
  cases hl

/-- Claim C11. For a line of a readable file that gives, after trimming and
splitting on `,`, the tokens `t0, t1, rest` with `t0` accepted by
`isValidCourseNumber`, the iteration of the load loop stores, from every
state, the record with number `t0`, title `t1` and as prerequisites exactly the
tokens of `rest` that `isValidCourseNumber` accepts, in their order; the line
is stored whatever the other tokens are, and the record is in `courses` after
the load. -/
theorem load_prerequisites_filtered (content : Str) (st : Catalog)
    (line t0 t1 : Str) (rest : List Str)
    (hline : line ∈ getlines '\n' content)
    (htok : split (trim line) ',' = t0 :: t1 :: rest)
    (hvalid : isValidCourseNumber t0 = true) :
    (∀ s : Catalog, loadStep s line =
      ⟨s.courses ++ [⟨t0, t1, rest.filter isValidCourseNumber⟩],
        s.courseMap.assign t0 ⟨t0, t1, rest.filter isValidCourseNumber⟩⟩) ∧
    (⟨t0, t1, rest.filter isValidCourseNumber⟩ : Course) ∈
      (loadCoursesFromFile (some content) st).2.courses := by
  have hrec := lineRecord_tokens line t0 t1 rest htok hvalid
  refine ⟨fun s => ?_, ?_⟩
  · rw [loadStep_eq, hrec]
  · rw [load_some]
    exact List.mem_filterMap.mpr ⟨line, hline, hrec⟩

/-- Claim C11 at the line `CSCI300,Algorithms,CSCI200,bad one,MATH201`, whose
token `bad one` is not a valid course number. -/
theorem load_prerequisites_filtered_witness :
    (∀ s : Catalog, loadStep s "CSCI300,Algorithms,CSCI200,bad one,MATH201".toList =
      ⟨s.courses ++ [⟨"CSCI300".toList, "Algorithms".toList,
          ["CSCI200".toList, "bad one".toList, "MATH201".toList].filter isValidCourseNumber⟩],
        s.courseMap.assign "CSCI300".toList ⟨"CSCI300".toList, "Algorithms".toList,
          ["CSCI200".toList, "bad one".toList, "MATH201".toList].filter
            isValidCourseNumber⟩⟩) ∧
    (⟨"CSCI300".toList, "Algorithms".toList,
        ["CSCI200".toList, "bad one".toList, "MATH201".toList].filter isValidCourseNumber⟩ :
      Course) ∈
      (loadCoursesFromFile (some "CSCI300,Algorithms,CSCI200,bad one,MATH201".toList)
        ⟨[], []⟩).2.courses :=
  load_prerequisites_filtered "CSCI300,Algorithms,CSCI200,bad one,MATH201".toList ⟨[], []⟩
    "CSCI300,Algorithms,CSCI200,bad one,MATH201".toList "CSCI300".toList "Algorithms".toList
    ["CSCI200".toList, "bad one".toList, "MATH201".toList] (by decide) (by decide) (by decide)

/-- Claim C13. Duplicates are last-wins in the index: when a line of a readable
file is accepted with the tokens `t0, t1, rest` and no later line of the file is
accepted with the course number `t0`, then after the load `courseMap.find(t0)`
returns the record built from that line (title `t1`, prerequisites the valid
tokens of `rest`), whatever the iteration order of the map and whatever
earlier lines carried the same number. -/
theorem index_last_wins (content : Str) (st : Catalog)
    (before after : List Str) (line t0 t1 : Str) (rest : List Str)
    (hlines : getlines '\n' content = before ++ line :: after)
    (htok : split (trim line) ',' = t0 :: t1 :: rest)
    (hvalid : isValidCourseNumber t0 = true)
    (hlast : ∀ l ∈ after, ∀ d, lineRecord l = some d → d.courseNumber ≠ t0) :
    ∀ m : UMap, m.Perm (loadCoursesFromFile (some content) st).2.courseMap →
      m.find t0 = some ⟨t0, t1, rest.filter isValidCourseNumber⟩ := by
  have hrec := lineRecord_tokens line t0 t1 rest htok hvalid
  intro m hperm
  rw [load_some] at hperm
  simp only at hperm
  have hn := keys_assignAll_nodup [] ((getlines '\n' content).filterMap lineRecord)
    (by simp [UMap.keys])
  rw [find_eq_of_perm m _ hperm hn]
  apply find_of_mem _ hn
  rw [hlines, List.filterMap_append, List.filterMap_cons, hrec]
  refine mem_assignAll_last [] _ _ ⟨t0, t1, rest.filter isValidCourseNumber⟩ ?_
  intro d hd
  obtain ⟨l, hl, hld⟩ := List.mem_filterMap.mp hd
  exact hlast l hl d hld

/-- Claim C13 at the file `CSCI101,A` / `MATH201,Calc` / `CSCI101,B`: the
index entry of `CSCI101` is the record of the third line. -/
theorem index_last_wins_witness :
    (loadCoursesFromFile (some "CSCI101,A\nMATH201,Calc\nCSCI101,B".toList)
      ⟨[], []⟩).2.courseMap.find "CSCI101".toList
      = some ⟨"CSCI101".toList, "B".toList, []⟩ :=
  index_last_wins "CSCI101,A\nMATH201,Calc\nCSCI101,B".toList ⟨[], []⟩
    ["CSCI101,A".toList, "MATH201,Calc".toList] [] "CSCI101,B".toList
    "CSCI101".toList "B".toList [] (by decide) (by decide) (by decide)
    sample_no_later_line _ (List.Perm.refl _)

/-- Claim C14. A load of a readable file replaces the catalog: from every two
prior states the returned flag is the same, `courses` is the same and
`courseMap` holds the same entries, so that `find` answers alike, whatever the
orders `m1` and `m2` in which the two maps iterate; `courses` holds exactly the
records of the accepted lines of the file, and every entry of `courseMap` is
the record of a line of the file, stored under its course number. -/
theorem load_replaces_catalog (content : Str) (st1 st2 : Catalog) (m1 m2 : UMap)
    (h1 : m1.Perm (loadCoursesFromFile (some content) st1).2.courseMap)
    (h2 : m2.Perm (loadCoursesFromFile (some content) st2).2.courseMap) :
    (loadCoursesFromFile (some content) st1).1 = (loadCoursesFromFile (some content) st2).1 ∧
    (loadCoursesFromFile (some content) st1).2.courses
      = (loadCoursesFromFile (some content) st2).2.courses ∧
    m1.Perm m2 ∧
    (∀ k, m1.find k = m2.find k) ∧
    (loadCoursesFromFile (some content) st1).2.courses
      = (getlines '\n' content).filterMap lineRecord ∧
    ∀ e ∈ m1, e.1 = e.2.courseNumber ∧ ∃ l ∈ getlines '\n' content, lineRecord l = some e.2 := by
  rw [load_some] at h1 h2
  simp only at h1 h2
  have hn := keys_assignAll_nodup [] ((getlines '\n' content).filterMap lineRecord)
    (by simp [UMap.keys])
  refine ⟨by rw [load_some, load_some], by rw [load_some, load_some], h1.trans h2.symm, ?_,
    by rw [load_some], ?_⟩
  · intro k
    rw [find_eq_of_perm m1 _ h1 hn, find_eq_of_perm m2 _ h2 hn]
  · intro e he
    rcases mem_assignAll _ _ _ (h1.subset he) with h | ⟨d, hd, rfl⟩
    · cases h
    · exact ⟨rfl, List.mem_filterMap.mp hd⟩

/-- Claim C14 at the file `CSCI101,A` / `MATH201,Calc`, loaded once into the
empty catalog and once into a catalog that holds the course `OLD100`, the two
maps being iterated in opposite orders. -/
theorem load_replaces_catalog_witness :
    (loadCoursesFromFile (some "CSCI101,A\nMATH201,Calc".toList) ⟨[], []⟩).1
      = (loadCoursesFromFile (some "CSCI101,A\nMATH201,Calc".toList)
          ⟨[⟨"OLD100".toList, "Old".toList, []⟩],
            [("OLD100".toList, ⟨"OLD100".toList, "Old".toList, []⟩)]⟩).1 ∧
    (loadCoursesFromFile (some "CSCI101,A\nMATH201,Calc".toList) ⟨[], []⟩).2.courses
      = (loadCoursesFromFile (some "CSCI101,A\nMATH201,Calc".toList)
          ⟨[⟨"OLD100".toList, "Old".toList, []⟩],
            [("OLD100".toList, ⟨"OLD100".toList, "Old".toList, []⟩)]⟩).2.courses ∧
    List.Perm
      [("CSCI101".toList, (⟨"CSCI101".toList, "A".toList, []⟩ : Course)),
        ("MATH201".toList, ⟨"MATH201".toList, "Calc".toList, []⟩)]
      [("MATH201".toList, (⟨"MATH201".toList, "Calc".toList, []⟩ : Course)),
        ("CSCI101".toList, ⟨"CSCI101".toList, "A".toList, []⟩)] ∧
    (∀ k, UMap.find
        [("CSCI101".toList, (⟨"CSCI101".toList, "A".toList, []⟩ : Course)),
          ("MATH201".toList, ⟨"MATH201".toList, "Calc".toList, []⟩)] k
      = UMap.find
        [("MATH201".toList, (⟨"MATH201".toList, "Calc".toList, []⟩ : Course)),
          ("CSCI101".toList, ⟨"CSCI101".toList, "A".toList, []⟩)] k) ∧
    (loadCoursesFromFile (some "CSCI101,A\nMATH201,Calc".toList) ⟨[], []⟩).2.courses
      = (getlines '\n' "CSCI101,A\nMATH201,Calc".toList).filterMap lineRecord ∧
    ∀ e ∈ ([("CSCI101".toList, (⟨"CSCI101".toList, "A".toList, []⟩ : Course)),
        ("MATH201".toList, ⟨"MATH201".toList, "Calc".toList, []⟩)] : UMap),
      e.1 = e.2.courseNumber ∧
        ∃ l ∈ getlines '\n' "CSCI101,A\nMATH201,Calc".toList, lineRecord l = some e.2 :=
  load_replaces_catalog "CSCI101,A\nMATH201,Calc".toList ⟨[], []⟩
    ⟨[⟨"OLD100".toList, "Old".toList, []⟩],
      [("OLD100".toList, ⟨"OLD100".toList, "Old".toList, []⟩)]⟩
    [("CSCI101".toList, ⟨"CSCI101".toList, "A".toList, []⟩),
      ("MATH201".toList, ⟨"MATH201".toList, "Calc".toList, []⟩)]
    [("MATH201".toList, ⟨"MATH201".toList, "Calc".toList, []⟩),
      ("CSCI101".toList, ⟨"CSCI101".toList, "A".toList, []⟩)]
    (List.Perm.swap _ _ _) (List.Perm.refl _)

/-- Claim C15 fails as stated: the readable file `csci200,Data` loads with the
key and course number `csci200`, which differs from its upper-cased form. -/
theorem stored_codes_uppercase_counterexample :
    loadCoursesFromFile (some "csci200,Data".toList) ⟨[], []⟩
      = (true, ⟨[⟨"csci200".toList, "Data".toList, []⟩],
          [("csci200".toList, ⟨"csci200".toList, "Data".toList, []⟩)]⟩) ∧
    toUpperStr "csci200".toList ≠ "csci200".toList := by
  decide

/-- Claim C15, amended. Course numbers are stored as the file writes them,
trimmed and not upper-cased: after a load of a readable file every key of
`courseMap` equals the `courseNumber` of its record and is the first token of a
line of the file, every record of `courses` has as number the first token of a
line, and the first token of every accepted line is a key. -/
theorem stored_codes_verbatim (content : Str) (st : Catalog) :
    (∀ e ∈ (loadCoursesFromFile (some content) st).2.courseMap,
      e.1 = e.2.courseNumber ∧
        ∃ l ∈ getlines '\n' content, (split (trim l) ',').head? = some e.1) ∧
    (∀ c ∈ (loadCoursesFromFile (some content) st).2.courses,
      ∃ l ∈ getlines '\n' content, (split (trim l) ',').head? = some c.courseNumber) ∧
    (∀ l ∈ getlines '\n' content, ∀ t0 t1 rest,
      split (trim l) ',' = t0 :: t1 :: rest → isValidCourseNumber t0 = true →
      t0 ∈ (loadCoursesFromFile (some content) st).2.courseMap.keys) := by
  rw [load_some]
  have hrecs : ∀ c ∈ (getlines '\n' content).filterMap lineRecord,
      ∃ l ∈ getlines '\n' content, (split (trim l) ',').head? = some c.courseNumber := by
    intro c hc
    obtain ⟨l, hl, hlc⟩ := List.mem_filterMap.mp hc
    exact ⟨l, hl, lineRecord_head l c hlc⟩
  refine ⟨?_, hrecs, ?_⟩
  · intro e he
    rcases mem_assignAll _ _ _ he with h | ⟨d, hd, rfl⟩
    · cases h
    · exact ⟨rfl, hrecs d hd⟩
  · intro l hl t0 t1 rest htok hvalid
    simp only
    rw [keys_assignAll]
    right
    exact List.mem_map.mpr ⟨_, List.mem_filterMap.mpr
      ⟨l, hl, lineRecord_tokens l t0 t1 rest htok hvalid⟩, rfl⟩

/-- Claim C16. Blank lines are ignored by the load: the file obtained by
deleting every line that is empty or has only spaces and tabs has as lines the
other lines in order, and loading it, or any file with those lines, gives the
same returned flag and the same `courses` and `courseMap` as loading the file
itself. -/
theorem load_ignores_blank_lines (content : Str) (st : Catalog) :
    getlines '\n' (dropBlankLines content)
      = (getlines '\n' content).filter (fun l => !isBlankLine l) ∧
    loadCoursesFromFile (some (dropBlankLines content)) st
      = loadCoursesFromFile (some content) st ∧
    ∀ content2 : Str,
      getlines '\n' content2 = (getlines '\n' content).filter (fun l => !isBlankLine l) →
      loadCoursesFromFile (some content2) st = loadCoursesFromFile (some content) st := by
  have hgen : ∀ content2 : Str,
      getlines '\n' content2 = (getlines '\n' content).filter (fun l => !isBlankLine l) →
      loadCoursesFromFile (some content2) st = loadCoursesFromFile (some content) st := by
    intro content2 h
    rw [load_some, load_some, h, filterMap_lineRecord_nonblank]
  exact ⟨getlines_dropBlankLines content, hgen _ (getlines_dropBlankLines content), hgen⟩

/-- Claim C18. In every state of a session that starts empty and calls
`loadCoursesFromFile` any number of times, the keys of `courseMap` are the
course numbers of `courses`; `courses` is empty exactly when `courseMap` is, so
`printCourseList` and `printCourseInfo` print "No courses loaded" in exactly
the same states. -/
theorem catalog_views_agree (files : List (Option Str)) :
    (∀ k, k ∈ (loadSequence files).courseMap.keys ↔
      k ∈ (loadSequence files).courses.map (fun c => c.courseNumber)) ∧
    ((loadSequence files).courses = [] ↔ (loadSequence files).courseMap = []) ∧
    (∀ q, printCourseList (loadSequence files).courses = none ↔
      printCourseInfo (loadSequence files).courseMap q = InfoResult.noCourses) := by
  have hk := keys_iff_sequence files
  have hiff : (loadSequence files).courses = [] ↔ (loadSequence files).courseMap = [] := by
    constructor
    · intro h
      rw [h] at hk
      cases hm : (loadSequence files).courseMap with
      | nil => rfl
      | cons a b =>
        rw [hm] at hk
        have hmem : a.1 ∈ UMap.keys (a :: b) := List.mem_map.mpr ⟨a, List.mem_cons_self _ _, rfl⟩
        exact absurd ((hk a.1).mp hmem) (List.not_mem_nil _)
    · intro h
      rw [h] at hk
      cases hc : (loadSequence files).courses with
      | nil => rfl
      | cons a b =>
        rw [hc] at hk
        have hmem : a.courseNumber ∈ (a :: b).map (fun c => c.courseNumber) :=
          List.mem_map.mpr ⟨a, List.mem_cons_self _ _, rfl⟩
        exact absurd ((hk a.courseNumber).mpr hmem) (List.not_mem_nil _)
  refine ⟨hk, hiff, fun q => ?_⟩
  rw [printCourseList_none_iff, printCourseInfo_noCourses_iff]
  exact hiff

end EnhancementOne

end ABCU

/-! ## The loaders and the detail query of `Enhancement_Two` -/

namespace ABCU

theorem find?_congr_mem {α : Type} (p q : α → Bool) (l : List α)
    (h : ∀ x ∈ l, p x = q x) : l.find? p = l.find? q := by
  induction l with
  | nil => rfl
  | cons a as ih =>
    simp only [List.find?_cons, h a (by simp)]
    rw [ih (fun x hx => h x (by simp [hx]))]

theorem toUpper_of_isUpper (c : Char) (h : c.isUpper = true) : c.toUpper = c := by
  simp only [Char.isUpper, Bool.and_eq_true, decide_eq_true_eq, ge_iff_le, UInt32.le_def,
    BitVec.le_def] at h
  have h2 : c.toNat ≤ 90 := h.2
  have hn : ¬ (c.toNat ≥ 97 ∧ c.toNat ≤ 122) := by omega
  simp only [Char.toUpper, hn, if_false]

theorem toUpper_of_isDigit (c : Char) (h : c.isDigit = true) : c.toUpper = c := by
  simp only [Char.isDigit, Bool.and_eq_true, decide_eq_true_eq, ge_iff_le, UInt32.le_def,
    BitVec.le_def] at h
  have h2 : c.toNat ≤ 57 := h.2
  have hn : ¬ (c.toNat ≥ 97 ∧ c.toNat ≤ 122) := by omega
  simp only [Char.toUpper, hn, if_false]

theorem titleLoop_eq (title : Str → Str) (size : Nat) (i : Nat) (ps : List Str)
    (h : i + ps.length = size) :
    titleLoop title size i ps =
      List.intercalate ", ".toList
        (ps.map (fun p => p ++ " (".toList ++ title p ++ ")".toList)) := by
  induction ps generalizing i with
  | nil => rfl
  | cons p rest ih =>
    cases rest with
    | nil =>
      have : ¬ i < size - 1 := by simp at h; omega
      simp [titleLoop, this, List.intercalate]
    | cons r rs =>
      have hi : i < size - 1 := by simp at h; omega
      have := ih (i + 1) (by simp at h ⊢; omega)
      rw [titleLoop, this]
      simp [hi, List.intercalate, List.intersperse]

/-- With pairwise distinct course numbers, the map built from the records
returns for a key the record of the vector with that number. -/
theorem find_assignAll_nodup (recs : List Course)
    (hn : (recs.map (fun c => c.courseNumber)).Nodup) (k : Str) :
    (assignAll [] recs).find k = recs.find? (fun c => c.courseNumber == k) := by
  have hkn := keys_assignAll_nodup [] recs (by simp [UMap.keys])
  cases hf : recs.find? (fun c => c.courseNumber == k) with
  | none =>
    apply EnhancementOne.find_of_not_mem
    rw [keys_assignAll]
    rintro (h | h)
    · simp [UMap.keys] at h
    · obtain ⟨c, hc, hck⟩ := List.mem_map.mp h
      have := List.find?_eq_none.mp hf c hc
      simp [hck] at this
  | some c =>
    have hc := List.mem_of_find?_eq_some hf
    have hck : c.courseNumber = k := by simpa using List.find?_some hf
    apply EnhancementOne.find_of_mem _ hkn
    obtain ⟨before, after, rfl⟩ := List.append_of_mem hc
    rw [← hck]
    apply mem_assignAll_last
    intro d hd hdc
    rw [List.map_append, List.map_cons, List.nodup_append] at hn
    have h2 := (List.nodup_cons.mp hn.2.1).1
    exact h2 (List.mem_map.mpr ⟨d, hd, hdc⟩)

namespace EnhancementTwo

theorem split_eq_two (s : Str) (d : Char) :
    split s d = (getlines d s).filter (fun t => !t.isEmpty) := by
  unfold split
  suffices h : ∀ (l : List Str) (acc : List Str),
      l.foldl (fun tokens token => if !token.isEmpty then tokens ++ [token] else tokens) acc
      = acc ++ l.filter (fun t => !t.isEmpty) by
    simpa using h (getlines d s) []
  intro l
  induction l with
  | nil => simp
  | cons t ts ih =>
    intro acc
    simp only [List.foldl_cons, ih]
    by_cases ht : t.isEmpty = true <;> simp [List.filter_cons, ht]

theorem collectPrereqs_eq_two (tokens : List Str) :
    collectPrereqs tokens = (tokens.drop 2).filter isValidCourseNumber := by
  unfold collectPrereqs
  suffices h : ∀ (l acc : List Str),
      l.foldl (fun prerequisites tok =>
        if !tok.isEmpty && isValidCourseNumber tok then prerequisites ++ [tok]
        else prerequisites) acc
      = acc ++ l.filter isValidCourseNumber by
    simpa using h (tokens.drop 2) []
  intro l
  induction l with
  | nil => simp
  | cons t ts ih =>
    intro acc
    simp only [List.foldl_cons, ih]
    by_cases hv : isValidCourseNumber t = true
    · have hne : t.isEmpty = false := by
        cases t with
        | nil => simp [isValidCourseNumber] at hv
        | cons a b => rfl
      simp [hv, hne, List.filter_cons]
    · simp [hv, List.filter_cons]

theorem loadStep_eq_two (st : Catalog) (line : Str) :
    loadStep st line =
      match lineRecord line with
      | none => st
      | some c => ⟨st.courseMap.assign c.courseNumber c, st.sortedCourses ++ [c]⟩ := by
  unfold loadStep lineRecord
  simp only
  split_ifs <;> rfl

theorem foldl_loadStep_two (lines : List Str) (st : Catalog) :
    lines.foldl loadStep st =
      ⟨assignAll st.courseMap (lines.filterMap lineRecord),
        st.sortedCourses ++ lines.filterMap lineRecord⟩ := by
  induction lines generalizing st with
  | nil => simp [assignAll]
  | cons l ls ih =>
    rw [List.foldl_cons, ih, loadStep_eq_two]
    cases h : lineRecord l with
    | none => simp [List.filterMap_cons, h]
    | some c => simp [List.filterMap_cons, h, assignAll_cons]

theorem load_some_two (content : Str) (st : Catalog) :
    loadCoursesFromFile (some content) st =
      (true, ⟨assignAll [] ((getlines '\n' content).filterMap lineRecord),
        stdSort courseLt ((getlines '\n' content).filterMap lineRecord)⟩) := by
  unfold loadCoursesFromFile
  simp only [foldl_loadStep_two, List.nil_append]

theorem lineRecord_tokens_two (line t0 t1 : Str) (rest : List Str)
    (htok : split line ',' = t0 :: t1 :: rest)
    (hvalid : isValidCourseNumber t0 = true) :
    lineRecord line = some ⟨t0, t1, rest.filter isValidCourseNumber⟩ := by
  have hne : line.isEmpty = false := by
    cases line with
    | nil => simp [split, getlines] at htok
    | cons a b => rfl
  unfold lineRecord
  simp [hne, htok, hvalid, collectPrereqs_eq_two]

theorem lineRecord_valid_two (line : Str) (c : Course) (h : lineRecord line = some c) :
    isValidCourseNumber c.courseNumber = true := by
  unfold lineRecord at h
  simp only at h
  split_ifs at h with h1 h2 h3
  simp only [Option.some.injEq] at h
  subst h
  simpa using h3

theorem toUpperAll_valid (s : Str) (h : isValidCourseNumber s = true) : toUpperAll s = s := by
  unfold isValidCourseNumber at h
  split at h
  · simp only [Bool.and_eq_true] at h
    obtain ⟨⟨⟨⟨⟨⟨ha, hb⟩, hc⟩, hd⟩, hx⟩, hy⟩, hz⟩ := h
    simp [toUpperAll, toUpper_of_isUpper _ ha, toUpper_of_isUpper _ hb, toUpper_of_isUpper _ hc,
      toUpper_of_isUpper _ hd, toUpper_of_isDigit _ hx, toUpper_of_isDigit _ hy,
      toUpper_of_isDigit _ hz]
  · cases h

end EnhancementTwo

namespace Original

theorem split_eq_enhanced (s : Str) (d : Char) : split s d = EnhancementTwo.split s d := rfl

theorem collectPrereqs_eq_orig (tokens : List Str) :
    collectPrereqs tokens = (tokens.drop 2).filter (fun t => !t.isEmpty) := by
  unfold collectPrereqs
  suffices h : ∀ (l acc : List Str),
      l.foldl (fun prerequisites tok =>
        if !tok.isEmpty then prerequisites ++ [tok] else prerequisites) acc
      = acc ++ l.filter (fun t => !t.isEmpty) by
    simpa using h (tokens.drop 2) []
  intro l
  induction l with
  | nil => simp
  | cons t ts ih =>
    intro acc
    simp only [List.foldl_cons, ih]
    by_cases ht : t.isEmpty = true <;> simp [List.filter_cons, ht]

theorem loadStep_eq_orig (courses : List Course) (line : Str) :
    loadStep courses line =
      match lineRecord line with
      | none => courses
      | some c => courses ++ [c] := by
  unfold loadStep lineRecord
  simp only
  split_ifs <;> rfl

theorem foldl_loadStep_orig (lines : List Str) (courses : List Course) :
    lines.foldl loadStep courses = courses ++ lines.filterMap lineRecord := by
  induction lines generalizing courses with
  | nil => simp
  | cons l ls ih =>
    rw [List.foldl_cons, ih, loadStep_eq_orig]
    cases h : lineRecord l with
    | none => simp [List.filterMap_cons, h]
    | some c => simp [List.filterMap_cons, h]

theorem load_some_orig (content : Str) (courses : List Course) :
    loadCoursesFromFile (some content) courses =
      (true, (getlines '\n' content).filterMap lineRecord) := by
  unfold loadCoursesFromFile
  simp only [foldl_loadStep_orig, List.nil_append]

theorem prereqTitle_eq (courses : List Course) (p : Str) :
    prereqTitle courses p =
      match courses.find? (fun c => c.courseNumber == p) with
      | some c => c.courseTitle
      | none => "Unknown".toList := by
  induction courses with
  | nil => rfl
  | cons c cs ih =>
    by_cases h : (c.courseNumber == p) = true
    · simp [prereqTitle, List.find?_cons, h]
    · simp only [Bool.not_eq_true] at h
      simp only [prereqTitle, List.find?_cons, h]
      simpa using ih

theorem lineRecord_tokens_orig (line t0 t1 : Str) (rest : List Str)
    (htok : EnhancementTwo.split line ',' = t0 :: t1 :: rest)
    (hrest : ∀ p ∈ rest, EnhancementTwo.isValidCourseNumber p = true) :
    lineRecord line = some ⟨t0, t1, rest⟩ := by
  have hne : line.isEmpty = false := by
    cases line with
    | nil => simp [EnhancementTwo.split, getlines] at htok
    | cons a b => rfl
  have hfilter : rest.filter (fun t => !t.isEmpty) = rest := by
    rw [List.filter_eq_self]
    intro t ht
    have := hrest t ht
    cases t with
    | nil => simp [EnhancementTwo.isValidCourseNumber] at this
    | cons a b => rfl
  unfold lineRecord
  rw [split_eq_enhanced]
  simp [hne, htok, collectPrereqs_eq_orig, hfilter]

end Original

end ABCU

namespace ABCU

/-- Under the acceptance hypothesis the two loaders store the same record for
every line. -/
theorem lineRecord_original_eq (lines : List Str)
    (hacc : ∀ l ∈ lines, l ≠ [] → ∃ t0 t1 rest,
      EnhancementTwo.split l ',' = t0 :: t1 :: rest ∧
      EnhancementTwo.isValidCourseNumber t0 = true ∧
      ∀ p ∈ rest, EnhancementTwo.isValidCourseNumber p = true) :
    lines.filterMap Original.lineRecord = lines.filterMap EnhancementTwo.lineRecord := by
  induction lines with
  | nil => rfl
  | cons l ls ih =>
    have ih2 := ih (fun x hx => hacc x (by simp [hx]))
    cases l with
    | nil =>
      have h1 : Original.lineRecord [] = none := rfl
      have h2 : EnhancementTwo.lineRecord [] = none := rfl
      simp [List.filterMap_cons, h1, h2, ih2]
    | cons a b =>
      obtain ⟨t0, t1, rest, htok, hvalid, hrest⟩ := hacc (a :: b) (by simp) (by simp)
      have hf : rest.filter EnhancementTwo.isValidCourseNumber = rest :=
        List.filter_eq_self.mpr hrest
      rw [List.filterMap_cons, List.filterMap_cons,
        Original.lineRecord_tokens_orig _ t0 t1 rest htok hrest,
        EnhancementTwo.lineRecord_tokens_two _ t0 t1 rest htok hvalid, hf, ih2]

/-- The course numbers of the stored records are the first tokens of the
non-empty lines. -/
theorem numbers_of_records (lines : List Str)
    (hacc : ∀ l ∈ lines, l ≠ [] → ∃ t0 t1 rest,
      EnhancementTwo.split l ',' = t0 :: t1 :: rest ∧
      EnhancementTwo.isValidCourseNumber t0 = true ∧
      ∀ p ∈ rest, EnhancementTwo.isValidCourseNumber p = true) :
    (lines.filterMap EnhancementTwo.lineRecord).map (fun c => some c.courseNumber)
      = (lines.filter (fun l => !l.isEmpty)).map (fun l => (EnhancementTwo.split l ',').head?) := by
  induction lines with
  | nil => rfl
  | cons l ls ih =>
    have ih2 := ih (fun x hx => hacc x (by simp [hx]))
    cases l with
    | nil =>
      have h2 : EnhancementTwo.lineRecord [] = none := rfl
      simp [List.filterMap_cons, h2, List.filter_cons, ih2]
    | cons a b =>
      obtain ⟨t0, t1, rest, htok, hvalid, hrest⟩ := hacc (a :: b) (by simp) (by simp)
      rw [List.filterMap_cons, EnhancementTwo.lineRecord_tokens_two _ t0 t1 rest htok hvalid]
      simp [List.filter_cons, htok, ih2]

/-- On a vector of records with pairwise distinct, pattern-matching course
numbers, the detail query of the original program and the one of the enhanced
program on the map built from the vector print the same. -/
theorem printCourseInfo_eq_of_nodup (recs : List Course) (m : UMap) (q : Str)
    (hm : m.Perm (assignAll [] recs))
    (hn : (recs.map (fun c => c.courseNumber)).Nodup)
    (hv : ∀ c ∈ recs, EnhancementTwo.isValidCourseNumber c.courseNumber = true)
    (hq : EnhancementTwo.isValidCourseNumber (toUpperAll q) = true) :
    Original.printCourseInfo recs q = EnhancementTwo.printCourseInfo m q := by
  have hkn := keys_assignAll_nodup [] recs (by simp [UMap.keys])
  have hfind : ∀ k, m.find k = recs.find? (fun c => c.courseNumber == k) := fun k => by
    rw [find_eq_of_perm m _ hm hkn, find_assignAll_nodup recs hn]
  have htitle : Original.prereqTitle recs = EnhancementTwo.prereqTitle m := by
    funext p
    cases hf : recs.find? (fun c => c.courseNumber == p) with
    | none => simp [Original.prereqTitle_eq, EnhancementTwo.prereqTitle, hfind, hf]
    | some c => simp [Original.prereqTitle_eq, EnhancementTwo.prereqTitle, hfind, hf]
  have hscan : List.find? (fun c => toUpperAll c.courseNumber == toUpperAll q) recs
      = recs.find? (fun c => c.courseNumber == toUpperAll q) :=
    find?_congr_mem _ _ recs (fun c hc => by
      simp only [EnhancementTwo.toUpperAll_valid _ (hv c hc)])
  unfold Original.printCourseInfo EnhancementTwo.printCourseInfo
  cases recs with
  | nil =>
    have : m = [] := by simpa [assignAll] using hm
    simp [this]
  | cons r rs =>
    have hmne : m.isEmpty = false := by
      cases m with
      | nil =>
        have hk : r.courseNumber ∈ UMap.keys (assignAll [] (r :: rs)) :=
          (keys_assignAll [] (r :: rs) r.courseNumber).mpr (Or.inr (by simp))
        have hp : (UMap.keys ([] : UMap)).Perm (UMap.keys (assignAll [] (r :: rs))) := hm.map _
        exact absurd (hp.symm.subset hk) (List.not_mem_nil _)
      | cons a b => rfl
    simp only [List.isEmpty_cons, hmne, hq, hscan, hfind, htitle]
    cases List.find? (fun c => c.courseNumber == toUpperAll q) (r :: rs) <;> simp

namespace EnhancementTwo

/-- Claim C12 fails as stated: the line `CSCI101, Intro to Programming, CSCI100`
is stored with the title ` Intro to Programming`, the leading space kept, and
with no prerequisite, the token ` CSCI100` failing the pattern. -/
theorem load_untrimmed_fields_counterexample :
    loadCoursesFromFile (some "CSCI101, Intro to Programming, CSCI100".toList) ⟨[], []⟩
      = (true,
          ⟨[("CSCI101".toList, ⟨"CSCI101".toList, " Intro to Programming".toList, []⟩)],
            [⟨"CSCI101".toList, " Intro to Programming".toList, []⟩]⟩) := by
  decide

/-- Claim C12, amended. The fields are kept as written: `split` returns the
non-empty pieces between the delimiters without trimming, and a line whose
tokens are `t0, t1, rest` with `t0` matching the pattern is stored as the
record with number `t0`, title `t1` and the tokens of `rest` that match the
pattern as prerequisites. -/
theorem load_fields_verbatim (line t0 t1 : Str) (rest : List Str)
    (htok : split line ',' = t0 :: t1 :: rest)
    (hvalid : isValidCourseNumber t0 = true) :
    split line ',' = (getlines ',' line).filter (fun t => !t.isEmpty) ∧
    ∀ st : Catalog, loadStep st line =
      ⟨st.courseMap.assign t0 ⟨t0, t1, rest.filter isValidCourseNumber⟩,
        st.sortedCourses ++ [⟨t0, t1, rest.filter isValidCourseNumber⟩]⟩ := by
  refine ⟨split_eq_two line ',', fun st => ?_⟩
  rw [loadStep_eq_two, lineRecord_tokens_two line t0 t1 rest htok hvalid]

/-- Claim C12, amended, at the line `CSCI101,Intro to Programming,CSCI100`,
which has no blank around its fields. -/
theorem load_fields_verbatim_witness :
    loadStep ⟨[], []⟩ "CSCI101,Intro to Programming,CSCI100".toList =
      ⟨[("CSCI101".toList,
          ⟨"CSCI101".toList, "Intro to Programming".toList, ["CSCI100".toList]⟩)],
        [⟨"CSCI101".toList, "Intro to Programming".toList, ["CSCI100".toList]⟩]⟩ :=
  ((load_fields_verbatim "CSCI101,Intro to Programming,CSCI100".toList "CSCI101".toList
    "Intro to Programming".toList ["CSCI100".toList] (by decide) (by decide)).2 ⟨[], []⟩).trans
    (by decide)

/-- The two lines of the sample file `CSCI101,Intro,CSCI200,MATH100` /
`CSCI200,Data` are accepted with all their prerequisite tokens. -/
theorem sample_lines_accepted :
    ∀ l ∈ getlines '\n' "CSCI101,Intro,CSCI200,MATH100\nCSCI200,Data".toList, l ≠ [] →
      ∃ t0 t1 rest, split l ',' = t0 :: t1 :: rest ∧ isValidCourseNumber t0 = true ∧
        ∀ p ∈ rest, isValidCourseNumber p = true := by
  intro l hl _
  have h : getlines '\n' "CSCI101,Intro,CSCI200,MATH100\nCSCI200,Data".toList
      = ["CSCI101,Intro,CSCI200,MATH100".toList, "CSCI200,Data".toList] := by decide
  rw [h] at hl
  have hl2 : l = "CSCI101,Intro,CSCI200,MATH100".toList ∨ l = "CSCI200,Data".toList := by
    simpa using hl
  rcases hl2 with rfl | rfl
  · exact ⟨"CSCI101".toList, "Intro".toList, ["CSCI200".toList, "MATH100".toList],
      by decide, by decide, by decide⟩
  · exact ⟨"CSCI200".toList, "Data".toList, [], by decide, by decide, by decide⟩

/-- Claim C19 fails as stated: every line of the file `CSCI101,A` / `CSCI101,B`
is accepted by the enhanced loader, and for the query `CSCI101` the original
program prints the title `A` of the first line while the enhanced program
prints the title `B` of the last one. -/
theorem detail_variants_differ_counterexample :
    (getlines '\n' "CSCI101,A\nCSCI101,B".toList).map lineRecord
      = [some ⟨"CSCI101".toList, "A".toList, []⟩, some ⟨"CSCI101".toList, "B".toList, []⟩] ∧
    isValidCourseNumber (toUpperAll "CSCI101".toList) = true ∧
    Original.printCourseInfo
      (Original.loadCoursesFromFile (some "CSCI101,A\nCSCI101,B".toList) []).2 "CSCI101".toList
      = QueryResult.found "CSCI101".toList "A".toList "None".toList ∧
    printCourseInfo
      (loadCoursesFromFile (some "CSCI101,A\nCSCI101,B".toList) ⟨[], []⟩).2.courseMap
      "CSCI101".toList
      = QueryResult.found "CSCI101".toList "B".toList "None".toList := by
  decide

/-- Claim C19, amended. For a file in which every non-empty line is accepted by
the enhanced loader with all its prerequisite tokens kept and in which no two
non-empty lines have the same course number, and for a query whose upper-cased
form matches the pattern, `printCourseInfo` of `Original_ProjectTwo.cpp` and
`printCourseInfo` of `Enhanced_ABCU_Advising_Program.cpp` print the same after
loading the file: the same outcome, course number, title and prerequisites
text, for every iteration order of the map. -/
theorem detail_original_eq_enhanced (content : Str) (courses0 : List Course)
    (st0 : Catalog) (q : Str)
    (hacc : ∀ l ∈ getlines '\n' content, l ≠ [] → ∃ t0 t1 rest,
      split l ',' = t0 :: t1 :: rest ∧ isValidCourseNumber t0 = true ∧
      ∀ p ∈ rest, isValidCourseNumber p = true)
    (hdistinct : (((getlines '\n' content).filter (fun l => !l.isEmpty)).map
      (fun l => (split l ',').head?)).Nodup)
    (hq : isValidCourseNumber (toUpperAll q) = true) :
    ∀ m : UMap, m.Perm (loadCoursesFromFile (some content) st0).2.courseMap →
      Original.printCourseInfo (Original.loadCoursesFromFile (some content) courses0).2 q
        = printCourseInfo m q := by
  intro m hm
  rw [load_some_two] at hm
  rw [Original.load_some_orig]
  simp only at hm ⊢
  rw [lineRecord_original_eq _ hacc]
  apply printCourseInfo_eq_of_nodup _ m q hm
  · have h := numbers_of_records _ hacc
    rw [← h] at hdistinct
    have h2 : ((getlines '\n' content).filterMap lineRecord).map (fun c => some c.courseNumber)
        = (((getlines '\n' content).filterMap lineRecord).map (fun c => c.courseNumber)).map
          some := by
      rw [List.map_map]; rfl
    rw [h2] at hdistinct
    exact List.Nodup.of_map _ hdistinct
  · intro c hc
    obtain ⟨l, _, hl⟩ := List.mem_filterMap.mp hc
    exact lineRecord_valid_two l c hl
  · exact hq

/-- Claim C19, amended, at the file `CSCI101,Intro,CSCI200,MATH100` /
`CSCI200,Data` and the query `csci101`. -/
theorem detail_original_eq_enhanced_witness :
    Original.printCourseInfo
      (Original.loadCoursesFromFile
        (some "CSCI101,Intro,CSCI200,MATH100\nCSCI200,Data".toList) []).2 "csci101".toList
      = printCourseInfo
        (loadCoursesFromFile
          (some "CSCI101,Intro,CSCI200,MATH100\nCSCI200,Data".toList) ⟨[], []⟩).2.courseMap
        "csci101".toList :=
  detail_original_eq_enhanced "CSCI101,Intro,CSCI200,MATH100\nCSCI200,Data".toList [] ⟨[], []⟩
    "csci101".toList sample_lines_accepted (by decide) (by decide) _ (List.Perm.refl _)

end EnhancementTwo

end ABCU

/-! ## Order of records with equal course numbers -/

namespace ABCU

namespace EnhancementOne

/-- Claim C17 fails as stated: after the load of a file whose first two lines
are `CSCI110,First` and `CSCI110,Second` and whose other 15 lines are
`CSCI111` to `CSCI125` in order, `printCourseList` lists the record `Second`
of `CSCI110` before the record `First`, against their load order. -/
theorem listing_stable_counterexample :
    printCourseList (loadCoursesFromFile (some
      ("CSCI110,First\nCSCI110,Second\nCSCI111,T11\nCSCI112,T12\nCSCI113,T13\nCSCI114,T14\n" ++
       "CSCI115,T15\nCSCI116,T16\nCSCI117,T17\nCSCI118,T18\nCSCI119,T19\nCSCI120,T20\n" ++
       "CSCI121,T21\nCSCI122,T22\nCSCI123,T23\nCSCI124,T24\nCSCI125,T25\n").toList)
      ⟨[], []⟩).2.courses
      = some (
        [("CSCI110", "Second"), ("CSCI110", "First"), ("CSCI111", "T11"), ("CSCI112", "T12"),
         ("CSCI113", "T13"), ("CSCI114", "T14"), ("CSCI115", "T15"), ("CSCI116", "T16"),
         ("CSCI117", "T17"), ("CSCI118", "T18"), ("CSCI119", "T19"), ("CSCI120", "T20"),
         ("CSCI121", "T21"), ("CSCI122", "T22"), ("CSCI123", "T23"), ("CSCI124", "T24"),
         ("CSCI125", "T25")].map
          (fun p => (p.1.toList, p.2.toList))) := by
  decide

/-- Claim C17, amended. For a non-empty `courses`, `printCourseList` prints a
listing in ascending order of course number in which the lines with a given
course number are those of the records of `courses` with that number, in some
order; when `courses` has at most 16 records, they are in load order. -/
theorem listing_equal_codes_order (courses : List Course) (h : courses ≠ []) :
    ∃ l, printCourseList courses = some l ∧
      (l.map Prod.fst).Pairwise (fun a b => strLt a b = true ∨ a = b) ∧
      (∀ k, (l.filter (fun e => e.1 == k)).Perm
        ((courses.filter (fun c => c.courseNumber == k)).map
          (fun c => (c.courseNumber, c.courseTitle)))) ∧
      (courses.length ≤ 16 →
        ∀ k, l.filter (fun e => e.1 == k)
          = (courses.filter (fun c => c.courseNumber == k)).map
              (fun c => (c.courseNumber, c.courseTitle))) := by
  have hfm : ∀ (k : Str) (s : List Course),
      (s.map (fun c => (c.courseNumber, c.courseTitle))).filter (fun e => e.1 == k)
        = (s.filter (fun c => c.courseNumber == k)).map
            (fun c => (c.courseNumber, c.courseTitle)) := by
    intro k s
    rw [List.filter_map]
    rfl
  refine ⟨_, printCourseList_eq courses h, ?_, ?_, ?_⟩
  · rw [List.map_map, List.pairwise_map]
    refine (stdSort_sorted courseLt courseLt_asymm courseLe_trans courses).imp ?_
    intro a b hab
    exact (strLe_iff _ _).mp hab
  · intro k
    rw [hfm]
    exact ((stdSort_perm courseLt courses).filter _).map _
  · intro hlen k
    rw [hfm, stdSort_filter_short courseLt (fun c => c.courseNumber == k) courseLt_asymm
      courseLe_trans ?_ courses hlen]
    intro a b ha hb
    have ha2 : a.courseNumber = k := by simpa using ha
    have hb2 : b.courseNumber = k := by simpa using hb
    unfold courseLt
    rw [ha2, hb2]
    exact strLt_irrefl k

/-- Claim C17, amended, at the two courses `CSCI110` `First` and `CSCI110`
`Second`: the listing has the two lines in this order. -/
theorem listing_equal_codes_order_witness :
    ∃ l, printCourseList
        [⟨"CSCI110".toList, "First".toList, []⟩, ⟨"CSCI110".toList, "Second".toList, []⟩]
        = some l ∧
      (l.map Prod.fst).Pairwise (fun a b => strLt a b = true ∨ a = b) ∧
      (∀ k, (l.filter (fun e => e.1 == k)).Perm
        ((([⟨"CSCI110".toList, "First".toList, []⟩,
            ⟨"CSCI110".toList, "Second".toList, []⟩] : List Course).filter
              (fun c => c.courseNumber == k)).map
          (fun c => (c.courseNumber, c.courseTitle)))) ∧
      ((([⟨"CSCI110".toList, "First".toList, []⟩,
          ⟨"CSCI110".toList, "Second".toList, []⟩] : List Course)).length ≤ 16 →
        ∀ k, l.filter (fun e => e.1 == k)
          = (([⟨"CSCI110".toList, "First".toList, []⟩,
              ⟨"CSCI110".toList, "Second".toList, []⟩] : List Course).filter
                (fun c => c.courseNumber == k)).map
              (fun c => (c.courseNumber, c.courseTitle))) :=
  listing_equal_codes_order _ (by decide)

end EnhancementOne

end ABCU

/-! ## Blank fields and trailing blanks in `split` -/

namespace ABCU

open EnhancementOne

theorem find_last_append_blank (s bl : Str) (hbl : ∀ c ∈ bl, c ∈ blanks) :
    find_last_not_of blanks (s ++ bl) = find_last_not_of blanks s := by
  induction s with
  | nil =>
    simp only [List.nil_append, find_last_not_of]
    exact (find_last_not_of_eq_none blanks bl).mpr hbl
  | cons c cs ih =>
    have h1 : find_last_not_of blanks (c :: (cs ++ bl)) =
        match find_last_not_of blanks (cs ++ bl) with
        | some i => some (i + 1)
        | none => if c ∈ blanks then none else some 0 := rfl
    rw [List.cons_append, h1, ih]
    rfl

theorem find_last_lt (s : Str) (i : Nat) (h : find_last_not_of blanks s = some i) :
    i < s.length := by
  induction s generalizing i with
  | nil => simp [find_last_not_of] at h
  | cons c cs ih =>
    simp only [find_last_not_of] at h
    cases hl : find_last_not_of blanks cs with
    | some j =>
      simp only [hl, Option.some.injEq] at h
      have := ih j hl
      simp only [List.length_cons]
      omega
    | none =>
      simp only [hl] at h
      by_cases hc : c ∈ blanks
      · simp [hc] at h
      · simp only [hc, if_false, Option.some.injEq] at h
        simp only [List.length_cons]
        omega

theorem keepToLast_append_blank (s bl : Str) (hbl : ∀ c ∈ bl, c ∈ blanks) :
    keepToLast (s ++ bl) = keepToLast s := by
  unfold keepToLast
  rw [find_last_append_blank s bl hbl]
  cases h : find_last_not_of blanks s with
  | none => rfl
  | some i =>
    have := find_last_lt s i h
    simp only
    rw [List.take_append_of_le_length (by omega)]

theorem keepToLast_cons_nonblank (c : Char) (cs : Str) (hc : c ∉ blanks) :
    keepToLast (c :: cs) = c :: keepToLast cs := by
  unfold keepToLast
  simp only [find_last_not_of]
  cases find_last_not_of blanks cs with
  | none => simp [hc]
  | some i => simp

theorem keepToLast_decomp (s : Str) :
    ∃ bl, s = keepToLast s ++ bl ∧ ∀ c ∈ bl, c ∈ blanks := by
  induction s with
  | nil => exact ⟨[], by simp [keepToLast, find_last_not_of], by simp⟩
  | cons c cs ih =>
    cases hl : find_last_not_of blanks cs with
    | some j =>
      obtain ⟨bl, hs, hbl⟩ := ih
      refine ⟨bl, ?_, hbl⟩
      have h1 : keepToLast (c :: cs) = c :: keepToLast cs := by
        simp [keepToLast, find_last_not_of, hl]
      rw [h1, List.cons_append, ← hs]
    | none =>
      have hall := (find_last_not_of_eq_none blanks cs).mp hl
      by_cases hc : c ∈ blanks
      · refine ⟨c :: cs, by simp [keepToLast, find_last_not_of, hl, hc], ?_⟩
        intro x hx
        rcases List.mem_cons.mp hx with rfl | hx
        · exact hc
        · exact hall x hx
      · exact ⟨cs, by simp [keepToLast, find_last_not_of, hl, hc], hall⟩

theorem trim_append_blank (s bl : Str) (hbl : ∀ c ∈ bl, c ∈ blanks) :
    trim (s ++ bl) = trim s := by
  induction s with
  | nil =>
    rw [List.nil_append, trim_nil]
    unfold trim
    rw [(find_first_not_of_eq_none blanks bl).mpr hbl]
  | cons c cs ih =>
    by_cases hc : c ∈ blanks
    · rw [List.cons_append, trim_cons_blank c _ hc, trim_cons_blank c _ hc, ih]
    · rw [List.cons_append, trim_cons_nonblank c _ hc, trim_cons_nonblank c _ hc,
        keepToLast_append_blank cs bl hbl]

theorem trim_all_blank (bl : Str) (hbl : ∀ c ∈ bl, c ∈ blanks) : trim bl = [] := by
  unfold trim
  rw [(find_first_not_of_eq_none blanks bl).mpr hbl]

theorem trim_ne_nil (x : Str) (hx : ∃ c ∈ x, c ∉ blanks) : trim x ≠ [] := by
  induction x with
  | nil => obtain ⟨c, hc, _⟩ := hx; cases hc
  | cons a as ih =>
    by_cases ha : a ∈ blanks
    · rw [trim_cons_blank a as ha]
      apply ih
      obtain ⟨c, hc, hcb⟩ := hx
      rcases List.mem_cons.mp hc with rfl | hc
      · exact absurd ha hcb
      · exact ⟨c, hc, hcb⟩
    · rw [trim_cons_nonblank a as ha]
      simp

theorem split_eq_keptTokens (s : Str) (d : Char) : split s d = keptTokens (getlines d s) :=
  split_eq s d

theorem keptTokens_cons (t : Str) (ts : List Str) :
    keptTokens (t :: ts) = (if (trim t).isEmpty then [] else [trim t]) ++ keptTokens ts := by
  unfold keptTokens
  by_cases h : (trim t).isEmpty = true <;> simp [List.filter_cons, h]

theorem getlines_cons_ne (d c : Char) (cs : Str) (h : c ≠ d) :
    getlines d (c :: cs) =
      match getlines d cs with
      | [] => [[c]]
      | t :: ts => (c :: t) :: ts := by
  have h1 : getlines d (c :: cs) =
      if c = d then [] :: getlines d cs
      else
        match getlines d cs with
        | [] => [[c]]
        | t :: ts => (c :: t) :: ts := rfl
  rw [h1, if_neg h]

theorem getlines_single (d : Char) (t : Str) (hne : t ≠ []) (hd : d ∉ t) :
    getlines d t = [t] := by
  induction t with
  | nil => exact absurd rfl hne
  | cons c cs ih =>
    have hc : c ≠ d := fun h => hd (by simp [h])
    have hcs : d ∉ cs := fun h => hd (by simp [h])
    rw [getlines_cons_ne d c cs hc]
    cases cs with
    | nil => rfl
    | cons e es => rw [ih (by simp) hcs]

theorem keptTokens_getlines_cons_blank (d c : Char) (cs : Str) (hc : c ∈ blanks)
    (hcd : c ≠ d) : keptTokens (getlines d (c :: cs)) = keptTokens (getlines d cs) := by
  simp only [getlines, hcd, if_false]
  cases hg : getlines d cs with
  | nil =>
    simp only [keptTokens_cons, trim_cons_blank c [] hc, trim_nil]
    rfl
  | cons t ts =>
    simp only [keptTokens_cons, trim_cons_blank c t hc]

/-- Appending blanks to a text changes its pieces only in ways that the
trimming of `split` removes. -/
theorem getlines_append_blank (d : Char) (bl : Str) (hbl : ∀ c ∈ bl, c ∈ blanks)
    (hne : bl ≠ []) (hd : d ∉ blanks) (s : Str) :
    (getlines d s = [] ∧ getlines d (s ++ bl) = [bl]) ∨
    ∃ t t2 ts ts2, getlines d s = t :: ts ∧ getlines d (s ++ bl) = t2 :: ts2 ∧
      (t2 = t ∨ t2 = t ++ bl) ∧ keptTokens ts2 = keptTokens ts := by
  have hdbl : d ∉ bl := fun h => hd (hbl d h)
  induction s with
  | nil =>
    left
    exact ⟨rfl, by rw [List.nil_append, getlines_single d bl hne hdbl]⟩
  | cons x xs ih =>
    right
    by_cases hx : x = d
    · refine ⟨[], [], getlines d xs, getlines d (xs ++ bl), ?_, ?_, Or.inl rfl, ?_⟩
      · simp [getlines, hx]
      · simp [getlines, hx]
      · rcases ih with ⟨h1, h2⟩ | ⟨t, t2, ts, ts2, h1, h2, h3, h4⟩
        · rw [h1, h2, keptTokens_cons, trim_all_blank bl hbl]
          rfl
        · rw [h1, h2, keptTokens_cons, keptTokens_cons, h4]
          rcases h3 with rfl | rfl
          · rfl
          · rw [trim_append_blank t bl hbl]
    · rcases ih with ⟨h1, h2⟩ | ⟨t, t2, ts, ts2, h1, h2, h3, h4⟩
      · refine ⟨[x], x :: bl, [], [], ?_, ?_, Or.inr rfl, rfl⟩
        · simp [getlines, hx, h1]
        · simp [getlines, hx, h2]
      · refine ⟨x :: t, x :: t2, ts, ts2, ?_, ?_, ?_, h4⟩
        · simp [getlines, hx, h1]
        · simp [getlines, hx, h2]
        · rcases h3 with rfl | rfl
          · exact Or.inl rfl
          · exact Or.inr rfl

theorem keptTokens_getlines_append_blank (d : Char) (bl : Str) (hbl : ∀ c ∈ bl, c ∈ blanks)
    (hd : d ∉ blanks) (s : Str) :
    keptTokens (getlines d (s ++ bl)) = keptTokens (getlines d s) := by
  by_cases hne : bl = []
  · rw [hne, List.append_nil]
  · rcases getlines_append_blank d bl hbl hne hd s with ⟨h1, h2⟩ | ⟨t, t2, ts, ts2, h1, h2, h3, h4⟩
    · rw [h1, h2, keptTokens_cons, trim_all_blank bl hbl]
      rfl
    · rw [h1, h2, keptTokens_cons, keptTokens_cons, h4]
      rcases h3 with rfl | rfl
      · rfl
      · rw [trim_append_blank t bl hbl]

namespace EnhancementOne

/-- Trimming a line before splitting it does not change the tokens. -/
theorem split_trim (s : Str) (d : Char) (hd : d ∉ blanks) : split (trim s) d = split s d := by
  rw [split_eq_keptTokens, split_eq_keptTokens]
  induction s with
  | nil => rw [trim_nil]
  | cons c cs ih =>
    by_cases hc : c ∈ blanks
    · have hcd : c ≠ d := fun h => hd (h ▸ hc)
      rw [trim_cons_blank c cs hc, ih, keptTokens_getlines_cons_blank d c cs hc hcd]
    · rw [trim_cons_nonblank c cs hc, ← keepToLast_cons_nonblank c cs hc]
      obtain ⟨bl, hs, hbl⟩ := keepToLast_decomp (c :: cs)
      conv_rhs => rw [hs]
      rw [keptTokens_getlines_append_blank d bl hbl hd]

theorem comma_not_blank : ',' ∉ blanks := by decide

theorem lineRecord_of_split (line t0 t1 : Str) (rest : List Str)
    (htok : split line ',' = t0 :: t1 :: rest)
    (hvalid : isValidCourseNumber t0 = true) :
    lineRecord line = some ⟨t0, t1, rest.filter isValidCourseNumber⟩ :=
  lineRecord_tokens line t0 t1 rest (by rw [split_trim line ',' comma_not_blank, htok]) hvalid

theorem lineRecord_congr (l1 l2 : Str) (h : split l1 ',' = split l2 ',') :
    lineRecord l1 = lineRecord l2 := by
  have h2 : split (trim l1) ',' = split (trim l2) ',' := by
    rw [split_trim l1 ',' comma_not_blank, split_trim l2 ',' comma_not_blank, h]
  have hform : ∀ l : Str, lineRecord l =
      if (split (trim l) ',').length < 2 then none
      else
        if !isValidCourseNumber (trim ((split (trim l) ',').getD 0 [])) then none
        else some ⟨trim ((split (trim l) ',').getD 0 []), trim ((split (trim l) ',').getD 1 []),
          collectPrereqs (split (trim l) ',')⟩ := by
    intro l
    unfold lineRecord
    by_cases he : (trim l).isEmpty = true
    · have : trim l = [] := by simpa using he
      simp [this, split, getlines]
    · simp only [he]
      rfl
  rw [hform l1, hform l2, h2]

theorem valid_no_comma (code : Str) (h : isValidCourseNumber code = true) : ',' ∉ code := by
  intro hc
  have hall := (alnumLoop_iff code).mp (by
    unfold isValidCourseNumber at h
    split_ifs at h
    exact h)
  have := hall ',' hc
  revert this
  decide

theorem valid_trim (code : Str) (h : isValidCourseNumber code = true) :
    trim code = code ∧ code ≠ [] := by
  have hall := (alnumLoop_iff code).mp (by
    unfold isValidCourseNumber at h
    split_ifs at h
    exact h)
  refine ⟨trim_eq_self_of_no_blank code (fun c hc => isAlphanum_not_blank c (hall c hc)), ?_⟩
  intro h0
  rw [h0] at h
  simp [isValidCourseNumber] at h

end EnhancementOne

end ABCU

namespace ABCU

namespace EnhancementOne

theorem split_field_then_rest (x rest : Str) (hx : ',' ∉ x) (hxne : ∃ c ∈ x, c ∉ blanks)
    (hrest : rest = [] ∨ ∃ r, rest = ',' :: r) :
    split (x ++ rest) ',' = trim x :: split rest ',' := by
  have hne : x ≠ [] := by
    rintro rfl
    obtain ⟨c, hc, _⟩ := hxne
    cases hc
  have ht : (trim x).isEmpty = false := by
    cases h : trim x with
    | nil => exact absurd h (trim_ne_nil x hxne)
    | cons a b => rfl
  rw [split_eq_keptTokens, split_eq_keptTokens]
  rcases hrest with rfl | ⟨r, rfl⟩
  · rw [List.append_nil, getlines_single ',' x hne hx, keptTokens_cons, ht]
    rfl
  · have hg : getlines ',' (',' :: r) = [] :: getlines ',' r := by simp [getlines]
    rw [getlines_append_delim ',' x r hx, hg, keptTokens_cons, keptTokens_cons, ht, trim_nil]
    rfl

theorem split_code_then_rest (code rest : Str) (hcode : isValidCourseNumber code = true) :
    split (code ++ ',' :: rest) ',' = code :: split rest ',' := by
  have h1 := valid_trim code hcode
  have ht : (trim code).isEmpty = false := by
    rw [h1.1]
    cases code with
    | nil => exact absurd rfl h1.2
    | cons a b => rfl
  rw [split_eq_keptTokens, split_eq_keptTokens,
    getlines_append_delim ',' code rest (valid_no_comma code hcode), keptTokens_cons, ht, h1.1]
  rfl

theorem split_blank_then_rest (blank rest : Str) (hblank : ∀ c ∈ blank, c ∈ blanks) :
    split (blank ++ ',' :: rest) ',' = split rest ',' := by
  have hd : ',' ∉ blank := fun h => comma_not_blank (hblank _ h)
  rw [split_eq_keptTokens, split_eq_keptTokens, getlines_append_delim ',' blank rest hd,
    keptTokens_cons, trim_all_blank blank hblank]
  rfl

/-- Claim C20. For a line `CODE,<blank>,X[,rest]` with a valid `CODE`, a title
field of spaces and tabs only (or empty) and a field `X` that is not blank, the
iteration of the load loop does the same as for the line `CODE,X[,rest]`: it
stores the record with number `CODE`, title `X` trimmed, and as prerequisites
the valid tokens of the rest. -/
theorem blank_title_field_skipped (st : Catalog) (code blank x rest : Str)
    (hcode : isValidCourseNumber code = true)
    (hblank : ∀ c ∈ blank, c ∈ blanks)
    (hx : ',' ∉ x) (hxne : ∃ c ∈ x, c ∉ blanks)
    (hrest : rest = [] ∨ ∃ r, rest = ',' :: r) :
    loadStep st (code ++ ',' :: (blank ++ ',' :: (x ++ rest)))
      = loadStep st (code ++ ',' :: (x ++ rest)) ∧
    loadStep st (code ++ ',' :: (blank ++ ',' :: (x ++ rest)))
      = ⟨st.courses ++ [⟨code, trim x, (split rest ',').filter isValidCourseNumber⟩],
          st.courseMap.assign code
            ⟨code, trim x, (split rest ',').filter isValidCourseNumber⟩⟩ := by
  have h2 : split (code ++ ',' :: (x ++ rest)) ',' = code :: trim x :: split rest ',' := by
    rw [split_code_then_rest code _ hcode, split_field_then_rest x rest hx hxne hrest]
  have h1 : split (code ++ ',' :: (blank ++ ',' :: (x ++ rest))) ','
      = code :: trim x :: split rest ',' := by
    rw [split_code_then_rest code _ hcode, split_blank_then_rest blank _ hblank,
      split_field_then_rest x rest hx hxne hrest]
  have hr1 := lineRecord_of_split _ code (trim x) (split rest ',') h1 hcode
  have hr2 := lineRecord_of_split _ code (trim x) (split rest ',') h2 hcode
  refine ⟨?_, ?_⟩
  · rw [loadStep_eq, loadStep_eq, hr1, hr2]
  · rw [loadStep_eq, hr1]

/-- Claim C20 at the line `CSCI101, <tab>,Intro,CSCI100`. -/
theorem blank_title_field_skipped_witness :
    loadStep ⟨[], []⟩ ("CSCI101".toList ++ ',' :: (" \t".toList ++ ',' ::
        ("Intro".toList ++ ",CSCI100".toList)))
      = loadStep ⟨[], []⟩ ("CSCI101".toList ++ ',' :: ("Intro".toList ++ ",CSCI100".toList)) ∧
    loadStep ⟨[], []⟩ ("CSCI101".toList ++ ',' :: (" \t".toList ++ ',' ::
        ("Intro".toList ++ ",CSCI100".toList)))
      = ⟨[] ++ [⟨"CSCI101".toList, trim "Intro".toList,
          (split ",CSCI100".toList ',').filter isValidCourseNumber⟩],
          UMap.assign [] "CSCI101".toList
            ⟨"CSCI101".toList, trim "Intro".toList,
              (split ",CSCI100".toList ',').filter isValidCourseNumber⟩⟩ :=
  blank_title_field_skipped ⟨[], []⟩ "CSCI101".toList " \t".toList "Intro".toList
    ",CSCI100".toList (by decide) (by decide) (by decide) ⟨'I', by decide, by decide⟩
    (Or.inr ⟨"CSCI100".toList, rfl⟩)

end EnhancementOne

end ABCU

/-! ## `split` against cutting at every delimiter -/

namespace ABCU

open EnhancementOne

end ABCU

/-! ## The two validity predicates and the specification of `split` -/

namespace ABCU

theorem isUpper_iff (c : Char) : c.isUpper = true ↔ 65 ≤ c.toNat ∧ c.toNat ≤ 90 := by
  simp only [Char.isUpper, Char.toNat, Bool.and_eq_true, decide_eq_true_eq, ge_iff_le,
    UInt32.le_def, BitVec.le_def, UInt32.toNat]
  exact Iff.rfl

theorem isDigit_iff (c : Char) : c.isDigit = true ↔ IsAsciiDigit c := by
  simp only [Char.isDigit, IsAsciiDigit, Char.toNat, Bool.and_eq_true, decide_eq_true_eq,
    ge_iff_le, UInt32.le_def, BitVec.le_def, UInt32.toNat]
  exact Iff.rfl

theorem isAlphanum_of_isUpper (c : Char) (h : c.isUpper = true) : c.isAlphanum = true := by
  simp [Char.isAlphanum, Char.isAlpha, h]

theorem isAlphanum_of_isDigit (c : Char) (h : c.isDigit = true) : c.isAlphanum = true := by
  simp [Char.isAlphanum, h]

namespace EnhancementTwo

theorem isValidCourseNumber_chars (s : Str) (h : isValidCourseNumber s = true) :
    ∃ a b c d x y z, s = [a, b, c, d, x, y, z] ∧ a.isUpper = true ∧ b.isUpper = true ∧
      c.isUpper = true ∧ d.isUpper = true ∧ x.isDigit = true ∧ y.isDigit = true ∧
      z.isDigit = true := by
  unfold isValidCourseNumber at h
  split at h
  · rename_i a b c d x y z
    simp only [Bool.and_eq_true] at h
    obtain ⟨⟨⟨⟨⟨⟨ha, hb⟩, hc⟩, hd⟩, hx⟩, hy⟩, hz⟩ := h
    exact ⟨a, b, c, d, x, y, z, rfl, ha, hb, hc, hd, hx, hy, hz⟩
  · cases h

/-- Claim C21. Every string that `isValidCourseNumber` of
`Enhanced_ABCU_Advising_Program.cpp` accepts, that is every string of exactly
four ASCII upper-case letters followed by exactly three ASCII digits, is
accepted by `isValidCourseNumber` of `Enhanced_ProjectTwo.cpp`; the converse
fails: `csci101` is accepted by the second and rejected by the first. -/
theorem strict_valid_implies_loose :
    (∀ s, isValidCourseNumber s = true → EnhancementOne.isValidCourseNumber s = true) ∧
    (EnhancementOne.isValidCourseNumber "csci101".toList = true ∧
      isValidCourseNumber "csci101".toList = false) ∧
    (∀ s, isValidCourseNumber s = true ↔
      s.length = 7 ∧ (∀ c ∈ s.take 4, 65 ≤ c.toNat ∧ c.toNat ≤ 90) ∧
        ∀ c ∈ s.drop 4, IsAsciiDigit c) := by
  refine ⟨?_, by decide, ?_⟩
  · intro s h
    obtain ⟨a, b, c, d, x, y, z, rfl, ha, hb, hc, hd, hx, hy, hz⟩ :=
      isValidCourseNumber_chars s h
    simp [EnhancementOne.isValidCourseNumber, EnhancementOne.alnumLoop,
      isAlphanum_of_isUpper _ ha, isAlphanum_of_isUpper _ hb, isAlphanum_of_isUpper _ hc,
      isAlphanum_of_isUpper _ hd, isAlphanum_of_isDigit _ hx, isAlphanum_of_isDigit _ hy,
      isAlphanum_of_isDigit _ hz]
  · intro s
    constructor
    · intro h
      obtain ⟨a, b, c, d, x, y, z, rfl, ha, hb, hc, hd, hx, hy, hz⟩ :=
        isValidCourseNumber_chars s h
      refine ⟨rfl, ?_, ?_⟩
      · intro e he
        simp only [List.take, List.mem_cons, List.mem_singleton] at he
        rcases he with rfl | rfl | rfl | rfl | he
        · exact (isUpper_iff _).mp ha
        · exact (isUpper_iff _).mp hb
        · exact (isUpper_iff _).mp hc
        · exact (isUpper_iff _).mp hd
        · cases he
      · intro e he
        simp only [List.drop, List.mem_cons, List.mem_singleton] at he
        rcases he with rfl | rfl | rfl | he
        · exact (isDigit_iff _).mp hx
        · exact (isDigit_iff _).mp hy
        · exact (isDigit_iff _).mp hz
        · cases he
    · rintro ⟨hlen, hup, hdig⟩
      rcases s with _ | ⟨a, _ | ⟨b, _ | ⟨c, _ | ⟨d, _ | ⟨x, _ | ⟨y, _ | ⟨z, _ | ⟨w, r⟩⟩⟩⟩⟩⟩⟩⟩ <;>
        simp only [List.length_cons, List.length_nil] at hlen <;> try omega
      have ha := (isUpper_iff a).mpr (hup a (by simp))
      have hb := (isUpper_iff b).mpr (hup b (by simp))
      have hc := (isUpper_iff c).mpr (hup c (by simp))
      have hd := (isUpper_iff d).mpr (hup d (by simp))
      have hx := (isDigit_iff x).mpr (hdig x (by simp))
      have hy := (isDigit_iff y).mpr (hdig y (by simp))
      have hz := (isDigit_iff z).mpr (hdig z (by simp))
      simp [isValidCourseNumber, ha, hb, hc, hd, hx, hy, hz]

end EnhancementTwo

namespace EnhancementOne

end EnhancementOne

end ABCU
